import Mathlib

/-!
GIFLoader: a shallow embedding of `juce_GIFLoader.cpp`

The decoder state of the C++ class `GIFLoader` is a record; every member
function becomes a function on that record.  Conventions of the embedding:

* the `InputStream` is the list of bytes not yet read; `read (dest, n)` hands
  over the first `min n remaining` bytes and reports how many it handed over;
* `int` values are mathematical integers (no 32-bit wrap-around): `1 << k` is
  `2 ^ k`, `i >> 3` and `i & 7` are floor division and remainder by 8;
* an array is a total map on the integers.  Indexing is not trapped, exactly as
  in C++; the contents found outside what the code has written (members the
  constructor does not initialise, uninitialised locals) are supplied by a
  `Junk` value over which the theorems quantify;
* a loop that the source does not bound takes a fuel argument and yields `none`
  when the fuel is used up.
-/

namespace GIF

/-- One byte of the stream (`unsigned char`). -/
abbrev Byte := Fin 256

/-- Store into an array cell: `a[i] = v`. -/
def store {α : Type} (a : Int → α) (i : Int) (v : α) : Int → α :=
  fun j => if j = i then v else a j

/-- Store a run of bytes: `dest[0 .. ), dest = &a[base]`, as `InputStream::read` does. -/
def storeBytes (a : Int → Nat) (base : Int) : List Byte → Int → Nat
  | [] => a
  | b :: bs => storeBytes (store a base b.val) (base + 1) bs

/-- The source's `makeWord`: `(b << 8) | a`. -/
def makeWord (a b : Byte) : Int := (((b.val <<< 8) ||| a.val : Nat) : Int)

/-- One row of `unsigned char colourMap[256][4]`. -/
structure PaletteEntry where
  c0 : Nat
  c1 : Nat
  c2 : Nat
  c3 : Nat
deriving DecidableEq, Repr

/-- What a pixel holds after the write: the components of a `PixelARGB`
(after `premultiply`) or of a `PixelRGB`. -/
inductive PixelValue where
  | argb (a r g b : Nat)
  | rgb (r g b : Nat)
deriving DecidableEq, Repr

/-- One write through the locked pixel pointer `p = pixels + x * pixelStride + y * stride`,
with the palette index that was looked up for it. -/
structure PixelWrite where
  x : Int
  y : Int
  index : Int
  value : PixelValue
deriving DecidableEq, Repr

/-- The collaborator-owned `Image`: its format, its size and the pixel writes it received. -/
structure Image where
  hasAlpha : Bool
  width : Int
  height : Int
  writes : List PixelWrite
deriving DecidableEq, Repr

/-- Contents of the storage the code reads before writing it.  Every call of a function finds
the same contents in its uninitialised locals. -/
structure Junk where
  /-- Member `buffer`, never initialised by the constructor (also what lies around it). -/
  buffer : Int → Byte
  /-- Member `table[0]`. -/
  table0 : Int → Int
  /-- Member `table[1]`. -/
  table1 : Int → Int
  /-- The constructor's local `colourMap`. -/
  colourMap : Int → PaletteEntry
  /-- Local `rgb` of `readColourMap`. -/
  rgb : Int → Byte
  /-- Local `b` of `processExtension`. -/
  b : Int → Byte

/-- A junk value with every cell zero. -/
def Junk.zero : Junk :=
  { buffer := fun _ => 0, table0 := fun _ => 0, table1 := fun _ => 0,
    colourMap := fun _ => ⟨0, 0, 0, 0⟩, rgb := fun _ => 0, b := fun _ => 0 }

/-- The members of `GIFLoader`.  `stack` holds the cells `stack[0 .. sp)`, top first. -/
structure GIFLoader where
  image : Option Image
  input : List Byte
  dataBlockIsZero : Bool
  fresh : Bool
  finished : Bool
  currentBit : Int
  lastBit : Int
  lastByteIndex : Int
  maxCode : Int
  maxCodeSize : Int
  codeSize : Int
  setCodeSize : Int
  firstcode : Int
  oldcode : Int
  clearCode : Int
  end_code : Int
  buffer : Int → Nat
  table0 : Int → Int
  table1 : Int → Int
  stack : List Int

/-- The constant `maxGifCode` of the class declaration (the 12-bit LZW ceiling). -/
def maxGifCode : Int := 4096

/-- The member initialisers and the first assignments of the constructor. -/
def GIFLoader.init (junk : Junk) (inp : List Byte) : GIFLoader :=
  { image := none, input := inp, dataBlockIsZero := false, fresh := false, finished := false,
    currentBit := 0, lastBit := 0, lastByteIndex := 0,
    maxCode := 0, maxCodeSize := 0, codeSize := 0, setCodeSize := 0,
    firstcode := 0, oldcode := 0, clearCode := 0, end_code := 0,
    buffer := fun i => (junk.buffer i).val, table0 := junk.table0, table1 := junk.table1,
    stack := [] }

/-- The source's `readDataBlock`: the result, the bytes stored at `dest`, the new state. -/
def GIFLoader.readDataBlock (s : GIFLoader) : Int × List Byte × GIFLoader :=
  match s.input with
  | [] => (-1, [], s)
  | n :: rest =>
    let s1 := { s with input := rest, dataBlockIsZero := (n.val == 0) }
    if n.val = 0 then (0, [], s1)
    else
      let got := rest.take n.val
      let s2 := { s1 with input := rest.drop n.val }
      if got.length = n.val then ((n.val : Int), got, s2) else (-1, got, s2)

/-- The bit loop of `getCode`: `n` rounds from bit `i`, writing result bit `j`. -/
def getCodeBits (buffer : Int → Nat) : Nat → Int → Nat → Nat → Nat
  | 0, _, _, result => result
  | n + 1, i, j, result =>
    getCodeBits buffer n (i + 1) (j + 1)
      (result ||| ((if buffer (i / 8) &&& (1 <<< (i % 8).toNat) ≠ 0 then 1 else 0) <<< j))

/-- The refill of `getCode` (source lines 223-233): carry two bytes over and read a sub-block. -/
def GIFLoader.getCodeRefill (s : GIFLoader) : GIFLoader :=
  let buf0 := store s.buffer 0 (s.buffer (s.lastByteIndex - 2))
  let buf1 := store buf0 1 (buf0 (s.lastByteIndex - 1))
  let r := { s with buffer := buf1 }.readDataBlock
  let n := r.1
  let t := r.2.2
  { t with buffer := storeBytes t.buffer 2 r.2.1,
           finished := if n = 0 then true else t.finished,
           lastByteIndex := 2 + n,
           currentBit := (t.currentBit - t.lastBit) + 16,
           lastBit := (2 + n) * 8 }

/-- The extraction of `getCode` (source lines 236-247). -/
def GIFLoader.getCodeExtract (s : GIFLoader) (codeSize : Int) : Int × GIFLoader :=
  ((getCodeBits s.buffer codeSize.toNat s.currentBit 0 0 : Nat),
   { s with currentBit := s.currentBit + codeSize })

/-- The source's `getCode`. -/
def GIFLoader.getCode (s : GIFLoader) (codeSize : Int) (initialise : Bool) : Int × GIFLoader :=
  if initialise then
    (0, { s with currentBit := 0, lastBit := 0, finished := false })
  else if s.currentBit + codeSize ≥ s.lastBit then
    if s.finished then (-1, s)
    else s.getCodeRefill.getCodeExtract codeSize
  else s.getCodeExtract codeSize

/-- The loop `while ((n = readDataBlock (buf)) > 0) {}` (also the `do ... while (n > 0)` of
`processExtension`, which reads once before its first test): the last `n` and the state. -/
def skipDataBlocks : Nat → GIFLoader → Option (Int × GIFLoader)
  | 0, _ => none
  | fuel + 1, s =>
    let r := s.readDataBlock
    if r.1 > 0 then skipDataBlocks fuel r.2.2 else some (r.1, r.2.2)

/-- The first table loop: `for (i = 0; i < clearCode; ++i) { table[0][i] = 0; table[1][i] = i; }`,
as its first `n` rounds. -/
def fillIdentity : Nat → (Int → Int) × (Int → Int) → (Int → Int) × (Int → Int)
  | 0, t => t
  | n + 1, t =>
    let u := fillIdentity n t
    (store u.1 n 0, store u.2 n n)

/-- The second table loop of the initialise branch, `n` rounds from `i = start`:
`table[0][i] = table[1][0] = 0`. -/
def fillRestInit (start : Int) : Nat → (Int → Int) × (Int → Int) → (Int → Int) × (Int → Int)
  | 0, t => t
  | n + 1, t =>
    let u := fillRestInit start n t
    (store u.1 (start + n) 0, store u.2 0 0)

/-- The second table loop of the clear-code branch, `n` rounds from `i = start`:
`table[0][i] = 0; table[1][i] = 0`. -/
def fillRestClear (start : Int) : Nat → (Int → Int) × (Int → Int) → (Int → Int) × (Int → Int)
  | 0, t => t
  | n + 1, t =>
    let u := fillRestClear start n t
    (store u.1 (start + n) 0, store u.2 (start + n) 0)

/-- The assignment `firstcode = oldcode = c`. -/
def GIFLoader.setFirst (s : GIFLoader) (c : Int) : GIFLoader :=
  { s with firstcode := c, oldcode := c }

/-- The `do ... while (firstcode == clearCode)` loop of the `fresh` branch. -/
def freshLoop : Nat → GIFLoader → Option (Int × GIFLoader)
  | 0, _ => none
  | fuel + 1, s =>
    let r := s.getCode s.codeSize false
    if r.1 = r.2.clearCode then freshLoop fuel (r.2.setFirst r.1)
    else some (r.1, r.2.setFirst r.1)

/-- How the prefix-chain walk ends. -/
inductive Walk where
  /-- The loop ended with `code < clearCode`. -/
  | base (code : Int) (stack : List Int)
  /-- The loop hit `code == table[0][code]` and the function returned -2. -/
  | selfRef (stack : List Int)

/-- The loop `while (code >= clearCode) { *sp++ = table[1][code]; ... }`. -/
def walkChain (clearCode : Int) (table0 table1 : Int → Int) : Nat → Int → List Int → Option Walk
  | 0, _, _ => none
  | fuel + 1, code, stack =>
    if code ≥ clearCode then
      if code = table0 code then some (.selfRef (table1 code :: stack))
      else walkChain clearCode table0 table1 fuel (table0 code) (table1 code :: stack)
    else some (.base code stack)

/-- The block `else if (code == end_code) { ... }` of `readLZWByte`: the flag tells whether
it executed `return -2`; with `false` control goes on to `incode = code`. -/
def endCodeBlock (F : Nat) (s : GIFLoader) (code : Int) : Option (Bool × GIFLoader) :=
  if code = s.end_code then
    if s.dataBlockIsZero then some (true, s)
    else
      match skipDataBlocks F s with
      | none => none
      | some (n, t) => if n ≠ 0 then some (true, t) else some (false, t)
  else some (false, s)

/-- The table reset of the clear-code branch of `readLZWByte` (source lines 303-318). -/
def GIFLoader.resetTable (s : GIFLoader) : GIFLoader :=
  let n1 := s.clearCode.toNat
  let t := fillRestClear n1 (maxGifCode - n1).toNat (fillIdentity n1 (s.table0, s.table1))
  { s with table0 := t.1, table1 := t.2,
           codeSize := s.setCodeSize + 1,
           maxCodeSize := 2 * s.clearCode,
           maxCode := s.clearCode + 2,
           stack := [] }

/-- The clear-code branch of `readLZWByte` (source lines 303-320): the value returned and
the new state. -/
def GIFLoader.clearTable (s : GIFLoader) : Int × GIFLoader :=
  let q := s.resetTable.getCode s.resetTable.codeSize false
  (q.1, q.2.setFirst q.1)

/-- Source lines 340-355 of `readLZWByte`: the `code >= maxCode` case, the chain walk and the
push of the base pixel.  The flag tells whether the walk executed `return -2`. -/
def GIFLoader.expandCode (F : Nat) (s : GIFLoader) (code : Int) : Option (Bool × GIFLoader) :=
  let start : Int × List Int :=
    if code ≥ s.maxCode then (s.oldcode, s.firstcode :: s.stack) else (code, s.stack)
  match walkChain s.clearCode s.table0 s.table1 F start.1 start.2 with
  | none => none
  | some (.selfRef stk) => some (true, { s with stack := stk })
  | some (.base c stk) => some (false, { s with stack := s.table1 c :: stk, firstcode := s.table1 c })

/-- Source lines 357-371 of `readLZWByte`: the table entry for `maxCode`, the growth of the
code width, and `oldcode = incode`. -/
def GIFLoader.installCode (s : GIFLoader) (incode : Int) : GIFLoader :=
  let s4 :=
    if s.maxCode < maxGifCode then
      let s5 := { s with table0 := store s.table0 s.maxCode s.oldcode,
                         table1 := store s.table1 s.maxCode s.firstcode,
                         maxCode := s.maxCode + 1 }
      if s5.maxCode ≥ s5.maxCodeSize ∧ s5.maxCodeSize < maxGifCode then
        { s5 with maxCodeSize := s5.maxCodeSize * 2, codeSize := s5.codeSize + 1 }
      else s5
    else s
  { s4 with oldcode := incode }

/-- The loop `while ((code = getCode (codeSize, false)) >= 0) { ... } return code;` of
`readLZWByte`; `F` is the fuel handed to the loops inside. -/
def lzwLoop (F : Nat) : Nat → GIFLoader → Option (Int × GIFLoader)
  | 0, _ => none
  | fuel + 1, s =>
    let r := s.getCode s.codeSize false
    if r.1 ≥ 0 then
      if r.1 = r.2.clearCode then some r.2.clearTable
      else
        match endCodeBlock F r.2 r.1 with
        | none => none
        | some (true, s2) => some (-2, s2)
        | some (false, s2) =>
          match s2.expandCode F r.1 with
          | none => none
          | some (true, s3) => some (-2, s3)
          | some (false, s3) =>
            match (s3.installCode r.1).stack with
            | v :: rest => some (v, { s3.installCode r.1 with stack := rest })
            | [] => lzwLoop F fuel (s3.installCode r.1)
    else some r

/-- The source's `readLZWByte`; `F` is the fuel of its loops. -/
def GIFLoader.readLZWByte (F : Nat) (s : GIFLoader) (initialise : Bool) (inputCodeSize : Int) :
    Option (Int × GIFLoader) :=
  if initialise then
    let clearCode : Int := 2 ^ inputCodeSize.toNat
    let s1 := { s with setCodeSize := inputCodeSize,
                       codeSize := inputCodeSize + 1,
                       clearCode := clearCode,
                       end_code := clearCode + 1,
                       maxCodeSize := 2 * clearCode,
                       maxCode := clearCode + 2 }
    let s2 := (s1.getCode 0 true).2
    let n1 := clearCode.toNat
    let t := fillRestInit n1 (maxGifCode - n1).toNat (fillIdentity n1 (s2.table0, s2.table1))
    some (0, { s2 with fresh := true, table0 := t.1, table1 := t.2, stack := [] })
  else if s.fresh then
    freshLoop F { s with fresh := false }
  else
    match s.stack with
    | v :: rest => some (v, { s with stack := rest })
    | [] => lzwLoop F F s

/-- Modelled from the spec: `PixelARGB::setARGB` followed by `PixelARGB::premultiply`
(juce_PixelFormats.h is not among the sources): the colour components are multiplied by
alpha, so alpha 255 leaves them and alpha 0 clears them. -/
def premultiplied (a r g b : Nat) : PixelValue :=
  .argb a (r * a / 255) (g * a / 255) (b * a / 255)

/-- The value stored for a palette entry (source lines 412-431). -/
def pixelFor (hasAlpha : Bool) (e : PaletteEntry) : PixelValue :=
  if hasAlpha then premultiplied e.c3 e.c0 e.c1 e.c2 else .rgb e.c0 e.c1 e.c2

/-- The loop `while (ypos >= height) { ++pass; switch (pass) ... }` of the interlaced
row advance: `some none` is its `return true`, `some (some (ypos, pass))` its normal exit. -/
def interlaceSkip (height : Int) : Nat → Int → Int → Option (Option (Int × Int))
  | 0, _, _ => none
  | fuel + 1, ypos, pass =>
    if ypos ≥ height then
      if pass + 1 = 1 then interlaceSkip height fuel 4 (pass + 1)
      else if pass + 1 = 2 then interlaceSkip height fuel 2 (pass + 1)
      else if pass + 1 = 3 then interlaceSkip height fuel 1 (pass + 1)
      else some none
    else some (some (ypos, pass))

/-- The first `switch (pass)` of the interlaced row advance. -/
def interlaceStep (ypos pass : Int) : Int :=
  if pass = 0 ∨ pass = 1 then ypos + 8
  else if pass = 2 then ypos + 4
  else if pass = 3 then ypos + 2
  else ypos

/-- The cursor of `readImage`: `xpos`, `ypos`, `pass` and the pointer `p`, kept as the
column and row it stands on. -/
structure Raster where
  xpos : Int
  ypos : Int
  pass : Int
  px : Int
  py : Int
deriving DecidableEq, Repr

/-- The pixel loop of `readImage` (source lines 408-485) over any source of indices `next`
(`readLZWByte (false, c)` in the decoder): the pixel writes made and the final source state. -/
def rasterLoop {σ : Type} (F : Nat) (next : σ → Option (Int × σ)) (palette : Int → PaletteEntry)
    (width height : Int) (interlace hasAlpha : Bool) :
    Nat → σ → Raster → List PixelWrite → Option (List PixelWrite × σ)
  | 0, _, _, _ => none
  | fuel + 1, s, r, writes =>
    match next s with
    | none => none
    | some (index, s1) =>
      if index ≥ 0 then
        let writes1 := writes ++ [⟨r.px, r.py, index, pixelFor hasAlpha (palette index)⟩]
        let r1 := { r with px := r.px + 1, xpos := r.xpos + 1 }
        if r1.xpos = width then
          if interlace then
            match interlaceSkip height F (interlaceStep r1.ypos r1.pass) r1.pass with
            | none => none
            | some none => some (writes1, s1)
            | some (some (y, q)) =>
              if y ≥ height then some (writes1, s1)
              else rasterLoop F next palette width height interlace hasAlpha fuel s1
                     ⟨0, y, q, 0, y⟩ writes1
          else
            if r1.ypos + 1 ≥ height then some (writes1, s1)
            else rasterLoop F next palette width height interlace hasAlpha fuel s1
                   ⟨0, r1.ypos + 1, r1.pass, 0, r1.ypos + 1⟩ writes1
        else
          if r1.ypos ≥ height then some (writes1, s1)
          else rasterLoop F next palette width height interlace hasAlpha fuel s1 r1 writes1
      else some (writes, s1)

/-- The source's `readImage`: its result, the pixel writes made through the locked pixel
data, and the new state.  `hasAlpha` is `image->hasAlphaChannel()`. -/
def GIFLoader.readImage (F : Nat) (s : GIFLoader) (palette : Int → PaletteEntry)
    (width height : Int) (interlace : Bool) (transparent : Int) (hasAlpha : Bool) :
    Option (Bool × List PixelWrite × GIFLoader) :=
  match s.input with
  | [] => some (false, [], s)
  | c :: rest =>
    match { s with input := rest }.readLZWByte F true c.val with
    | none => none
    | some (r, s1) =>
      if r < 0 then some (false, [], s1)
      else
        let palette1 := if transparent ≠ -1 then store palette transparent ⟨0, 0, 0, 0⟩ else palette
        match rasterLoop F (fun t => t.readLZWByte F false c.val) palette1 width height
                interlace hasAlpha F s1 ⟨0, 0, 0, 0, 0⟩ [] with
        | none => none
        | some (writes, s2) => some (true, writes, s2)

/-- The loop of `readColourMap`, `n` rounds from entry `i`. -/
def readColourMapLoop : Nat → Int → List Byte → (Int → Nat) → (Int → PaletteEntry) →
    List Byte × (Int → PaletteEntry)
  | 0, _, inp, _, cm => (inp, cm)
  | n + 1, i, inp, rgb, cm =>
    let rgb1 := storeBytes rgb 0 (inp.take 3)
    readColourMapLoop n (i + 1) (inp.drop 3) rgb1 (store cm i ⟨rgb1 0, rgb1 1, rgb1 2, 0xff⟩)

/-- The source's `readColourMap`: its result (always `true`), the colour buffer, the new state. -/
def GIFLoader.readColourMap (s : GIFLoader) (junk : Junk) (numCols : Nat)
    (colourBuffer : Int → PaletteEntry) : Bool × (Int → PaletteEntry) × GIFLoader :=
  let r := readColourMapLoop numCols 0 s.input (fun i => (junk.rgb i).val) colourBuffer
  (true, r.2, { s with input := r.1 })

/-- The source's `processExtension`: its result, the new value of `transparent`, the log of
the values assigned to `transparent` so far, and the new state. -/
def GIFLoader.processExtension (F : Nat) (s : GIFLoader) (junk : Junk) (type : Nat)
    (transparent : Int) (gce : List Nat) : Option (Int × Int × List Nat × GIFLoader) :=
  if type = 0xf9 then
    let r := s.readDataBlock
    if r.1 < 0 then some (1, transparent, gce, r.2.2)
    else
      let b := storeBytes (fun i => (junk.b i).val) 0 r.2.1
      let tr : Int × List Nat :=
        if b 0 &&& 0x1 ≠ 0 then ((b 3 : Int), gce ++ [b 3]) else (transparent, gce)
      (skipDataBlocks F r.2.2).map (fun q => (q.1, tr.1, tr.2, q.2))
  else
    (skipDataBlocks F s).map (fun q => (q.1, transparent, gce, q.2))

/-- What the constructor leaves behind: the object, and of its locals the final
`transparent` and the log of the values a Graphic Control Extension assigned to it. -/
structure Decoded where
  self : GIFLoader
  transparent : Int
  gce : List Nat

/-- The source's `getImage`. -/
def Decoded.getImage (d : Decoded) : Option Image := d.self.image

/-- The image branch of the block loop (source lines 100-120), entered after the introducer
`','` has been read. -/
def GIFLoader.decodeImage (F : Nat) (s : GIFLoader) (junk : Junk) (colourMap : Int → PaletteEntry)
    (transparent : Int) (gce : List Nat) : Option Decoded :=
  let buf := s.input.take 9
  let s2 := { s with input := s.input.drop 9 }
  if buf.length ≠ 9 then some ⟨s2, transparent, gce⟩
  else
    let imageWidth := makeWord (buf.getD 4 0) (buf.getD 5 0)
    let imageHeight := makeWord (buf.getD 6 0) (buf.getD 7 0)
    let flags := (buf.getD 8 0).val
    let numColours := 2 <<< (flags &&& 7)
    let cm : (Int → PaletteEntry) × GIFLoader :=
      if flags &&& 0x80 ≠ 0 then
        let q := s2.readColourMap junk numColours colourMap
        (q.2.1, q.2.2)
      else (colourMap, s2)
    let hasAlpha := decide (transparent ≥ 0)
    match cm.2.readImage F cm.1 imageWidth imageHeight (flags &&& 0x40 ≠ 0)
            transparent hasAlpha with
    | none => none
    | some (_, writes, s3) =>
      some ⟨{ s3 with image := some ⟨hasAlpha, imageWidth, imageHeight, writes⟩ },
            transparent, gce⟩

/-- The block loop `for (;;) { ... }` of the constructor. -/
def blockLoop (F : Nat) (junk : Junk) :
    Nat → GIFLoader → (Int → PaletteEntry) → Int → List Nat → Option Decoded
  | 0, _, _, _, _ => none
  | fuel + 1, s, colourMap, transparent, gce =>
    match s.input with
    | [] => some ⟨s, transparent, gce⟩
    | b0 :: rest =>
      let s1 := { s with input := rest }
      if b0.val = 0x3B then some ⟨s1, transparent, gce⟩
      else if b0.val = 0x21 then
        match rest with
        | [] => some ⟨s1, transparent, gce⟩
        | type :: rest1 =>
          match { s1 with input := rest1 }.processExtension F junk type.val transparent gce with
          | none => none
          | some (r, tr, gce1, s2) =>
            if r < 0 then some ⟨s2, tr, gce1⟩
            else blockLoop F junk fuel s2 colourMap tr gce1
      else if b0.val ≠ 0x2C then blockLoop F junk fuel s1 colourMap transparent gce
      else s1.decodeImage F junk colourMap transparent gce

/-- The source's `getSizeFromHeader`: its result, `w`, `h` and the new state. -/
def GIFLoader.getSizeFromHeader (s : GIFLoader) : Bool × Int × Int × GIFLoader :=
  let b := s.input.take 6
  let s1 := { s with input := s.input.drop 6 }
  if b.length = 6 then
    if b = [0x47, 0x49, 0x46, 0x38, 0x37, 0x61] ∨ b = [0x47, 0x49, 0x46, 0x38, 0x39, 0x61] then
      let b4 := s1.input.take 4
      let s2 := { s1 with input := s1.input.drop 4 }
      if b4.length = 4 then
        (true, makeWord (b4.getD 0 0) (b4.getD 1 0), makeWord (b4.getD 2 0) (b4.getD 3 0), s2)
      else (false, 0, 0, s2)
    else (false, 0, 0, s1)
  else (false, 0, 0, s1)

/-- The constructor `GIFLoader::GIFLoader (InputStream& in)`. -/
def GIFLoader.construct (F : Nat) (junk : Junk) (inp : List Byte) : Option Decoded :=
  let s0 := GIFLoader.init junk inp
  let h := s0.getSizeFromHeader
  let s1 := h.2.2.2
  if h.1 = false then some ⟨s1, -1, []⟩
  else if h.2.1 ≤ 0 ∨ h.2.2.1 ≤ 0 then some ⟨s1, -1, []⟩
  else
    let buf := s1.input.take 3
    let s2 := { s1 with input := s1.input.drop 3 }
    if buf.length ≠ 3 then some ⟨s2, -1, []⟩
    else
      let flags := (buf.getD 0 0).val
      let numColours := 2 <<< (flags &&& 7)
      let cm : (Int → PaletteEntry) × GIFLoader :=
        if flags &&& 0x80 ≠ 0 then
          let q := s2.readColourMap junk numColours junk.colourMap
          (q.2.1, q.2.2)
        else (junk.colourMap, s2)
      blockLoop F junk F cm.2 cm.1 (-1) []

/-- `n` successive calls `readLZWByte (false, c)`: the values returned, in order, and the
state after the last call. -/
def pull (F : Nat) (c : Int) : Nat → GIFLoader → Option (List Int × GIFLoader)
  | 0, s => some ([], s)
  | n + 1, s =>
    match s.readLZWByte F false c with
    | none => none
    | some (v, s1) => (pull F c n s1).map (fun p => (v :: p.1, p.2))

/-- A valid header: "GIF89a", a `w` by `h` logical screen (both below 256), and a global
colour table of two entries, white then black. -/
def header2 (w h : Byte) : List Byte :=
  [0x47, 0x49, 0x46, 0x38, 0x39, 0x61, w, 0x00, h, 0x00, 0x80, 0x00, 0x00,
   0xFF, 0xFF, 0xFF, 0x00, 0x00, 0x00]

/-- An image descriptor block: the introducer `','`, left and top 0, a `w` by `h` image
(both below 256) and the flags byte. -/
def descriptor (w h flags : Byte) : List Byte :=
  [0x2C, 0x00, 0x00, 0x00, 0x00, w, 0x00, h, 0x00, flags]

/-- The decoder on zeroed storage, set up by `readLZWByte (true, c)` with `bytes` as the
compressed data that follows. -/
def lzwStart (F : Nat) (c : Int) (bytes : List Byte) : Option (Int × GIFLoader) :=
  (GIFLoader.init Junk.zero bytes).readLZWByte F true c

/-- `n` successive calls `getCode (w, false)`: the values returned, in order, and the state
after the last call. -/
def getCodes (w : Int) : Nat → GIFLoader → List Int × GIFLoader
  | 0, s => ([], s)
  | n + 1, s =>
    let r := s.getCode w false
    let q := getCodes w n r.2
    (r.1 :: q.1, q.2)

/-- A payload cut into data sub-blocks: each block behind its length byte, then the
zero-length terminator. -/
def subBlocks : List (List Byte) → List Byte
  | [] => [0]
  | b :: bs => (Fin.ofNat b.length : Byte) :: (b ++ subBlocks bs)

/-- Bit `i` of a payload, the least significant bit of each byte first. -/
def payloadBit (payload : List Byte) (i : Nat) : Nat :=
  (payload.getD (i / 8) 0).val / 2 ^ (i % 8) % 2

/-- The `k`-th `w`-bit field of a payload, as the claim on `getCode` words it: bits
`k * w .. k * w + w - 1`, the first of them the least significant. -/
def bitField (payload : List Byte) (w k : Nat) : Nat :=
  ((List.range w).map (fun j => payloadBit payload (k * w + j) * 2 ^ j)).sum

/-- The first `8 * L / w` fields of a payload of `L` bytes. -/
def bitFields (payload : List Byte) (w : Nat) : List Int :=
  (List.range (8 * payload.length / w)).map (fun k => (bitField payload w k : Int))

/-- The state after six values have been pulled from the sub-block `E0 0D 03`, that is from the
3-bit codes 0, 4 (clear), 7, 6, 0; the next code, 4 bits wide, is 6. -/
def twoCycleState : GIFLoader :=
  (((lzwStart 10 2 [0x03, 0xE0, 0x0D, 0x03, 0x00]).bind (fun p => pull 10 2 6 p.2)).map
    (fun q => q.2)).getD (GIFLoader.init Junk.zero [])

/-- The two states agree on every member the LZW decompressor owns. -/
def SameLzw (s t : GIFLoader) : Prop :=
  t.table0 = s.table0 ∧ t.table1 = s.table1 ∧ t.stack = s.stack ∧ t.firstcode = s.firstcode ∧
  t.oldcode = s.oldcode ∧ t.codeSize = s.codeSize ∧ t.setCodeSize = s.setCodeSize ∧
  t.clearCode = s.clearCode ∧ t.end_code = s.end_code ∧ t.maxCode = s.maxCode ∧
  t.maxCodeSize = s.maxCodeSize ∧ t.fresh = s.fresh

/-- The bit reader is exhausted: every further `getCode (codeSize, false)` returns -1. -/
def Stuck (s : GIFLoader) : Prop :=
  s.fresh = false ∧ s.stack = [] ∧ s.finished = true ∧ s.currentBit + s.codeSize ≥ s.lastBit

/-- Storage in which every cell of `table[1]` holds 1000 and every other cell is zero. -/
def Junk.stale : Junk := { Junk.zero with table1 := fun _ => 1000 }

/-- The spec's 43-byte GIF of one transparent pixel. -/
def transparentPixelGif : List Byte :=
  [0x47, 0x49, 0x46, 0x38, 0x39, 0x61, 0x01, 0x00, 0x01, 0x00, 0x80, 0x00, 0x00,
   0xFF, 0xFF, 0xFF, 0x00, 0x00, 0x00,
   0x21, 0xF9, 0x04, 0x01, 0x00, 0x00, 0x00, 0x00,
   0x2C, 0x00, 0x00, 0x00, 0x00, 0x01, 0x00, 0x01, 0x00, 0x00,
   0x02, 0x02, 0x44, 0x01, 0x00, 0x3B]

/-- The local `transparent` agrees with the log of its assignments. -/
def GceInv (transparent : Int) (gce : List Nat) : Prop :=
  (gce = [] ∧ transparent = -1) ∨ ∃ i : Nat, gce.getLast? = some i ∧ transparent = i

/-- What the constructor guarantees about the pixels of the transparent index. -/
def TransparentOk (d : Decoded) : Prop :=
  ∀ img, d.getImage = some img →
    (d.gce ≠ [] → img.hasAlpha = true) ∧
    ∀ i : Nat, d.gce.getLast? = some i →
      ∀ w ∈ img.writes, w.index = i → w.value = .argb 0 0 0 0

/-- The source `next` hands over the values `vs`, in order, on its way from state `s` to
state `t`. -/
def Supplies {σ : Type} (next : σ → Option (Int × σ)) : σ → List Int → σ → Prop
  | s, [], t => t = s
  | s, v :: vs, t => ∃ s1, next s = some (v, s1) ∧ Supplies next s1 vs t

/-- The rows of an interlaced image of height `H` in the order the claim gives: 0, 8, 16, ...,
then 4, 12, 20, ..., then 2, 6, 10, ..., then 1, 3, 5, ..., each below `H`. -/
def interlaceRows (H : Nat) : List Int :=
  (List.range ((H + 7) / 8)).map (fun k : Nat => 8 * (k : Int)) ++
  ((List.range ((H + 3) / 8)).map (fun k : Nat => 8 * (k : Int) + 4) ++
  ((List.range ((H + 1) / 4)).map (fun k : Nat => 4 * (k : Int) + 2) ++
  (List.range (H / 2)).map (fun k : Nat => 2 * (k : Int) + 1)))

/-- The write of value `v` at column `x` of row `y`. -/
def writeAt (palette : Int → PaletteEntry) (hasAlpha : Bool) (y : Int) (x : Nat) (v : Int) :
    PixelWrite :=
  ⟨x, y, v, pixelFor hasAlpha (palette v)⟩

/-- The writes that fill the given rows in order, each from column 0 to column `W - 1`, with
the values of `idx` in order. -/
def rowWrites (palette : Int → PaletteEntry) (hasAlpha : Bool) (W : Nat) :
    List Int → List Int → List PixelWrite
  | [], _ => []
  | y :: rows, idx =>
    List.zipWith (writeAt palette hasAlpha y) (List.range' 0 W) idx
      ++ rowWrites palette hasAlpha W rows (idx.drop W)

/-- What `readImage` does once a row is full (source lines 439-484, interlaced), with the
writes `ws` made so far and the source in state `t`. -/
def rowEnd {σ : Type} (F : Nat) (next : σ → Option (Int × σ)) (palette : Int → PaletteEntry)
    (width height : Int) (hasAlpha : Bool) (fuel : Nat) (y q : Int) (t : σ)
    (ws : List PixelWrite) : Option (List PixelWrite × σ) :=
  match interlaceSkip height F (interlaceStep y q) q with
  | none => none
  | some none => some (ws, t)
  | some (some (y1, q1)) =>
    if y1 ≥ height then some (ws, t)
    else rasterLoop F next palette width height true hasAlpha fuel t ⟨0, y1, q1, 0, y1⟩ ws

/-- The rows `readImage` goes through from row `y` of pass `q` on, as the row advance of the
source (`interlaceStep`, then `interlaceSkip`) chains them. -/
inductive RowChain (F : Nat) (H : Int) : Int → Int → List Int → Prop where
  | last (y q : Int) : interlaceSkip H F (interlaceStep y q) q = some none →
      RowChain F H y q [y]
  | next (y q y1 q1 : Int) (rows : List Int) :
      interlaceSkip H F (interlaceStep y q) q = some (some (y1, q1)) → y1 < H →
      RowChain F H y1 q1 rows → RowChain F H y q (y :: rows)

/-- The writes the claim on non-interlaced images gives: value number `k` (counted from `k0`)
at column `k mod W` of row `k div W`. -/
def rasterWrites (palette : Int → PaletteEntry) (hasAlpha : Bool) (W : Nat) :
    Nat → List Int → List PixelWrite
  | _, [] => []
  | k, v :: vs =>
    writeAt palette hasAlpha ((k / W : Nat) : Int) (k % W) v
      :: rasterWrites palette hasAlpha W (k + 1) vs

/-- The size invariant of the decompressor for minimum code size `m`. -/
def SizeInv (m : Int) (s : GIFLoader) : Prop :=
  s.setCodeSize = m ∧ s.clearCode = 2 ^ m.toNat ∧ m + 1 ≤ s.codeSize ∧ s.codeSize ≤ 12 ∧
  s.maxCodeSize = 2 ^ s.codeSize.toNat ∧ s.clearCode + 2 ≤ s.maxCode ∧
  s.maxCode ≤ maxGifCode ∧ s.maxCode ≤ s.maxCodeSize

/-- No table cell at an index of 4096 or more differs between the two states. -/
def TableStep (s t : GIFLoader) : Prop :=
  ∀ i, maxGifCode ≤ i → t.table0 i = s.table0 i ∧ t.table1 i = s.table1 i

/-- If the code width is larger in `t` than in `s`, it is larger by one, `maxCode` went up by
one and reached the `maxCodeSize` of `s`, which was below 4096 and got doubled. -/
def GrowStep (s t : GIFLoader) : Prop :=
  s.codeSize < t.codeSize →
    t.codeSize = s.codeSize + 1 ∧ t.maxCode = s.maxCode + 1 ∧ s.maxCodeSize ≤ t.maxCode ∧
    s.maxCodeSize < maxGifCode ∧ t.maxCodeSize = 2 * s.maxCodeSize

/-- The two states agree on the tables and on the members that size them. -/
def SameSizes (s t : GIFLoader) : Prop :=
  t.table0 = s.table0 ∧ t.table1 = s.table1 ∧ t.codeSize = s.codeSize ∧
  t.setCodeSize = s.setCodeSize ∧ t.clearCode = s.clearCode ∧ t.maxCode = s.maxCode ∧
  t.maxCodeSize = s.maxCodeSize

/-- What one call of `readLZWByte` guarantees about the sizes. -/
def SizeStep (m : Int) (s t : GIFLoader) : Prop :=
  SizeInv m t ∧ TableStep s t ∧ GrowStep s t

/-- The state with the member `dataBlockIsZero` set to `b`. -/
def GIFLoader.withFlag (s : GIFLoader) (b : Bool) : GIFLoader := { s with dataBlockIsZero := b }

/-- The result with `dataBlockIsZero` set to `b` in its state. -/
def liftFlag {α : Type} (b : Bool) (o : Option (α × GIFLoader)) : Option (α × GIFLoader) :=
  o.map (fun p => (p.1, p.2.withFlag b))

/-- The two states differ at most in `dataBlockIsZero`, and if they do, either the input is
exhausted or the decompressor has just been initialised, so that its first `getCode` refills. -/
def FlagRel (s t : GIFLoader) : Prop :=
  ∃ b, t = s.withFlag b ∧
    (t = s ∨ s.input = [] ∨
      (s.fresh = true ∧ s.finished = false ∧ s.currentBit + s.codeSize ≥ s.lastBit))

/-- Both calls fail, or both return the same value in states related by `FlagRel`. -/
def FlagResult (o o' : Option (Int × GIFLoader)) : Prop :=
  (o = none ∧ o' = none) ∨
  ∃ v u u', o = some (v, u) ∧ o' = some (v, u') ∧ FlagRel u u'

/-- The string of a code as the claim defines it, `S(c) = [c]` for `c < clearCode` and
`S(c) = S(prefix[c]) ++ [pixel[c]]` otherwise, unrolled at most `n` times. -/
def codeString (cc : Int) (t0 t1 : Int → Int) : Nat → Int → List Int
  | 0, _ => []
  | n + 1, c => if c < cc then [c] else codeString cc t0 t1 n (t0 c) ++ [t1 c]

/-- The string `S(c)` of a code in the tables of state `s`. -/
def GIFLoader.stringOf (s : GIFLoader) (c : Int) : List Int :=
  codeString s.clearCode s.table0 s.table1 4096 c

/-- The string of a code, as a relation: a literal stands for itself, an installed code for the
string of its prefix (a smaller code) followed by its pixel. -/
inductive Expands (cc : Int) (t0 t1 : Int → Int) : Int → List Int → Prop where
  | lit (c : Int) : 0 ≤ c → c < cc → Expands cc t0 t1 c [c]
  | ent (c : Int) (l : List Int) : cc + 2 ≤ c → t0 c < c → Expands cc t0 t1 (t0 c) l →
      Expands cc t0 t1 c (l ++ [t1 c])

/-- A code that has a string: a literal or an installed code. -/
def ValidCode (s : GIFLoader) (c : Int) : Prop :=
  (0 ≤ c ∧ c < s.clearCode) ∨ (s.clearCode + 2 ≤ c ∧ c < s.maxCode)

/-- The table invariant of the decompressor for minimum code size `m`: the sizes are
consistent, literals map to themselves, the prefix of every installed code is a smaller valid
code, `oldcode` is a valid code and `firstcode` is the first element of its string. -/
def TableInv (m : Int) (s : GIFLoader) : Prop :=
  1 ≤ m ∧ m ≤ 11 ∧ SizeInv m s ∧ s.fresh = false ∧ s.end_code = s.clearCode + 1 ∧
  (∀ c, 0 ≤ c → c < s.clearCode → s.table1 c = c) ∧
  (∀ c, s.clearCode + 2 ≤ c → c < s.maxCode → ValidCode s (s.table0 c) ∧ s.table0 c < c) ∧
  ValidCode s s.oldcode ∧
  ∃ l, Expands s.clearCode s.table0 s.table1 s.oldcode (s.firstcode :: l)

/-- The invariant at the points where the decompressor pulls a code: the table invariant, and
the stack is empty. -/
def CodeInv (m : Int) (s : GIFLoader) : Prop := TableInv m s ∧ s.stack = []

/-! ## Theorems -/

/-! ### The header (C10) -/

theorem getSizeFromHeader_image (s : GIFLoader) : s.getSizeFromHeader.2.2.2.image = s.image := by
  unfold GIFLoader.getSizeFromHeader
  simp only []
  split_ifs <;> rfl

theorem getSizeFromHeader_input_length (s : GIFLoader) (h : s.getSizeFromHeader.1 = true) :
    s.getSizeFromHeader.2.2.2.input = s.input.drop 10 ∧ 10 ≤ s.input.length ∧ 
    (s.input.take 6 = [0x47, 0x49, 0x46, 0x38, 0x37, 0x61] ∨ s.input.take 6 = [0x47, 0x49, 0x46, 0x38, 0x39, 0x61]) := by
  unfold GIFLoader.getSizeFromHeader at h ⊢
  simp only [] at h ⊢
  split_ifs at h ⊢ with h1 h2 h3
  · simp only [List.length_take, List.length_drop] at h1 h3
    refine ⟨?_, by omega, h2⟩
    simp [List.drop_drop]

/-- C10: a stream whose first six bytes are neither "GIF87a" nor "GIF89a", or that holds
fewer than the 13 bytes of magic and logical screen descriptor, makes the constructor return
with no image, whatever the fuel and the uninitialised storage. -/
theorem construct_bad_header_no_image (F : Nat) (junk : Junk) (inp : List Byte)
    (h : (inp.take 6 ≠ [0x47, 0x49, 0x46, 0x38, 0x37, 0x61] ∧
          inp.take 6 ≠ [0x47, 0x49, 0x46, 0x38, 0x39, 0x61]) ∨ inp.length < 13) :
    ∃ d, GIFLoader.construct F junk inp = some d ∧ d.getImage = none := by
  have himg := getSizeFromHeader_image (GIFLoader.init junk inp)
  have hlen := getSizeFromHeader_input_length (GIFLoader.init junk inp)
  unfold GIFLoader.construct
  simp only []
  by_cases h1 : (GIFLoader.init junk inp).getSizeFromHeader.1 = false
  · rw [if_pos h1]; exact ⟨_, rfl, himg⟩
  rw [if_neg h1]
  by_cases h2 : (GIFLoader.init junk inp).getSizeFromHeader.2.1 ≤ 0 ∨
      (GIFLoader.init junk inp).getSizeFromHeader.2.2.1 ≤ 0
  · rw [if_pos h2]; exact ⟨_, rfl, himg⟩
  rw [if_neg h2]
  have h1' : (GIFLoader.init junk inp).getSizeFromHeader.1 = true := by simpa using h1
  obtain ⟨e1, e2, e3⟩ := hlen h1'
  have hi : (GIFLoader.init junk inp).input = inp := rfl
  rw [hi] at e1 e2 e3
  have h3 : (List.take 3 (GIFLoader.init junk inp).getSizeFromHeader.2.2.2.input).length ≠ 3 := by
    rcases h with ⟨a, b⟩ | h
    · rcases e3 with e3 | e3
      · exact absurd e3 a
      · exact absurd e3 b
    · rw [e1]
      simp only [List.length_take, List.length_drop, ne_eq]
      omega
  rw [if_pos h3]; exact ⟨_, rfl, himg⟩

theorem construct_bad_header_no_image_witness :
    ((([0x47, 0x49, 0x46, 0x38, 0x38, 0x61, 1, 0, 1, 0, 0, 0, 0, 0x3B] : List Byte).take 6
        ≠ [0x47, 0x49, 0x46, 0x38, 0x37, 0x61] ∧
      ([0x47, 0x49, 0x46, 0x38, 0x38, 0x61, 1, 0, 1, 0, 0, 0, 0, 0x3B] : List Byte).take 6
        ≠ [0x47, 0x49, 0x46, 0x38, 0x39, 0x61]) ∨
      ([0x47, 0x49, 0x46, 0x38, 0x38, 0x61, 1, 0, 1, 0, 0, 0, 0, 0x3B] : List Byte).length < 13) ∧
    ∃ d, GIFLoader.construct 5 Junk.zero
        [0x47, 0x49, 0x46, 0x38, 0x38, 0x61, 1, 0, 1, 0, 0, 0, 0, 0x3B] = some d ∧
      d.getImage = none :=
  ⟨Or.inl (by decide), construct_bad_header_no_image 5 Junk.zero _ (Or.inl (by decide))⟩

/-! ### Truncation after the image descriptor (C2) -/

theorem readColourMapLoop_input (n : Nat) (i : Int) (inp : List Byte) (rgb : Int → Nat)
    (cm : Int → PaletteEntry) : (readColourMapLoop n i inp rgb cm).1 = inp.drop (3 * n) := by
  induction n generalizing i inp rgb cm with
  | zero => simp [readColourMapLoop]
  | succ n ih =>
    rw [readColourMapLoop, ih, List.drop_drop]
    congr 1
    omega

theorem readImage_no_input (F : Nat) (s : GIFLoader) (palette : Int → PaletteEntry)
    (width height : Int) (interlace : Bool) (transparent : Int) (hasAlpha : Bool)
    (h : s.input = []) :
    s.readImage F palette width height interlace transparent hasAlpha = some (false, [], s) := by
  unfold GIFLoader.readImage
  rw [h]

/-- C2, amended: when the stream ends right after a complete image descriptor (and its local
colour table, if flagged), the constructor has already allocated the image, so `getImage`
returns an image of the descriptor's size, alpha-capable iff a transparent index was set, on
which no pixel has been written; the whole input has been consumed. -/
theorem blockLoop_truncated_after_descriptor (F fuel : Nat) (junk : Junk) (s : GIFLoader)
    (colourMap : Int → PaletteEntry) (transparent : Int) (gce : List Nat)
    (desc lct : List Byte) (hin : s.input = 0x2C :: (desc ++ lct)) (hd : desc.length = 9)
    (hl : lct.length = if (desc.getD 8 0).val &&& 0x80 ≠ 0
            then 3 * (2 <<< ((desc.getD 8 0).val &&& 7)) else 0) :
    ∃ d, blockLoop F junk (fuel + 1) s colourMap transparent gce = some d ∧
      d.getImage = some ⟨decide (transparent ≥ 0), makeWord (desc.getD 4 0) (desc.getD 5 0),
        makeWord (desc.getD 6 0) (desc.getD 7 0), []⟩ ∧
      d.self.input = [] := by
  have ht : (desc ++ lct).take 9 = desc := by
    rw [← hd]; exact List.take_left' rfl
  have hdr : (desc ++ lct).drop 9 = lct := by
    rw [← hd]; exact List.drop_left' rfl
  unfold blockLoop
  rw [hin]
  simp only []
  have e1 : ¬ ((0x2C : Byte).val = 0x3B) := by decide
  have e2 : ¬ ((0x2C : Byte).val = 0x21) := by decide
  have e3 : ¬ ((0x2C : Byte).val ≠ 0x2C) := by decide
  rw [if_neg e1, if_neg e2, if_neg e3]
  unfold GIFLoader.decodeImage
  simp only [ht, hdr, hd]
  rw [if_neg (by simp)]
  by_cases hf : (desc.getD 8 0).val &&& 0x80 ≠ 0
  · rw [if_pos hf] at hl
    rw [if_pos hf]
    rw [readImage_no_input]
    · refine ⟨_, rfl, rfl, ?_⟩
      simp only [GIFLoader.readColourMap, readColourMapLoop_input]
      apply List.drop_eq_nil_of_le
      omega
    · simp only [GIFLoader.readColourMap, readColourMapLoop_input]
      apply List.drop_eq_nil_of_le
      omega
  · rw [if_neg hf] at hl
    rw [if_neg hf]
    have hl' : lct = [] := List.length_eq_zero.mp hl
    rw [readImage_no_input]
    · exact ⟨_, rfl, rfl, hl'⟩
    · exact hl'

theorem blockLoop_truncated_after_descriptor_witness :
    (GIFLoader.init Junk.zero (descriptor 3 2 0)).input
        = 0x2C :: ([0, 0, 0, 0, 3, 0, 2, 0, 0] ++ []) ∧
    ∃ d, blockLoop 5 Junk.zero (0 + 1) (GIFLoader.init Junk.zero (descriptor 3 2 0))
        Junk.zero.colourMap (-1) [] = some d ∧
      d.getImage = some ⟨decide ((-1 : Int) ≥ 0),
        makeWord (([0, 0, 0, 0, 3, 0, 2, 0, 0] : List Byte).getD 4 0)
          (([0, 0, 0, 0, 3, 0, 2, 0, 0] : List Byte).getD 5 0),
        makeWord (([0, 0, 0, 0, 3, 0, 2, 0, 0] : List Byte).getD 6 0)
          (([0, 0, 0, 0, 3, 0, 2, 0, 0] : List Byte).getD 7 0), []⟩ ∧
      d.self.input = [] :=
  ⟨rfl, blockLoop_truncated_after_descriptor 5 0 Junk.zero _ _ (-1) []
    [0, 0, 0, 0, 3, 0, 2, 0, 0] [] rfl rfl (by decide)⟩

/-- C2, counterexample: the header, then a 1 by 1 image descriptor, then nothing.  The
constructor returns with an image, 1 by 1 and unwritten, not with none. -/
theorem construct_truncated_after_descriptor_has_image :
    (GIFLoader.construct 10 Junk.zero (header2 1 1 ++ descriptor 1 1 0)).map Decoded.getImage
      = some (some ⟨false, 1, 1, []⟩) := by
  decide!

/-! ### Zero dimensions (C9) -/

/-- C9, failing input: an image descriptor that declares height 0 (first stream) or width 0
(second stream) after a 1 by 1 logical screen.  The constructor allocates the image with the
zero dimension and `readImage` writes a pixel through its pixel pointer.  A zero height in the
logical screen descriptor (third stream) does end the constructor with no image. -/
theorem construct_zero_dimension_descriptor :
    (GIFLoader.construct 10 Junk.zero
        (header2 1 1 ++ descriptor 1 0 0 ++ [0x02, 0x02, 0x44, 0x01, 0x00, 0x3B])).map
        Decoded.getImage
      = some (some ⟨false, 1, 0, [⟨0, 0, 0, .rgb 255 255 255⟩]⟩) ∧
    (GIFLoader.construct 10 Junk.zero
        (header2 1 1 ++ descriptor 0 1 0 ++ [0x02, 0x00, 0x3B])).map Decoded.getImage
      = some (some ⟨false, 0, 1, [⟨0, 0, 0, .rgb 255 255 255⟩]⟩) ∧
    (GIFLoader.construct 10 Junk.zero
        (header2 1 0 ++ descriptor 1 1 0 ++ [0x02, 0x02, 0x44, 0x01, 0x00, 0x3B])).map
        Decoded.getImage
      = some none := by
  refine ⟨by decide!, by decide!, by decide!⟩

/-! ### Short read while refilling (C8) -/

/-- C8, failing input: the stream ends right after the minimum-code-size byte of a 2 by 2
image.  `readDataBlock` reports -1, yet the `getCode` call that asked for the refill returns
the code 0, `readLZWByte` returns 0, and the constructor fills all four pixels from bytes that
were never read. -/
theorem getCode_short_read_returns_code :
    ((lzwStart 10 2 []).map (fun p => (p.2.readDataBlock.1, (p.2.getCode 3 false).1)))
      = some (-1, 0) ∧
    ((lzwStart 10 2 []).bind (fun p => pull 10 2 1 p.2)).map (fun q => q.1) = some [0] ∧
    (GIFLoader.construct 10 Junk.zero (header2 2 2 ++ descriptor 2 2 0 ++ [0x02])).map
        Decoded.getImage
      = some (some ⟨false, 2, 2, [⟨0, 0, 0, .rgb 255 255 255⟩, ⟨1, 0, 0, .rgb 255 255 255⟩,
          ⟨0, 1, 0, .rgb 255 255 255⟩, ⟨1, 1, 0, .rgb 255 255 255⟩]⟩) := by
  refine ⟨by decide!, by decide!, by decide!⟩

/-! ### The end code (C4) -/

/-- C4, failing input: the codes clear, 0, end (sub-block `44 01`, then the terminator).  After
the first value the stack is empty, the terminator has not been read and the next code is the
end code; the sub-blocks drain cleanly, and the call returns the pixel value 0, not -2.  A 2 by
1 image over this data gets both pixels written. -/
theorem readLZWByte_end_code_returns_pixel :
    ((lzwStart 10 2 [0x02, 0x44, 0x01, 0x00, 0x3B]).bind (fun p => pull 10 2 1 p.2)).map
        (fun q => (q.1, q.2.stack, q.2.dataBlockIsZero,
          (q.2.getCode q.2.codeSize false).1, q.2.end_code))
      = some ([0], [], false, 5, 5) ∧
    ((lzwStart 10 2 [0x02, 0x44, 0x01, 0x00, 0x3B]).bind (fun p => pull 10 2 2 p.2)).map
        (fun q => q.1) = some [0, 0] ∧
    (GIFLoader.construct 10 Junk.zero
        (header2 2 1 ++ descriptor 2 1 0 ++ [0x02, 0x02, 0x44, 0x01, 0x00, 0x3B])).map
        Decoded.getImage
      = some (some ⟨false, 2, 1, [⟨0, 0, 0, .rgb 255 255 255⟩, ⟨1, 0, 0, .rgb 255 255 255⟩]⟩) := by
  refine ⟨by decide!, by decide!, by decide!⟩

/-! ### The prefix-chain walk (C5) -/

theorem walkChain_two_cycle (cc : Int) (t0 t1 : Int → Int) (a b : Int) (ha : cc ≤ a) (hb : cc ≤ b)
    (hab : t0 a = b) (hba : t0 b = a) (hne : a ≠ b) (F : Nat) :
    ∀ stk, walkChain cc t0 t1 F a stk = none ∧ walkChain cc t0 t1 F b stk = none := by
  induction F with
  | zero => intro stk; exact ⟨rfl, rfl⟩
  | succ n ih =>
    intro stk
    constructor
    · rw [walkChain, if_pos (by omega), if_neg (by rw [hab]; exact hne), hab]
      exact (ih _).2
    · rw [walkChain, if_pos (by omega), if_neg (by rw [hba]; exact fun h => hne h.symm), hba]
      exact (ih _).1

theorem readLZWByte_two_cycle (s : GIFLoader) (c : Int) (k : Int)
    (h1 : s.fresh = false) (h2 : s.stack = [])
    (h3 : (s.getCode s.codeSize false).1 = c)
    (h4 : c ≠ (s.getCode s.codeSize false).2.clearCode)
    (h5 : c ≠ (s.getCode s.codeSize false).2.end_code)
    (h6 : c < (s.getCode s.codeSize false).2.maxCode)
    (h7 : (s.getCode s.codeSize false).2.clearCode ≤ c)
    (h8 : (s.getCode s.codeSize false).2.clearCode ≤ (s.getCode s.codeSize false).2.table0 c)
    (h9 : (s.getCode s.codeSize false).2.table0 ((s.getCode s.codeSize false).2.table0 c) = c)
    (h10 : (s.getCode s.codeSize false).2.table0 c ≠ c) (h11 : 0 ≤ c) (F : Nat) :
    s.readLZWByte F false k = none := by
  unfold GIFLoader.readLZWByte
  rw [if_neg (by simp), h1, if_neg (by simp), h2]
  cases F with
  | zero => rfl
  | succ n =>
    show lzwLoop (n + 1) (n + 1) s = none
    unfold lzwLoop
    simp only [h3]
    rw [if_pos (by omega), if_neg h4]
    simp only [endCodeBlock, if_neg h5, GIFLoader.expandCode]
    rw [if_neg (by omega)]
    simp only []
    rw [(walkChain_two_cycle _ _ _ c _ h7 h8 rfl h9 (fun h => h10 h.symm) (n + 1) _).1]

/-- C5, failing input: after the codes 0, clear, 7, 6, 0 (minimum code size 2) the table holds
`prefix[6] = 7` and `prefix[7] = 6`; the six values pulled so far are 0, 7, 0, 0, 7, 0, and the
next call, whose code is 6, returns for no amount of fuel: the chain walk never ends. -/
theorem readLZWByte_two_cycle_diverges :
    ((lzwStart 10 2 [0x03, 0xE0, 0x0D, 0x03, 0x00]).bind (fun p => pull 10 2 6 p.2)).map
        (fun q => q.1) = some [0, 7, 0, 0, 7, 0] ∧
    (twoCycleState.getCode twoCycleState.codeSize false).1 = 6 ∧
    (twoCycleState.getCode twoCycleState.codeSize false).2.table0 6 = 7 ∧
    (twoCycleState.getCode twoCycleState.codeSize false).2.table0 7 = 6 ∧
    ∀ F, twoCycleState.readLZWByte F false 2 = none := by
  refine ⟨by decide!, by decide!, by decide!, by decide!, ?_⟩
  exact readLZWByte_two_cycle twoCycleState 6 2 (by decide!) (by decide!) (by decide!)
    (by decide!) (by decide!) (by decide!) (by decide!) (by decide!) (by decide!) (by decide!)
    (by decide!)

/-! ### Codes across sub-block boundaries (C6) -/

theorem getCode_one_byte_block_first (s : GIFLoader) (h1 : s.currentBit = 0) (h2 : s.lastBit = 0)
    (h3 : s.finished = false) (h4 : s.input = [1, 0, 1, 1, 1, 0, 0]) :
    (s.getCode 9 false).1 = (if s.buffer 3 % 2 = 1 then 256 else 0) ∧
    (s.getCode 9 false).2.currentBit = 25 ∧ (s.getCode 9 false).2.lastBit = 24 ∧
    (s.getCode 9 false).2.finished = false ∧ (s.getCode 9 false).2.input = [1, 1, 1, 0, 0] ∧
    (s.getCode 9 false).2.lastByteIndex = 3 ∧
    (s.getCode 9 false).2.buffer 3 = s.buffer 3 := by
  unfold GIFLoader.getCode
  rw [if_neg (by simp), h1, h2, if_pos (by norm_num), h3, if_neg (by simp)]
  unfold GIFLoader.getCodeRefill GIFLoader.readDataBlock GIFLoader.getCodeExtract
  simp only [h4, h1, h2, h3]
  norm_num [getCodeBits, storeBytes, store]
  split_ifs <;> simp

theorem getCode_one_byte_block_second (s : GIFLoader) (h1 : s.currentBit = 25)
    (h2 : s.lastBit = 24) (h3 : s.finished = false) (h4 : s.input = [1, 1, 1, 0, 0])
    (h5 : s.lastByteIndex = 3) (h6 : s.buffer 3 % 2 = 1) :
    (s.getCode 9 false).1 ≠ 0 := by
  unfold GIFLoader.getCode
  rw [if_neg (by simp), h1, h2, if_pos (by norm_num), h3, if_neg (by simp)]
  unfold GIFLoader.getCodeRefill GIFLoader.readDataBlock GIFLoader.getCodeExtract
  simp only [h4, h1, h2, h3, h5]
  norm_num [getCodeBits, storeBytes, store, h6]
  split_ifs <;> decide

/-- C6, failing input: width 9 and the payload `00 01 00`, whose 9-bit fields are 256 and 0.
Sent as one sub-block of three bytes `getCode` returns 256, 0.  Sent as three sub-blocks of one
byte each it returns 0, 0 on zeroed storage, and whatever the storage holds it does not
return 256, 0: the single refill leaves the ninth bit to a buffer byte that was never read. -/
theorem getCode_one_byte_sub_blocks :
    bitFields [0, 1, 0] 9 = [256, 0] ∧
    (getCodes 9 2 ((GIFLoader.init Junk.zero (subBlocks [[0, 1, 0]])).getCode 0 true).2).1
      = [256, 0] ∧
    (getCodes 9 2 ((GIFLoader.init Junk.zero (subBlocks [[0], [1], [0]])).getCode 0 true).2).1
      = [0, 0] ∧
    ∀ s : GIFLoader,
      (getCodes 9 2 { (s.getCode 0 true).2 with input := subBlocks [[0], [1], [0]] }).1
        ≠ bitFields [0, 1, 0] 9 := by
  refine ⟨by decide!, by decide!, by decide!, ?_⟩
  intro s h
  have hf : bitFields [0, 1, 0] 9 = [256, 0] := by decide!
  have hs : subBlocks [[0], [1], [0]] = [1, 0, 1, 1, 1, 0, 0] := by decide
  rw [hf, hs] at h
  simp only [getCodes, List.cons.injEq, and_true] at h
  obtain ⟨ha, hb⟩ := h
  obtain ⟨e1, e2, e3, e4, e5, e6, e7⟩ := getCode_one_byte_block_first
    { (s.getCode 0 true).2 with input := [1, 0, 1, 1, 1, 0, 0] } rfl rfl rfl rfl
  rw [e1] at ha
  have hb3 : ({ (s.getCode 0 true).2 with input := [1, 0, 1, 1, 1, 0, 0] } : GIFLoader).buffer 3
      % 2 = 1 := by
    by_contra hc
    rw [if_neg hc] at ha
    exact absurd ha (by decide)
  exact getCode_one_byte_block_second _ e2 e3 e4 e5 e6 (by rw [e7]; exact hb3) hb

/-! ### Values returned by readLZWByte (C7) -/

theorem SameLzw.refl (s : GIFLoader) : SameLzw s s :=
  ⟨rfl, rfl, rfl, rfl, rfl, rfl, rfl, rfl, rfl, rfl, rfl, rfl⟩

theorem SameLzw.trans {s t u : GIFLoader} (h1 : SameLzw s t) (h2 : SameLzw t u) : SameLzw s u := by
  obtain ⟨a1, a2, a3, a4, a5, a6, a7, a8, a9, a10, a11, a12⟩ := h1
  obtain ⟨b1, b2, b3, b4, b5, b6, b7, b8, b9, b10, b11, b12⟩ := h2
  exact ⟨b1.trans a1, b2.trans a2, b3.trans a3, b4.trans a4, b5.trans a5, b6.trans a6,
    b7.trans a7, b8.trans a8, b9.trans a9, b10.trans a10, b11.trans a11, b12.trans a12⟩

theorem readDataBlock_same (s : GIFLoader) :
    SameLzw s s.readDataBlock.2.2 ∧ s.readDataBlock.2.2.buffer = s.buffer ∧
    s.readDataBlock.2.2.currentBit = s.currentBit ∧ s.readDataBlock.2.2.lastBit = s.lastBit ∧
    s.readDataBlock.2.2.finished = s.finished := by
  unfold GIFLoader.readDataBlock
  split
  · exact ⟨SameLzw.refl s, rfl, rfl, rfl, rfl⟩
  · simp only []
    split_ifs <;> exact ⟨⟨rfl, rfl, rfl, rfl, rfl, rfl, rfl, rfl, rfl, rfl, rfl, rfl⟩, rfl, rfl, rfl, rfl⟩

theorem getCodeBits_lt (buffer : Int → Nat) (n : Nat) :
    ∀ (i : Int) (j result : Nat), result < 2 ^ j → getCodeBits buffer n i j result < 2 ^ (j + n) := by
  induction n with
  | zero => intro i j result h; simpa [getCodeBits] using h
  | succ n ih =>
    intro i j result h
    rw [getCodeBits]
    have := ih (i + 1) (j + 1)
      (result ||| ((if buffer (i / 8) &&& (1 <<< (i % 8).toNat) ≠ 0 then 1 else 0) <<< j)) (by
        apply Nat.or_lt_two_pow
        · exact lt_of_lt_of_le h (Nat.pow_le_pow_right (by norm_num) (by omega))
        · rw [Nat.shiftLeft_eq]
          have hp : 0 < 2 ^ j := by positivity
          split_ifs
          · rw [one_mul, pow_succ]
            omega
          · rw [zero_mul, pow_succ]
            omega)
    rw [show j + (n + 1) = j + 1 + n by omega]
    exact this

theorem getCodeExtract_spec (s : GIFLoader) (w : Int) :
    0 ≤ (s.getCodeExtract w).1 ∧ (s.getCodeExtract w).1 < 2 ^ w.toNat ∧
    SameLzw s (s.getCodeExtract w).2 := by
  unfold GIFLoader.getCodeExtract
  refine ⟨by simp, ?_, ⟨rfl, rfl, rfl, rfl, rfl, rfl, rfl, rfl, rfl, rfl, rfl, rfl⟩⟩
  have := getCodeBits_lt s.buffer w.toNat s.currentBit 0 0 (by norm_num)
  simp only [zero_add] at this
  show ((getCodeBits s.buffer w.toNat s.currentBit 0 0 : Nat) : Int) < 2 ^ w.toNat
  exact_mod_cast this

theorem getCodeRefill_same (s : GIFLoader) : SameLzw s s.getCodeRefill := by
  unfold GIFLoader.getCodeRefill GIFLoader.readDataBlock
  cases hinp : s.input with
  | nil => exact ⟨rfl, rfl, rfl, rfl, rfl, rfl, rfl, rfl, rfl, rfl, rfl, rfl⟩
  | cons n rest =>
    simp only []
    split_ifs <;> exact ⟨rfl, rfl, rfl, rfl, rfl, rfl, rfl, rfl, rfl, rfl, rfl, rfl⟩

/-- Either the reader is exhausted and `getCode` returns -1 without touching the state, or it
returns a code of `w` bits and leaves the decompressor's members alone. -/
theorem getCode_cases (s : GIFLoader) (w : Int) :
    (s.getCode w false = (-1, s) ∧ s.finished = true ∧ s.currentBit + w ≥ s.lastBit) ∨
    (0 ≤ (s.getCode w false).1 ∧ (s.getCode w false).1 < 2 ^ w.toNat ∧
      SameLzw s (s.getCode w false).2) := by
  unfold GIFLoader.getCode
  rw [if_neg (by simp)]
  by_cases h1 : s.currentBit + w ≥ s.lastBit
  · rw [if_pos h1]
    by_cases h2 : s.finished = true
    · left
      rw [if_pos h2]
      exact ⟨rfl, h2, h1⟩
    · right
      rw [if_neg h2]
      obtain ⟨b1, b2, b3⟩ := getCodeExtract_spec s.getCodeRefill w
      exact ⟨b1, b2, (getCodeRefill_same s).trans b3⟩
  · right
    rw [if_neg h1]
    exact getCodeExtract_spec s w

theorem skipDataBlocks_same (F : Nat) :
    ∀ (s t : GIFLoader) (n : Int), skipDataBlocks F s = some (n, t) → SameLzw s t := by
  induction F with
  | zero => intro s t n h; simp [skipDataBlocks] at h
  | succ k ih =>
    intro s t n h
    rw [skipDataBlocks] at h
    split_ifs at h
    · exact (readDataBlock_same s).1.trans (ih _ _ _ h)
    · simp only [Option.some.injEq, Prod.mk.injEq] at h
      rw [← h.2]
      exact (readDataBlock_same s).1

theorem endCodeBlock_same (F : Nat) (s t : GIFLoader) (code : Int) (b : Bool)
    (h : endCodeBlock F s code = some (b, t)) : SameLzw s t := by
  unfold endCodeBlock at h
  split_ifs at h
  · simp only [Option.some.injEq, Prod.mk.injEq] at h
    rw [← h.2]; exact SameLzw.refl s
  · cases hs : skipDataBlocks F s with
    | none => rw [hs] at h; simp at h
    | some p =>
      obtain ⟨n, u⟩ := p
      rw [hs] at h
      simp only [] at h
      have hu := skipDataBlocks_same F s u n hs
      split_ifs at h <;>
        (simp only [Option.some.injEq, Prod.mk.injEq] at h; rw [← h.2]; exact hu)
  · simp only [Option.some.injEq, Prod.mk.injEq] at h
    rw [← h.2]; exact SameLzw.refl s

theorem Stuck.getCode {s : GIFLoader} (h : Stuck s) : s.getCode s.codeSize false = (-1, s) := by
  obtain ⟨_, _, h3, h4⟩ := h
  unfold GIFLoader.getCode
  rw [if_neg (by simp), if_pos h4, if_pos h3]

theorem rasterLoop_writes {σ : Type} (F : Nat) (next : σ → Option (Int × σ))
    (palette : Int → PaletteEntry) (width height : Int) (interlace hasAlpha : Bool)
    (fuel : Nat) :
    ∀ (s : σ) (r : Raster) (writes ws : List PixelWrite) (s' : σ),
      rasterLoop F next palette width height interlace hasAlpha fuel s r writes = some (ws, s') →
      (∀ w ∈ writes, w.value = pixelFor hasAlpha (palette w.index)) →
      ∀ w ∈ ws, w.value = pixelFor hasAlpha (palette w.index) := by
  induction fuel with
  | zero => intro s r writes ws s' h; simp [rasterLoop] at h
  | succ k ih =>
    intro s r writes ws s' h hw
    rw [rasterLoop] at h
    cases hn : next s with
    | none => rw [hn] at h; simp at h
    | some p =>
      obtain ⟨index, s1⟩ := p
      rw [hn] at h
      simp only [] at h
      have hw1 : ∀ w ∈ writes ++ [⟨r.px, r.py, index, pixelFor hasAlpha (palette index)⟩],
          w.value = pixelFor hasAlpha (palette w.index) := by
        intro w hmem
        rcases List.mem_append.mp hmem with e | e
        · exact hw w e
        · rw [List.mem_singleton.mp e]
      split_ifs at h
      · cases hi : interlaceSkip height F (interlaceStep r.ypos r.pass) r.pass with
        | none => rw [hi] at h; simp at h
        | some o =>
          rw [hi] at h
          cases o with
          | none =>
            simp only [Option.some.injEq, Prod.mk.injEq] at h
            rw [← h.1]; exact hw1
          | some yq =>
            obtain ⟨y, q⟩ := yq
            simp only [] at h
            split_ifs at h
            · simp only [Option.some.injEq, Prod.mk.injEq] at h
              rw [← h.1]; exact hw1
            · exact ih _ _ _ _ _ h hw1
      · simp only [Option.some.injEq, Prod.mk.injEq] at h
        rw [← h.1]; exact hw1
      · exact ih _ _ _ _ _ h hw1
      · simp only [Option.some.injEq, Prod.mk.injEq] at h
        rw [← h.1]; exact hw1
      · exact ih _ _ _ _ _ h hw1
      · simp only [Option.some.injEq, Prod.mk.injEq] at h
        rw [← h.1]; exact hw

theorem readImage_writes (F : Nat) (s : GIFLoader) (palette : Int → PaletteEntry)
    (width height : Int) (interlace : Bool) (transparent : Int) (hasAlpha : Bool)
    (b : Bool) (ws : List PixelWrite) (s' : GIFLoader)
    (h : s.readImage F palette width height interlace transparent hasAlpha = some (b, ws, s'))
    (ht : transparent ≠ -1) :
    ∀ w ∈ ws, w.index = transparent → w.value = pixelFor hasAlpha ⟨0, 0, 0, 0⟩ := by
  unfold GIFLoader.readImage at h
  cases hin : s.input with
  | nil =>
    rw [hin] at h
    simp only [Option.some.injEq, Prod.mk.injEq] at h
    intro w hw
    rw [← h.2.1] at hw
    exact absurd hw (List.not_mem_nil w)
  | cons c rest =>
    rw [hin] at h
    simp only [] at h
    cases hr : GIFLoader.readLZWByte F { s with input := rest } true c.val with
    | none => rw [hr] at h; simp at h
    | some p =>
      obtain ⟨r, s1⟩ := p
      rw [hr] at h
      simp only [] at h
      split_ifs at h
      · simp only [Option.some.injEq, Prod.mk.injEq] at h
        intro w hw
        rw [← h.2.1] at hw
        exact absurd hw (List.not_mem_nil w)
      · cases hl : rasterLoop F (fun t => t.readLZWByte F false c.val)
            (store palette transparent ⟨0, 0, 0, 0⟩) width height interlace hasAlpha F s1
            ⟨0, 0, 0, 0, 0⟩ [] with
        | none => rw [hl] at h; simp at h
        | some q =>
          obtain ⟨writes, s2⟩ := q
          rw [hl] at h
          simp only [Option.some.injEq, Prod.mk.injEq] at h
          intro w hw hidx
          rw [← h.2.1] at hw
          have := rasterLoop_writes F _ _ width height interlace hasAlpha F s1 _ [] writes s2 hl
            (fun w hw => absurd hw (List.not_mem_nil w)) w hw
          rw [this, hidx]
          simp [store]

theorem decodeImage_transparent (F : Nat) (s : GIFLoader) (junk : Junk)
    (colourMap : Int → PaletteEntry) (transparent : Int) (gce : List Nat) (d : Decoded)
    (hs : s.image = none) (hg : GceInv transparent gce)
    (h : s.decodeImage F junk colourMap transparent gce = some d) : TransparentOk d := by
  unfold GIFLoader.decodeImage at h
  simp only [] at h
  split_ifs at h with h9 hf
  · simp only [Option.some.injEq] at h
    intro img himg
    rw [← h] at himg
    simp only [Decoded.getImage, hs] at himg
    exact absurd himg (by simp)
  all_goals
    generalize hres : GIFLoader.readImage F _ _ _ _ _ transparent (decide (transparent ≥ 0))
      = res at h
    cases res with
    | none => simp at h
    | some p =>
      obtain ⟨b, ws, s3⟩ := p
      simp only [Option.some.injEq] at h
      intro img himg
      rw [← h] at himg ⊢
      simp only [Decoded.getImage, Option.some.injEq] at himg
      rw [← himg]
      simp only []
      rcases hg with ⟨hnil, _⟩ | ⟨i, hlast, htr⟩
      · refine ⟨fun hne => absurd hnil hne, ?_⟩
        intro i hi
        rw [hnil] at hi
        simp at hi
      · have hge : transparent ≥ 0 := by rw [htr]; exact Int.natCast_nonneg i
        refine ⟨fun _ => by simpa using hge, ?_⟩
        intro j hj w hw hidx
        rw [hlast] at hj
        simp only [Option.some.injEq] at hj
        have := readImage_writes F _ _ _ _ _ transparent _ b ws s3 hres (by omega) w hw
          (by rw [hidx, htr, hj])
        rw [this]
        have hd : decide (transparent ≥ 0) = true := by simpa using hge
        rw [hd]
        rfl

theorem readDataBlock_image (s : GIFLoader) : s.readDataBlock.2.2.image = s.image := by
  unfold GIFLoader.readDataBlock
  split
  · rfl
  · simp only []
    split_ifs <;> rfl

theorem skipDataBlocks_image (F : Nat) :
    ∀ (s t : GIFLoader) (n : Int), skipDataBlocks F s = some (n, t) → t.image = s.image := by
  induction F with
  | zero => intro s t n h; simp [skipDataBlocks] at h
  | succ k ih =>
    intro s t n h
    rw [skipDataBlocks] at h
    split_ifs at h
    · exact (ih _ _ _ h).trans (readDataBlock_image s)
    · simp only [Option.some.injEq, Prod.mk.injEq] at h
      rw [← h.2]
      exact readDataBlock_image s

theorem GceInv.snoc (gce : List Nat) (i : Nat) :
    GceInv (i : Int) (gce ++ [i]) :=
  Or.inr ⟨i, by simp, rfl⟩

theorem processExtension_spec (F : Nat) (s : GIFLoader) (junk : Junk) (type : Nat)
    (transparent : Int) (gce : List Nat) (r tr : Int) (gce1 : List Nat) (t : GIFLoader)
    (hg : GceInv transparent gce)
    (h : s.processExtension F junk type transparent gce = some (r, tr, gce1, t)) :
    t.image = s.image ∧ GceInv tr gce1 := by
  unfold GIFLoader.processExtension at h
  by_cases h1 : type = 0xf9
  · rw [if_pos h1] at h
    simp only [] at h
    by_cases h2 : s.readDataBlock.1 < 0
    · rw [if_pos h2] at h
      simp only [Option.some.injEq, Prod.mk.injEq] at h
      obtain ⟨_, h3, h4, h5⟩ := h
      rw [← h3, ← h4, ← h5]
      exact ⟨readDataBlock_image s, hg⟩
    · rw [if_neg h2] at h
      cases hs : skipDataBlocks F s.readDataBlock.2.2 with
      | none => rw [hs] at h; simp at h
      | some q =>
        obtain ⟨n, u⟩ := q
        rw [hs] at h
        simp only [Option.map_some', Option.some.injEq, Prod.mk.injEq] at h
        obtain ⟨_, h3, h4, h5⟩ := h
        rw [← h3, ← h4, ← h5]
        refine ⟨(skipDataBlocks_image F _ _ _ hs).trans (readDataBlock_image s), ?_⟩
        split_ifs
        · exact GceInv.snoc _ _
        · exact hg
  · rw [if_neg h1] at h
    cases hs : skipDataBlocks F s with
    | none => rw [hs] at h; simp at h
    | some q =>
      obtain ⟨n, u⟩ := q
      rw [hs] at h
      simp only [Option.map_some', Option.some.injEq, Prod.mk.injEq] at h
      obtain ⟨_, h3, h4, h5⟩ := h
      rw [← h3, ← h4, ← h5]
      exact ⟨skipDataBlocks_image F _ _ _ hs, hg⟩

theorem TransparentOk.of_no_image (d : Decoded) (h : d.self.image = none) : TransparentOk d := by
  intro img himg
  rw [Decoded.getImage, h] at himg
  exact absurd himg (by simp)

theorem blockLoop_transparent (F : Nat) (junk : Junk) (fuel : Nat) :
    ∀ (s : GIFLoader) (colourMap : Int → PaletteEntry) (transparent : Int) (gce : List Nat)
      (d : Decoded), s.image = none → GceInv transparent gce →
      blockLoop F junk fuel s colourMap transparent gce = some d → TransparentOk d := by
  induction fuel with
  | zero => intro s cm tr gce d _ _ h; simp [blockLoop] at h
  | succ k ih =>
    intro s cm tr gce d hs hg h
    rw [blockLoop] at h
    cases hin : s.input with
    | nil =>
      rw [hin] at h
      simp only [Option.some.injEq] at h
      rw [← h]
      exact TransparentOk.of_no_image _ hs
    | cons b0 rest =>
      rw [hin] at h
      simp only [] at h
      split_ifs at h with h1 h2 h3
      · simp only [Option.some.injEq] at h
        rw [← h]
        exact TransparentOk.of_no_image _ hs
      · cases rest with
        | nil =>
          simp only [Option.some.injEq] at h
          rw [← h]
          exact TransparentOk.of_no_image _ hs
        | cons type rest1 =>
          simp only [] at h
          cases hp : GIFLoader.processExtension F { s with input := rest1 } junk type.val tr gce with
          | none => rw [hp] at h; simp at h
          | some q =>
            obtain ⟨r, tr1, gce1, s2⟩ := q
            rw [hp] at h
            simp only [] at h
            obtain ⟨himg, hg1⟩ := processExtension_spec F _ junk _ tr gce r tr1 gce1 s2 hg hp
            have hs2 : s2.image = none := himg.trans hs
            split_ifs at h
            · simp only [Option.some.injEq] at h
              rw [← h]
              exact TransparentOk.of_no_image _ hs2
            · exact ih s2 cm tr1 gce1 d hs2 hg1 h
      · refine ih _ cm tr gce d ?_ hg h
        exact hs
      · refine decodeImage_transparent F _ junk cm tr gce d ?_ hg h
        exact hs

theorem construct_transparentOk (F : Nat) (junk : Junk) (inp : List Byte) (d : Decoded)
    (h : GIFLoader.construct F junk inp = some d) : TransparentOk d := by
  unfold GIFLoader.construct at h
  simp only [] at h
  have hi : (GIFLoader.init junk inp).getSizeFromHeader.2.2.2.image = none :=
    getSizeFromHeader_image _
  split_ifs at h
  · simp only [Option.some.injEq] at h
    rw [← h]; exact TransparentOk.of_no_image _ hi
  · simp only [Option.some.injEq] at h
    rw [← h]; exact TransparentOk.of_no_image _ hi
  · simp only [Option.some.injEq] at h
    rw [← h]; exact TransparentOk.of_no_image _ hi
  · refine blockLoop_transparent F junk F _ _ _ _ d ?_ (Or.inl ⟨rfl, rfl⟩) h
    exact hi
  · refine blockLoop_transparent F junk F _ _ _ _ d ?_ (Or.inl ⟨rfl, rfl⟩) h
    exact hi

/-- C1, amended: when the constructor has processed a Graphic Control Extension that set the
transparent index to `i` before the image descriptor, the image it allocates is alpha-capable;
and when that extension is the last one that set the index, every pixel whose decoded palette
index is `i` is written as ARGB (0, 0, 0, 0), whatever the colour table holds for `i`. -/
theorem construct_transparent_index (F : Nat) (junk : Junk) (inp : List Byte) (d : Decoded)
    (img : Image) (i : Nat) (h : GIFLoader.construct F junk inp = some d)
    (himg : d.getImage = some img) (hi : i ∈ d.gce) :
    img.hasAlpha = true ∧
    (d.gce.getLast? = some i →
      ∀ w ∈ img.writes, w.index = i → w.value = .argb 0 0 0 0) := by
  obtain ⟨h1, h2⟩ := construct_transparentOk F junk inp d h img himg
  exact ⟨h1 (List.ne_nil_of_mem hi), h2 i⟩

theorem construct_transparent_index_witness :
    ∃ d img, GIFLoader.construct 10 Junk.zero transparentPixelGif = some d ∧
      d.getImage = some img ∧ 0 ∈ d.gce ∧
      img = ⟨true, 1, 1, [⟨0, 0, 0, .argb 0 0 0 0⟩]⟩ ∧
      (img.hasAlpha = true ∧
        (d.gce.getLast? = some 0 →
          ∀ w ∈ img.writes, w.index = ((0 : Nat) : Int) → w.value = .argb 0 0 0 0)) := by
  have e : (GIFLoader.construct 10 Junk.zero transparentPixelGif).map
      (fun d => (d.getImage, d.gce))
      = some (some ⟨true, 1, 1, [⟨0, 0, 0, .argb 0 0 0 0⟩]⟩, [0]) := by decide!
  cases hd : GIFLoader.construct 10 Junk.zero transparentPixelGif with
  | none => rw [hd] at e; simp at e
  | some d =>
    rw [hd] at e
    simp only [Option.map_some', Option.some.injEq, Prod.mk.injEq] at e
    have hmem : 0 ∈ d.gce := by rw [e.2]; exact List.mem_singleton.mpr rfl
    exact ⟨d, _, rfl, e.1, hmem, rfl,
      construct_transparent_index 10 Junk.zero transparentPixelGif d _ 0 hd e.1 hmem⟩

/-- C1, counterexample: two Graphic Control Extensions before the image descriptor, the first
with transparent index 0, the second with transparent index 1.  The pixel of the 1 by 1 image
decodes to index 0 and is written opaque white, alpha 255. -/
theorem construct_later_extension_overrides :
    (GIFLoader.construct 10 Junk.zero
        (header2 1 1 ++ [0x21, 0xF9, 0x04, 0x01, 0x00, 0x00, 0x00, 0x00]
          ++ [0x21, 0xF9, 0x04, 0x01, 0x00, 0x00, 0x01, 0x00]
          ++ descriptor 1 1 0 ++ [0x02, 0x02, 0x44, 0x01, 0x00, 0x3B])).map
        (fun d => (d.gce, d.getImage))
      = some ([0, 1], some ⟨true, 1, 1, [⟨0, 0, 0, .argb 255 255 255 255⟩]⟩) := by
  decide!

/-! ### Interlaced rows (C3) -/

theorem rasterLoop_row {σ : Type} (F : Nat) (next : σ → Option (Int × σ))
    (palette : Int → PaletteEntry) (W : Nat) (H : Int) (hasAlpha : Bool) (fuel : Nat)
    (y q : Int) (hy : y < H) (n : Nat) :
    ∀ (vs : List Int) (x : Nat) (s t : σ) (ws : List PixelWrite),
      vs.length = n + 1 → x + n + 1 = W → (∀ v ∈ vs, 0 ≤ v) → Supplies next s vs t →
      rasterLoop F next palette W H true hasAlpha (n + 1 + fuel) s ⟨x, y, q, x, y⟩ ws
        = rowEnd F next palette W H hasAlpha fuel y q t
            (ws ++ List.zipWith (writeAt palette hasAlpha y) (List.range' x (n + 1)) vs) := by
  induction n with
  | zero =>
    intro vs x s t ws hlen hx hnn hsup
    match vs, hlen with
    | [v], _ =>
      obtain ⟨s1, hs1, ht⟩ := hsup
      simp only [Supplies] at ht
      rw [show 0 + 1 + fuel = fuel + 1 by omega, rasterLoop, hs1]
      simp only []
      rw [if_pos (hnn v (List.mem_singleton.mpr rfl)), if_pos (by omega)]
      simp only [if_true, rowEnd, ht, List.range', List.zipWith, writeAt]
  | succ m ih =>
    intro vs x s t ws hlen hx hnn hsup
    match vs, hlen with
    | v :: vs', hlen' =>
      obtain ⟨s1, hs1, ht⟩ := hsup
      rw [show m + 1 + 1 + fuel = (m + 1 + fuel) + 1 by omega, rasterLoop, hs1]
      simp only []
      rw [if_pos (hnn v (List.mem_cons_self _ _)), if_neg (by omega),
        if_neg (by omega)]
      have := ih vs' (x + 1) s1 t (ws ++ [⟨x, y, v, pixelFor hasAlpha (palette v)⟩])
        (by simpa using hlen') (by omega) (fun v hv => hnn v (List.mem_cons_of_mem _ hv)) ht
      rw [show ((x + 1 : Nat) : Int) = (x : Int) + 1 by push_cast; rfl] at this
      rw [this]
      simp only [List.range', List.zipWith, writeAt, List.append_assoc, List.singleton_append]

theorem Supplies.split {σ : Type} (next : σ → Option (Int × σ)) :
    ∀ (a b : List Int) (s t : σ), Supplies next s (a ++ b) t →
      ∃ m, Supplies next s a m ∧ Supplies next m b t := by
  intro a
  induction a with
  | nil => intro b s t h; exact ⟨s, rfl, h⟩
  | cons v a ih =>
    intro b s t h
    obtain ⟨s1, h1, h2⟩ := h
    obtain ⟨m, hm1, hm2⟩ := ih b s1 t h2
    exact ⟨m, ⟨s1, h1, hm1⟩, hm2⟩

theorem zipWith_take_length {α β γ : Type} (f : α → β → γ) :
    ∀ (l : List α) (idx : List β), List.zipWith f l (idx.take l.length) = List.zipWith f l idx := by
  intro l
  induction l with
  | nil => intro idx; rfl
  | cons a l ih =>
    intro idx
    cases idx with
    | nil => rfl
    | cons b idx => simp only [List.length_cons, List.take_succ_cons, List.zipWith_cons_cons, ih]

theorem rasterLoop_rows {σ : Type} (F : Nat) (next : σ → Option (Int × σ))
    (palette : Int → PaletteEntry) (W : Nat) (H : Int) (hasAlpha : Bool) (hW : 1 ≤ W)
    (y q : Int) (rows : List Int) (hc : RowChain F H y q rows) :
    ∀ (idx : List Int) (s t : σ) (ws : List PixelWrite) (extra : Nat), y < H →
      idx.length = W * rows.length → (∀ v ∈ idx, 0 ≤ v) → Supplies next s idx t →
      rasterLoop F next palette W H true hasAlpha (W * rows.length + extra) s ⟨0, y, q, 0, y⟩ ws
        = some (ws ++ rowWrites palette hasAlpha W rows idx, t) := by
  induction hc with
  | last y q hend =>
    intro idx s t ws extra hy hlen hnn hsup
    simp only [List.length_singleton, mul_one] at hlen ⊢
    have := rasterLoop_row F next palette W H hasAlpha extra y q hy (W - 1) idx 0 s t ws
      (by omega) (by omega) hnn hsup
    rw [show W - 1 + 1 = W by omega] at this
    rw [show ((0 : Nat) : Int) = 0 by rfl] at this
    rw [this, rowEnd, hend]
    simp only [rowWrites, List.append_nil]
  | next y q y1 q1 rows hstep hy1 _ ih =>
    intro idx s t ws extra hy hlen hnn hsup
    simp only [List.length_cons] at hlen ⊢
    have hsplit : idx = idx.take W ++ idx.drop W := (List.take_append_drop W idx).symm
    have hlt : (idx.take W).length = W := by
      rw [List.length_take, hlen]
      apply min_eq_left
      nlinarith
    have hld : (idx.drop W).length = W * rows.length := by
      rw [List.length_drop, hlen]
      rw [Nat.mul_succ]; omega
    rw [hsplit] at hsup
    obtain ⟨m, hm1, hm2⟩ := Supplies.split next _ _ s t hsup
    have := rasterLoop_row F next palette W H hasAlpha (W * rows.length + extra) y q hy (W - 1)
      (idx.take W) 0 s m ws (by omega) (by omega)
      (fun v hv => hnn v (List.mem_of_mem_take hv)) hm1
    rw [show W - 1 + 1 = W by omega] at this
    rw [show ((0 : Nat) : Int) = 0 by rfl] at this
    rw [show W * (rows.length + 1) + extra = W + (W * rows.length + extra) by
      rw [Nat.mul_succ]; omega]
    rw [this, rowEnd, hstep]
    simp only []
    rw [if_neg (by omega)]
    rw [ih (idx.drop W) m t _ extra hy1 hld (fun v hv => hnn v (List.mem_of_mem_drop hv)) hm2]
    simp only [rowWrites, List.append_assoc]
    have := zipWith_take_length (writeAt palette hasAlpha y) (List.range' 0 W) idx
    rw [List.length_range'] at this
    rw [this]

theorem interlaceSkip_stay (H y q : Int) (F : Nat) (hy : y < H) :
    interlaceSkip H (F + 1) y q = some (some (y, q)) := by
  rw [interlaceSkip, if_neg (by omega)]

theorem interlaceSkip_pass3 (H y : Int) (F : Nat) (hy : H ≤ y) :
    interlaceSkip H (F + 1) y 3 = some none := by
  rw [interlaceSkip, if_pos (by omega)]
  norm_num

theorem interlaceSkip_pass2 (H y : Int) (F : Nat) (hy : H ≤ y) :
    interlaceSkip H (F + 2) y 2 = if 1 < H then some (some (1, 3)) else some none := by
  rw [interlaceSkip, if_pos (by omega)]
  norm_num
  split_ifs with h
  · exact interlaceSkip_stay H 1 3 F h
  · exact interlaceSkip_pass3 H 1 F (by omega)

theorem interlaceSkip_pass1 (H y : Int) (F : Nat) (hy : H ≤ y) :
    interlaceSkip H (F + 3) y 1 =
      if 2 < H then some (some (2, 2)) else if 1 < H then some (some (1, 3)) else some none := by
  rw [interlaceSkip, if_pos (by omega)]
  norm_num
  split_ifs with h h1
  · exact interlaceSkip_stay H 2 2 (F + 1) h
  · rw [interlaceSkip_pass2 H 2 F (by omega), if_pos h1]
  · rw [interlaceSkip_pass2 H 2 F (by omega), if_neg h1]

theorem interlaceSkip_pass0 (H y : Int) (F : Nat) (hy : H ≤ y) :
    interlaceSkip H (F + 4) y 0 =
      if 4 < H then some (some (4, 1)) else if 2 < H then some (some (2, 2))
      else if 1 < H then some (some (1, 3)) else some none := by
  rw [interlaceSkip, if_pos (by omega)]
  norm_num
  split_ifs with h h1 h2
  · exact interlaceSkip_stay H 4 1 (F + 2) h
  · rw [interlaceSkip_pass1 H 4 F (by omega), if_pos h1]
  · rw [interlaceSkip_pass1 H 4 F (by omega), if_neg h1, if_pos h2]
  · rw [interlaceSkip_pass1 H 4 F (by omega), if_neg h1, if_neg h2]

theorem rowChain_pass (F : Nat) (H a d q : Int) (cnt : Nat) (T : List Int)
    (hstep : ∀ y, interlaceStep y q = y + d) (hin : ∀ k : Nat, k < cnt → a + d * k < H)
    (hend : ∀ k : Nat, k + 1 = cnt → RowChain (F + 1) H (a + d * k) q ((a + d * k) :: T)) (m : Nat) :
    ∀ k : Nat, k + m + 1 = cnt →
      RowChain (F + 1) H (a + d * k) q
        ((List.range' k (m + 1)).map (fun j : Nat => a + d * j) ++ T) := by
  induction m with
  | zero =>
    intro k hk
    simpa [List.range'] using hend k (by omega)
  | succ m ih =>
    intro k hk
    have h1 := ih (k + 1) (by omega)
    have hlt := hin (k + 1) (by omega)
    rw [List.range'_succ, List.map_cons, List.cons_append]
    refine RowChain.next _ q (a + d * ((k + 1 : Nat) : Int)) q _ ?_ hlt h1
    rw [hstep]
    have : a + d * (k : Int) + d = a + d * ((k + 1 : Nat) : Int) := by push_cast; ring
    rw [this]
    exact interlaceSkip_stay H _ q F hlt

theorem interlaceStep_pass (y : Int) :
    interlaceStep y 0 = y + 8 ∧ interlaceStep y 1 = y + 8 ∧ interlaceStep y 2 = y + 4 ∧
    interlaceStep y 3 = y + 2 := by
  refine ⟨?_, ?_, ?_, ?_⟩ <;> norm_num [interlaceStep]

theorem map_range_pass (cnt : Nat) (hc : 1 ≤ cnt) (a d : Int) (f : Nat → Int)
    (hf : ∀ k : Nat, f k = a + d * k) (T : List Int) :
    (List.range' 0 (cnt - 1 + 1)).map (fun j : Nat => a + d * j) ++ T
      = (List.range cnt).map f ++ T := by
  rw [Nat.sub_add_cancel hc, List.range_eq_range']
  congr 1
  apply List.map_congr_left
  intro k _
  exact (hf k).symm

theorem rowChain3 (F H : Nat) (hH : 2 ≤ H) :
    RowChain (F + 4) H 1 3 ((List.range (H / 2)).map (fun k : Nat => 2 * (k : Int) + 1)) := by
  have h := rowChain_pass (F + 3) H 1 2 3 (H / 2) [] (fun y => (interlaceStep_pass y).2.2.2)
    (fun k hk => by omega)
    (fun k hk => RowChain.last _ _ (by
      rw [(interlaceStep_pass _).2.2.2]
      exact interlaceSkip_pass3 H _ (F + 3) (by omega)))
    (H / 2 - 1) 0 (by omega)
  rw [map_range_pass (H / 2) (by omega) 1 2 (fun k : Nat => 2 * (k : Int) + 1) (fun k => by ring) [],
    List.append_nil] at h
  simpa using h

theorem rowChain2 (F H : Nat) (hH : 3 ≤ H) :
    RowChain (F + 4) H 2 2 ((List.range ((H + 1) / 4)).map (fun k : Nat => 4 * (k : Int) + 2) ++
      (List.range (H / 2)).map (fun k : Nat => 2 * (k : Int) + 1)) := by
  have h := rowChain_pass (F + 3) H 2 4 2 ((H + 1) / 4)
    ((List.range (H / 2)).map (fun k : Nat => 2 * (k : Int) + 1))
    (fun y => (interlaceStep_pass y).2.2.1)
    (fun k hk => by omega)
    (fun k hk => RowChain.next _ _ 1 3 _ (by
      rw [(interlaceStep_pass _).2.2.1, interlaceSkip_pass2 H _ (F + 2) (by omega),
        if_pos (by omega)]) (by omega) (rowChain3 F H (by omega)))
    ((H + 1) / 4 - 1) 0 (by omega)
  rw [map_range_pass ((H + 1) / 4) (by omega) 2 4 (fun k : Nat => 4 * (k : Int) + 2)
    (fun k => by ring) _] at h
  simpa using h

theorem rowChain1 (F H : Nat) (hH : 5 ≤ H) :
    RowChain (F + 4) H 4 1 ((List.range ((H + 3) / 8)).map (fun k : Nat => 8 * (k : Int) + 4) ++
      ((List.range ((H + 1) / 4)).map (fun k : Nat => 4 * (k : Int) + 2) ++
      (List.range (H / 2)).map (fun k : Nat => 2 * (k : Int) + 1))) := by
  have h := rowChain_pass (F + 3) H 4 8 1 ((H + 3) / 8)
    ((List.range ((H + 1) / 4)).map (fun k : Nat => 4 * (k : Int) + 2) ++
      (List.range (H / 2)).map (fun k : Nat => 2 * (k : Int) + 1))
    (fun y => (interlaceStep_pass y).2.1)
    (fun k hk => by omega)
    (fun k hk => RowChain.next _ _ 2 2 _ (by
      rw [(interlaceStep_pass _).2.1, interlaceSkip_pass1 H _ (F + 1) (by omega),
        if_pos (by omega)]) (by omega) (rowChain2 F H (by omega)))
    ((H + 3) / 8 - 1) 0 (by omega)
  rw [map_range_pass ((H + 3) / 8) (by omega) 4 8 (fun k : Nat => 8 * (k : Int) + 4)
    (fun k => by ring) _] at h
  simpa using h

theorem rowChain0 (F H : Nat) (hH : 1 ≤ H) : RowChain (F + 4) H 0 0 (interlaceRows H) := by
  have h := rowChain_pass (F + 3) H 0 8 0 ((H + 7) / 8)
    ((List.range ((H + 3) / 8)).map (fun k : Nat => 8 * (k : Int) + 4) ++
      ((List.range ((H + 1) / 4)).map (fun k : Nat => 4 * (k : Int) + 2) ++
      (List.range (H / 2)).map (fun k : Nat => 2 * (k : Int) + 1)))
    (fun y => (interlaceStep_pass y).1)
    (fun k hk => by omega)
    (fun k hk => by
      have hs := interlaceSkip_pass0 H (0 + 8 * (k : Int) + 8) F (by omega)
      by_cases h4 : 4 < H
      · rw [if_pos (by omega)] at hs
        exact RowChain.next _ _ 4 1 _ (by rw [(interlaceStep_pass _).1, hs]) (by omega)
          (rowChain1 F H (by omega))
      · rw [if_neg (by omega)] at hs
        have e1 : (H + 3) / 8 = 0 := by omega
        rw [e1, List.range_zero, List.map_nil, List.nil_append]
        by_cases h2 : 2 < H
        · rw [if_pos (by omega)] at hs
          exact RowChain.next _ _ 2 2 _ (by rw [(interlaceStep_pass _).1, hs]) (by omega)
            (rowChain2 F H (by omega))
        · rw [if_neg (by omega)] at hs
          have e2 : (H + 1) / 4 = 0 := by omega
          rw [e2, List.range_zero, List.map_nil, List.nil_append]
          by_cases h1 : 1 < H
          · rw [if_pos (by omega)] at hs
            exact RowChain.next _ _ 1 3 _ (by rw [(interlaceStep_pass _).1, hs]) (by omega)
              (rowChain3 F H (by omega))
          · rw [if_neg (by omega)] at hs
            have e3 : H / 2 = 0 := by omega
            rw [e3, List.range_zero, List.map_nil]
            exact RowChain.last _ _ (by rw [(interlaceStep_pass _).1, hs]))
    ((H + 7) / 8 - 1) 0 (by omega)
  rw [map_range_pass ((H + 7) / 8) (by omega) 0 8 (fun k : Nat => 8 * (k : Int))
    (fun k => by ring) _] at h
  simpa [interlaceRows] using h

theorem interlaceRows_mem (H : Nat) (r : Int) :
    r ∈ interlaceRows H ↔ ∃ n : Nat, n < H ∧ r = n := by
  simp only [interlaceRows, List.mem_append, List.mem_map, List.mem_range]
  constructor
  · rintro (⟨k, hk, rfl⟩ | ⟨k, hk, rfl⟩ | ⟨k, hk, rfl⟩ | ⟨k, hk, rfl⟩)
    · exact ⟨8 * k, by omega, by push_cast; ring⟩
    · exact ⟨8 * k + 4, by omega, by push_cast; ring⟩
    · exact ⟨4 * k + 2, by omega, by push_cast; ring⟩
    · exact ⟨2 * k + 1, by omega, by push_cast; ring⟩
  · rintro ⟨n, hn, rfl⟩
    have h : n % 8 = 0 ∨ n % 8 = 4 ∨ n % 4 = 2 ∨ n % 2 = 1 := by omega
    rcases h with h | h | h | h
    · exact Or.inl ⟨n / 8, by omega, by omega⟩
    · exact Or.inr (Or.inl ⟨n / 8, by omega, by omega⟩)
    · exact Or.inr (Or.inr (Or.inl ⟨n / 4, by omega, by omega⟩))
    · exact Or.inr (Or.inr (Or.inr ⟨n / 2, by omega, by omega⟩))

theorem interlaceRows_nodup (H : Nat) : (interlaceRows H).Nodup := by
  unfold interlaceRows
  refine List.Nodup.append ?_ (List.Nodup.append ?_ (List.Nodup.append ?_ ?_ ?_) ?_) ?_
  · exact (List.nodup_range _).map (fun a b h => by omega)
  · exact (List.nodup_range _).map (fun a b h => by omega)
  · exact (List.nodup_range _).map (fun a b h => by omega)
  · exact (List.nodup_range _).map (fun a b h => by omega)
  · intro r h1 h2
    simp only [List.mem_map, List.mem_range] at h1 h2
    obtain ⟨a, _, rfl⟩ := h1
    obtain ⟨b, _, hb⟩ := h2
    omega
  · intro r h1 h2
    simp only [List.mem_append, List.mem_map, List.mem_range] at h1 h2
    obtain ⟨a, _, rfl⟩ := h1
    rcases h2 with ⟨b, _, hb⟩ | ⟨b, _, hb⟩ <;> omega
  · intro r h1 h2
    simp only [List.mem_append, List.mem_map, List.mem_range] at h1 h2
    obtain ⟨a, _, rfl⟩ := h1
    rcases h2 with ⟨b, _, hb⟩ | ⟨b, _, hb⟩ | ⟨b, _, hb⟩ <;> omega

/-- Every row below `H` occurs exactly once among the interlaced rows. -/
theorem interlaceRows_perm (H : Nat) :
    (interlaceRows H).Perm ((List.range H).map (fun n : Nat => (n : Int))) := by
  refine (List.perm_ext_iff_of_nodup (interlaceRows_nodup H)
    ((List.nodup_range H).map (fun a b h => by simpa using h))).mpr ?_
  intro r
  rw [interlaceRows_mem]
  simp only [List.mem_map, List.mem_range]
  constructor
  · rintro ⟨n, hn, rfl⟩; exact ⟨n, hn, rfl⟩
  · rintro ⟨n, hn, rfl⟩; exact ⟨n, hn, rfl⟩

theorem interlaceRows_length (H : Nat) : (interlaceRows H).length = H := by
  rw [(interlaceRows_perm H).length_eq, List.length_map, List.length_range]

theorem rowWrites_length (palette : Int → PaletteEntry) (hasAlpha : Bool) (W : Nat) :
    ∀ (rows idx : List Int), idx.length = W * rows.length →
      (rowWrites palette hasAlpha W rows idx).length = W * rows.length := by
  intro rows
  induction rows with
  | nil => intro idx _; simp [rowWrites]
  | cons y rows ih =>
    intro idx hlen
    simp only [List.length_cons, Nat.mul_succ] at hlen
    rw [rowWrites, List.length_append, List.length_zipWith, List.length_range',
      ih (idx.drop W) (by rw [List.length_drop]; omega), List.length_cons, Nat.mul_succ]
    omega

/-- The pixel loop over any source that hands over `W * H` non-negative values: it returns
after exactly those values, having filled the interlaced rows in pass order. -/
theorem rasterLoop_interlaced {σ : Type} (F fuel W H : Nat) (next : σ → Option (Int × σ))
    (palette : Int → PaletteEntry) (hasAlpha : Bool) (idx : List Int) (s t : σ)
    (hW : 1 ≤ W) (hH : 1 ≤ H) (hF : 4 ≤ F) (hfuel : W * H ≤ fuel)
    (hlen : idx.length = W * H) (hnn : ∀ v ∈ idx, 0 ≤ v) (hsup : Supplies next s idx t) :
    rasterLoop F next palette W H true hasAlpha fuel s ⟨0, 0, 0, 0, 0⟩ []
      = some (rowWrites palette hasAlpha W (interlaceRows H) idx, t) ∧
    (rowWrites palette hasAlpha W (interlaceRows H) idx).length = W * H ∧
    (interlaceRows H).Perm ((List.range H).map (fun n : Nat => (n : Int))) := by
  obtain ⟨F1, rfl⟩ : ∃ F1, F = F1 + 4 := ⟨F - 4, by omega⟩
  obtain ⟨extra, rfl⟩ : ∃ extra, fuel = W * H + extra := ⟨fuel - W * H, by omega⟩
  have hrows := rasterLoop_rows (F1 + 4) next palette W H hasAlpha hW 0 0 (interlaceRows H)
    (rowChain0 F1 H hH) idx s t [] extra (by omega)
    (by rw [interlaceRows_length]; exact hlen) hnn hsup
  rw [interlaceRows_length, List.nil_append] at hrows
  refine ⟨hrows, ?_, interlaceRows_perm H⟩
  rw [rowWrites_length palette hasAlpha W (interlaceRows H) idx
    (by rw [interlaceRows_length]; exact hlen), interlaceRows_length]

theorem pull_supplies (F : Nat) (c : Int) (n : Nat) :
    ∀ (s t : GIFLoader) (vs : List Int), pull F c n s = some (vs, t) →
      Supplies (fun u => u.readLZWByte F false c) s vs t ∧ vs.length = n := by
  induction n with
  | zero =>
    intro s t vs h
    simp only [pull, Option.some.injEq, Prod.mk.injEq] at h
    rw [← h.1, ← h.2]
    exact ⟨rfl, rfl⟩
  | succ k ih =>
    intro s t vs h
    rw [pull] at h
    cases hr : s.readLZWByte F false c with
    | none => rw [hr] at h; simp at h
    | some p =>
      obtain ⟨x, s1⟩ := p
      rw [hr] at h
      simp only [] at h
      cases hp : pull F c k s1 with
      | none => rw [hp] at h; simp at h
      | some q =>
        obtain ⟨xs, s2⟩ := q
        rw [hp] at h
        simp only [Option.map_some', Option.some.injEq, Prod.mk.injEq] at h
        obtain ⟨h1, h2⟩ := ih s1 s2 xs hp
        rw [← h.1, ← h.2]
        exact ⟨⟨s1, hr, h1⟩, by simp [h2]⟩

theorem readLZWByte_init_value (F : Nat) (s s1 : GIFLoader) (c r : Int)
    (h : s.readLZWByte F true c = some (r, s1)) : r = 0 := by
  unfold GIFLoader.readLZWByte at h
  rw [if_pos rfl] at h
  simp only [Option.some.injEq, Prod.mk.injEq] at h
  exact h.1.symm

/-- C3: for an interlaced image of width `W >= 1` and height `H >= 1` for which `readLZWByte`
supplies `W * H` non-negative indices, `readImage` returns after exactly those `W * H` values,
and its writes fill, in this order, the rows 0, 8, 16, ..., then 4, 12, 20, ..., then
2, 6, 10, ..., then 1, 3, 5, ... below `H`, each from column 0 to column `W - 1`; these rows
are the rows `0 .. H - 1`, each once. -/
theorem readImage_interlaced (F W H : Nat) (s s1 t : GIFLoader) (c : Byte) (rest : List Byte)
    (palette : Int → PaletteEntry) (transparent r : Int) (hasAlpha : Bool) (idx : List Int)
    (hW : 1 ≤ W) (hH : 1 ≤ H) (hF : 4 ≤ F) (hfuel : W * H ≤ F)
    (hin : s.input = c :: rest)
    (hinit : GIFLoader.readLZWByte F { s with input := rest } true c.val = some (r, s1))
    (hpull : pull F c.val (W * H) s1 = some (idx, t)) (hnn : ∀ v ∈ idx, 0 ≤ v) :
    s.readImage F palette W H true transparent hasAlpha
      = some (true, rowWrites
          (if transparent ≠ -1 then store palette transparent ⟨0, 0, 0, 0⟩ else palette)
          hasAlpha W (interlaceRows H) idx, t) ∧
    (rowWrites (if transparent ≠ -1 then store palette transparent ⟨0, 0, 0, 0⟩ else palette)
        hasAlpha W (interlaceRows H) idx).length = W * H ∧
    (interlaceRows H).Perm ((List.range H).map (fun n : Nat => (n : Int))) := by
  obtain ⟨hsup, hlen⟩ := pull_supplies F c.val (W * H) s1 t idx hpull
  obtain ⟨h1, h2, h3⟩ := rasterLoop_interlaced F F W H (fun u => u.readLZWByte F false c.val)
    (if transparent ≠ -1 then store palette transparent ⟨0, 0, 0, 0⟩ else palette)
    hasAlpha idx s1 t hW hH hF hfuel hlen hnn hsup
  refine ⟨?_, h2, h3⟩
  have hr := readLZWByte_init_value F _ s1 _ r hinit
  unfold GIFLoader.readImage
  rw [hin]
  simp only []
  rw [hinit]
  simp only []
  rw [if_neg (by omega), h1]

theorem readImage_interlaced_witness :
    ∃ s1 t,
      (1 ≤ 1 ∧ 1 ≤ 5 ∧ 4 ≤ 10 ∧ 1 * 5 ≤ 10 ∧
        (GIFLoader.init Junk.zero [0x02, 0x03, 0x44, 0x34, 0x50, 0x00, 0x3B]).input
          = 0x02 :: [0x03, 0x44, 0x34, 0x50, 0x00, 0x3B] ∧
        GIFLoader.readLZWByte 10
          { GIFLoader.init Junk.zero [0x02, 0x03, 0x44, 0x34, 0x50, 0x00, 0x3B] with
            input := [0x03, 0x44, 0x34, 0x50, 0x00, 0x3B] } true (0x02 : Byte).val
          = some (0, s1) ∧
        pull 10 (0x02 : Byte).val (1 * 5) s1 = some ([0, 1, 2, 3, 0], t) ∧
        ∀ v ∈ ([0, 1, 2, 3, 0] : List Int), 0 ≤ v) ∧
      ((GIFLoader.init Junk.zero [0x02, 0x03, 0x44, 0x34, 0x50, 0x00, 0x3B]).readImage 10
          Junk.zero.colourMap (1 : Nat) (5 : Nat) true (-1) false
        = some (true, rowWrites
            (if (-1 : Int) ≠ -1 then store Junk.zero.colourMap (-1) ⟨0, 0, 0, 0⟩
              else Junk.zero.colourMap)
            false 1 (interlaceRows 5) [0, 1, 2, 3, 0], t) ∧
       (rowWrites (if (-1 : Int) ≠ -1 then store Junk.zero.colourMap (-1) ⟨0, 0, 0, 0⟩
              else Junk.zero.colourMap) false 1 (interlaceRows 5) [0, 1, 2, 3, 0]).length
          = 1 * 5 ∧
       (interlaceRows 5).Perm ((List.range 5).map (fun n : Nat => (n : Int)))) ∧
      interlaceRows 5 = [0, 4, 2, 1, 3] := by
  have e : ((GIFLoader.readLZWByte 10
      { GIFLoader.init Junk.zero [0x02, 0x03, 0x44, 0x34, 0x50, 0x00, 0x3B] with
        input := [0x03, 0x44, 0x34, 0x50, 0x00, 0x3B] } true (0x02 : Byte).val).bind
      (fun p => (pull 10 (0x02 : Byte).val (1 * 5) p.2).map (fun q => (p.1, q.1))))
      = some (0, [0, 1, 2, 3, 0]) := by decide!
  cases h0 : GIFLoader.readLZWByte 10
      { GIFLoader.init Junk.zero [0x02, 0x03, 0x44, 0x34, 0x50, 0x00, 0x3B] with
        input := [0x03, 0x44, 0x34, 0x50, 0x00, 0x3B] } true (0x02 : Byte).val with
  | none => rw [h0] at e; simp at e
  | some p =>
    obtain ⟨r, s1⟩ := p
    rw [h0] at e
    simp only [Option.some_bind] at e
    cases hp : pull 10 (0x02 : Byte).val (1 * 5) s1 with
    | none => rw [hp] at e; simp at e
    | some q =>
      obtain ⟨vs, t⟩ := q
      rw [hp] at e
      simp only [Option.map_some', Option.some.injEq, Prod.mk.injEq] at e
      obtain ⟨rfl, rfl⟩ := e
      have hnn : ∀ v ∈ ([0, 1, 2, 3, 0] : List Int), 0 ≤ v := by decide
      exact ⟨s1, t, ⟨le_refl _, by decide, by decide, by decide, rfl, rfl, hp, hnn⟩,
        readImage_interlaced 10 1 5 _ s1 t 0x02 _ Junk.zero.colourMap (-1) 0 false
          [0, 1, 2, 3, 0] (le_refl _) (by decide) (by decide) (by decide) rfl h0 hp hnn,
        by decide⟩

/-! ### Clear codes and table initialisation (C12, C13, C19) -/

/-- C12, failing input: minimum code size 2, the codes 0, clear, 1 against the codes
0, clear, clear, 1.  With one clear code the values are 0, 1 and nothing is installed; with the
extra clear code the second clear code is returned as the pixel value 4 and the next code
installs `prefix[6] = 4`. -/
theorem readLZWByte_second_clear_code_emitted :
    ((lzwStart 10 2 [0x02, 0x60, 0x00, 0x00]).bind (fun p => pull 10 2 2 p.2)).map
        (fun q => (q.1, q.2.codeSize, q.2.maxCode, q.2.maxCodeSize, q.2.table0 6))
      = some ([0, 1], 3, 6, 8, 0) ∧
    ((lzwStart 10 2 [0x02, 0x20, 0x03, 0x00]).bind (fun p => pull 10 2 3 p.2)).map
        (fun q => (q.1, q.2.codeSize, q.2.maxCode, q.2.maxCodeSize, q.2.table0 6))
      = some ([0, 4, 1], 3, 7, 8, 4) := by
  refine ⟨by decide!, by decide!⟩

/-- C13, failing input: minimum code size 2 on storage whose `table[1]` cells hold 1000.
Initialisation sets the five scalars and `table[0]` as claimed and `table[1][i] = i` below the
clear code, but leaves `table[1][5]` and `table[1][4095]` at 1000; the table reset of the
clear-code branch sets both to 0. -/
theorem readLZWByte_init_keeps_stale_pixels :
    ((GIFLoader.init Junk.stale []).readLZWByte 1 true 2).map
        (fun p => (p.2.codeSize, p.2.clearCode, p.2.end_code, p.2.maxCode, p.2.maxCodeSize))
      = some (3, 4, 5, 6, 8) ∧
    ((GIFLoader.init Junk.stale []).readLZWByte 1 true 2).map
        (fun p => (p.2.table0 5, p.2.table1 3, p.2.table1 5, p.2.table1 4095))
      = some (0, 3, 1000, 1000) ∧
    ((GIFLoader.init Junk.stale []).readLZWByte 1 true 2).map
        (fun p => (p.2.resetTable.table0 5, p.2.resetTable.table1 3, p.2.resetTable.table1 5,
          p.2.resetTable.table1 4095))
      = some (0, 3, 0, 0) := by
  refine ⟨by decide!, by decide!, by decide!⟩

/-- C19, failing input: the minimum-code-size byte 13.  The clear code is 8192; initialisation
writes `table[1][4096] = 4096` and `table[1][8191] = 8191`, cells past the 4096 entries of the
table, and decoding goes on: the 1 by 1 image gets its pixel. -/
theorem readLZWByte_init_writes_past_table :
    ((GIFLoader.init Junk.stale []).readLZWByte 1 true 13).map
        (fun p => (p.2.clearCode, p.2.table1 4095, p.2.table1 4096, p.2.table1 8191,
          p.2.table1 8192))
      = some (8192, 4095, 4096, 8191, 1000) ∧
    (GIFLoader.construct 10 Junk.zero
        (header2 1 1 ++ descriptor 1 1 0 ++ [0x0D, 0x02, 0x00, 0x00, 0x00, 0x3B])).map
        Decoded.getImage
      = some (some ⟨false, 1, 1, [⟨0, 0, 0, .rgb 255 255 255⟩]⟩) := by
  refine ⟨by decide!, by decide!⟩

/-! ### Exhausted data (C14) -/

theorem getCode_zero_block (s : GIFLoader) (w : Int) (rest : List Byte)
    (hc : s.currentBit + w ≥ s.lastBit) (hf : s.finished = false) (hin : s.input = 0 :: rest) :
    (s.getCode w false).2.finished = true ∧ (s.getCode w false).2.input = rest ∧
    (s.getCode w false).2.lastBit = 16 ∧
    (s.getCode w false).2.currentBit = s.currentBit - s.lastBit + 16 + w := by
  unfold GIFLoader.getCode
  rw [if_neg (by simp), if_pos hc, hf, if_neg (by simp)]
  unfold GIFLoader.getCodeRefill GIFLoader.readDataBlock GIFLoader.getCodeExtract
  simp only [hin]
  norm_num

theorem getCode_finished (t : GIFLoader) (w : Int) (hf : t.finished = true)
    (hc : t.currentBit + w ≥ t.lastBit) : t.getCode w false = (-1, t) := by
  unfold GIFLoader.getCode
  rw [if_neg (by simp), if_pos hc, if_pos hf]

/-- C14: a `getCode` call that refills and reads a zero-length sub-block sets `finished` and
consumes just that length byte; from then on every `getCode` call of width at least 1, made in
any state that has the bit cursor (`finished`, `currentBit`, `lastBit`) this call left, returns
-1 and leaves the whole state, the input included, as it is, and so do all calls after it. -/
theorem getCode_after_zero_block (s : GIFLoader) (w : Int) (rest : List Byte)
    (hc : s.currentBit + w ≥ s.lastBit) (hf : s.finished = false) (hin : s.input = 0 :: rest) :
    (s.getCode w false).2.finished = true ∧ (s.getCode w false).2.input = rest ∧
    ∀ (t : GIFLoader) (w1 : Int), 1 ≤ w1 →
      t.finished = (s.getCode w false).2.finished →
      t.currentBit = (s.getCode w false).2.currentBit →
      t.lastBit = (s.getCode w false).2.lastBit →
      t.getCode w1 false = (-1, t) ∧
      ∀ n, getCodes w1 n t = (List.replicate n (-1), t) := by
  obtain ⟨h1, h2, h3, h4⟩ := getCode_zero_block s w rest hc hf hin
  refine ⟨h1, h2, ?_⟩
  intro t w1 hw e1 e2 e3
  have hcall : t.getCode w1 false = (-1, t) :=
    getCode_finished t w1 (e1.trans h1) (by rw [e2, e3, h3, h4]; omega)
  refine ⟨hcall, ?_⟩
  intro n
  induction n with
  | zero => rfl
  | succ k ih =>
    rw [getCodes]
    simp only [hcall, ih, List.replicate_succ]

theorem getCode_after_zero_block_witness :
    ((GIFLoader.init Junk.zero [0, 0x3B]).currentBit + 3 ≥ (GIFLoader.init Junk.zero [0, 0x3B]).lastBit ∧
      (GIFLoader.init Junk.zero [0, 0x3B]).finished = false ∧
      (GIFLoader.init Junk.zero [0, 0x3B]).input = 0 :: [0x3B]) ∧
    (((GIFLoader.init Junk.zero [0, 0x3B]).getCode 3 false).2.finished = true ∧
      ((GIFLoader.init Junk.zero [0, 0x3B]).getCode 3 false).2.input = [0x3B] ∧
      ∀ (t : GIFLoader) (w1 : Int), 1 ≤ w1 →
        t.finished = ((GIFLoader.init Junk.zero [0, 0x3B]).getCode 3 false).2.finished →
        t.currentBit = ((GIFLoader.init Junk.zero [0, 0x3B]).getCode 3 false).2.currentBit →
        t.lastBit = ((GIFLoader.init Junk.zero [0, 0x3B]).getCode 3 false).2.lastBit →
        t.getCode w1 false = (-1, t) ∧
        ∀ n, getCodes w1 n t = (List.replicate n (-1), t)) :=
  ⟨⟨by decide, rfl, rfl⟩,
   getCode_after_zero_block (GIFLoader.init Junk.zero [0, 0x3B]) 3 [0x3B] (by decide) rfl rfl⟩

/-! ### Image dimensions (C15) -/

theorem makeWord_eq (a b : Byte) : makeWord a b = (a.val : Int) + 256 * (b.val : Int) := by
  unfold makeWord
  have h : 2 ^ 8 * b.val + a.val = 2 ^ 8 * b.val ||| a.val :=
    Nat.mul_add_lt_is_or a.isLt b.val
  rw [Nat.shiftLeft_eq, Nat.mul_comm, ← h]
  push_cast
  ring

theorem readImage_match_eq_map (o : Option (Bool × List PixelWrite × GIFLoader))
    (f : List PixelWrite → GIFLoader → Decoded) :
    (match o with
      | none => none
      | some (_, writes, s3) => some (f writes s3)) = o.map (fun r => f r.2.1 r.2.2) := by
  rcases o with _ | ⟨b, w, u⟩ <;> rfl

theorem decodeImage_descriptor (F : Nat) (junk : Junk) (s : GIFLoader)
    (colourMap : Int → PaletteEntry) (transparent : Int) (gce : List Nat)
    (desc : List Byte) (ht : s.input.take 9 = desc) (hd : desc.length = 9) :
    ∃ (t : GIFLoader) (palette : Int → PaletteEntry),
      s.decodeImage F junk colourMap transparent gce =
        (t.readImage F palette (makeWord (desc.getD 4 0) (desc.getD 5 0))
            (makeWord (desc.getD 6 0) (desc.getD 7 0)) (decide ((desc.getD 8 0).val &&& 0x40 ≠ 0))
            transparent (decide (transparent ≥ 0))).map
          (fun r => ⟨{ r.2.2 with image := some ⟨decide (transparent ≥ 0),
              makeWord (desc.getD 4 0) (desc.getD 5 0),
              makeWord (desc.getD 6 0) (desc.getD 7 0), r.2.1⟩ }, transparent, gce⟩) := by
  unfold GIFLoader.decodeImage
  simp only [ht, hd]
  rw [if_neg (by simp)]
  by_cases hf : (desc.getD 8 0).val &&& 0x80 ≠ 0
  · rw [if_pos hf]
    exact ⟨_, _, readImage_match_eq_map _ (fun writes s3 =>
      ⟨{ s3 with image := some ⟨decide (transparent ≥ 0),
              makeWord (desc.getD 4 0) (desc.getD 5 0),
              makeWord (desc.getD 6 0) (desc.getD 7 0), writes⟩ }, transparent, gce⟩)⟩
  · rw [if_neg hf]
    exact ⟨_, _, readImage_match_eq_map _ (fun writes s3 =>
      ⟨{ s3 with image := some ⟨decide (transparent ≥ 0),
              makeWord (desc.getD 4 0) (desc.getD 5 0),
              makeWord (desc.getD 6 0) (desc.getD 7 0), writes⟩ }, transparent, gce⟩)⟩

theorem blockLoop_at_descriptor (F fuel : Nat) (junk : Junk) (s : GIFLoader)
    (colourMap : Int → PaletteEntry) (transparent : Int) (gce : List Nat)
    (body : List Byte) (hin : s.input = 0x2C :: body) :
    blockLoop F junk (fuel + 1) s colourMap transparent gce =
      { s with input := body }.decodeImage F junk colourMap transparent gce := by
  unfold blockLoop
  rw [hin]
  simp only []
  have e1 : ¬ ((0x2C : Byte).val = 0x3B) := by decide
  have e2 : ¬ ((0x2C : Byte).val = 0x21) := by decide
  have e3 : ¬ ((0x2C : Byte).val ≠ 0x2C) := by decide
  rw [if_neg e1, if_neg e2, if_neg e3]

/-- C15: when the block loop stands on an image descriptor whose 9 bytes are all there, the
constructor does exactly this: it reads the local colour table if the descriptor flags one,
calls `readImage` on the pixel data with width byte 4 + 256 * byte 5 and height
byte 6 + 256 * byte 7 of the descriptor, and, as soon as `readImage` returns, leaves an image of
that width and height holding the pixels `readImage` wrote.  So whenever `readImage` returns, the constructor
returns with such an image, and every image it returns at this descriptor has these dimensions.
The loop state `s` is arbitrary: the logical screen size of the header is not kept in it and
plays no part (the example decodes a 2 by 1 image behind a header announcing 9 by 7). -/
theorem blockLoop_image_dimensions (F fuel : Nat) (junk : Junk) (s : GIFLoader)
    (colourMap : Int → PaletteEntry) (transparent : Int) (gce : List Nat)
    (desc rest : List Byte) (hin : s.input = 0x2C :: (desc ++ rest)) (hd : desc.length = 9) :
    blockLoop F junk (fuel + 1) s colourMap transparent gce =
      (GIFLoader.readImage F
        (if (desc.getD 8 0).val &&& 0x80 ≠ 0 then
          (({ s with input := rest } : GIFLoader).readColourMap junk
            (2 <<< ((desc.getD 8 0).val &&& 7)) colourMap).2.2
          else { s with input := rest })
        (if (desc.getD 8 0).val &&& 0x80 ≠ 0 then
          (({ s with input := rest } : GIFLoader).readColourMap junk
            (2 <<< ((desc.getD 8 0).val &&& 7)) colourMap).2.1
          else colourMap)
        ((desc.getD 4 0).val + 256 * (desc.getD 5 0).val)
        ((desc.getD 6 0).val + 256 * (desc.getD 7 0).val)
        (decide ((desc.getD 8 0).val &&& 0x40 ≠ 0)) transparent (decide (transparent ≥ 0))).map
        (fun r => (⟨{ r.2.2 with image := some ⟨decide (transparent ≥ 0),
            (desc.getD 4 0).val + 256 * (desc.getD 5 0).val,
            (desc.getD 6 0).val + 256 * (desc.getD 7 0).val, r.2.1⟩ },
          transparent, gce⟩ : Decoded)) ∧
    (∀ b ws s3, (GIFLoader.readImage F
          (if (desc.getD 8 0).val &&& 0x80 ≠ 0 then
            (({ s with input := rest } : GIFLoader).readColourMap junk
              (2 <<< ((desc.getD 8 0).val &&& 7)) colourMap).2.2
            else { s with input := rest })
          (if (desc.getD 8 0).val &&& 0x80 ≠ 0 then
            (({ s with input := rest } : GIFLoader).readColourMap junk
              (2 <<< ((desc.getD 8 0).val &&& 7)) colourMap).2.1
            else colourMap)
          ((desc.getD 4 0).val + 256 * (desc.getD 5 0).val)
          ((desc.getD 6 0).val + 256 * (desc.getD 7 0).val)
          (decide ((desc.getD 8 0).val &&& 0x40 ≠ 0)) transparent (decide (transparent ≥ 0))) = some (b, ws, s3) →
      ∃ d, blockLoop F junk (fuel + 1) s colourMap transparent gce = some d ∧
        d.getImage = some ⟨decide (transparent ≥ 0),
          (desc.getD 4 0).val + 256 * (desc.getD 5 0).val,
          (desc.getD 6 0).val + 256 * (desc.getD 7 0).val, ws⟩) ∧
    ∀ d, blockLoop F junk (fuel + 1) s colourMap transparent gce = some d →
      ∃ ws, d.getImage = some ⟨decide (transparent ≥ 0),
        (desc.getD 4 0).val + 256 * (desc.getD 5 0).val,
        (desc.getD 6 0).val + 256 * (desc.getD 7 0).val, ws⟩ := by
  have ht : (desc ++ rest).take 9 = desc := by
    rw [← hd]; exact List.take_left' rfl
  have hdr : (desc ++ rest).drop 9 = rest := by
    rw [← hd]; exact List.drop_left' rfl
  have key : blockLoop F junk (fuel + 1) s colourMap transparent gce =
      (GIFLoader.readImage F
        (if (desc.getD 8 0).val &&& 0x80 ≠ 0 then
          (({ s with input := rest } : GIFLoader).readColourMap junk
            (2 <<< ((desc.getD 8 0).val &&& 7)) colourMap).2.2
          else { s with input := rest })
        (if (desc.getD 8 0).val &&& 0x80 ≠ 0 then
          (({ s with input := rest } : GIFLoader).readColourMap junk
            (2 <<< ((desc.getD 8 0).val &&& 7)) colourMap).2.1
          else colourMap)
        ((desc.getD 4 0).val + 256 * (desc.getD 5 0).val)
        ((desc.getD 6 0).val + 256 * (desc.getD 7 0).val)
        (decide ((desc.getD 8 0).val &&& 0x40 ≠ 0)) transparent (decide (transparent ≥ 0))).map
        (fun r => (⟨{ r.2.2 with image := some ⟨decide (transparent ≥ 0),
            (desc.getD 4 0).val + 256 * (desc.getD 5 0).val,
            (desc.getD 6 0).val + 256 * (desc.getD 7 0).val, r.2.1⟩ },
          transparent, gce⟩ : Decoded)) := by
    rw [blockLoop_at_descriptor F fuel junk s colourMap transparent gce _ hin]
    unfold GIFLoader.decodeImage
    simp only [ht, hdr, hd]
    rw [if_neg (by simp)]
    rw [← makeWord_eq, ← makeWord_eq]
    by_cases hf : (desc.getD 8 0).val &&& 0x80 ≠ 0
    · rw [if_pos hf, if_pos hf, if_pos hf]
      exact readImage_match_eq_map _ (fun writes s3 =>
        ⟨{ s3 with image := some ⟨decide (transparent ≥ 0),
              makeWord (desc.getD 4 0) (desc.getD 5 0),
              makeWord (desc.getD 6 0) (desc.getD 7 0), writes⟩ }, transparent, gce⟩)
    · rw [if_neg hf, if_neg hf, if_neg hf]
      exact readImage_match_eq_map _ (fun writes s3 =>
        ⟨{ s3 with image := some ⟨decide (transparent ≥ 0),
              makeWord (desc.getD 4 0) (desc.getD 5 0),
              makeWord (desc.getD 6 0) (desc.getD 7 0), writes⟩ }, transparent, gce⟩)
  refine ⟨key, ?_, ?_⟩
  · intro b ws s3 hr
    rw [key, hr]
    exact ⟨_, rfl, rfl⟩
  intro d hd1
  rw [key] at hd1
  obtain ⟨r, -, hr⟩ := Option.map_eq_some'.mp hd1
  exact ⟨r.2.1, by rw [← hr]; rfl⟩

theorem blockLoop_image_dimensions_witness :
    ((GIFLoader.init Junk.zero
        (descriptor 3 2 0 ++ [0x02, 0x03, 0x44, 0x34, 0x50, 0x00, 0x3B])).input
        = 0x2C :: ([0, 0, 0, 0, 3, 0, 2, 0, 0] ++ [0x02, 0x03, 0x44, 0x34, 0x50, 0x00, 0x3B]) ∧
      ([0, 0, 0, 0, 3, 0, 2, 0, 0] : List Byte).length = 9) ∧
    (blockLoop 10 Junk.zero (0 + 1)
        (GIFLoader.init Junk.zero
          (descriptor 3 2 0 ++ [0x02, 0x03, 0x44, 0x34, 0x50, 0x00, 0x3B]))
        Junk.zero.colourMap (-1) []).map Decoded.getImage
      = some (some ⟨false, 3, 2, [⟨0, 0, 0, .rgb 0 0 0⟩, ⟨1, 0, 1, .rgb 0 0 0⟩,
          ⟨2, 0, 2, .rgb 0 0 0⟩, ⟨0, 1, 3, .rgb 0 0 0⟩, ⟨1, 1, 0, .rgb 0 0 0⟩]⟩) ∧
    (GIFLoader.construct 10 Junk.zero
        (header2 9 7 ++ descriptor 2 1 0 ++ [0x02, 0x02, 0x0C, 0x0A, 0x00, 0x3B])).map
        Decoded.getImage
      = some (some ⟨false, 2, 1, [⟨0, 0, 1, .rgb 0 0 0⟩, ⟨1, 0, 0, .rgb 255 255 255⟩]⟩) := by
  refine ⟨⟨rfl, rfl⟩, ?_, by decide!⟩
  have h := (blockLoop_image_dimensions 10 0 Junk.zero
    (GIFLoader.init Junk.zero (descriptor 3 2 0 ++ [0x02, 0x03, 0x44, 0x34, 0x50, 0x00, 0x3B]))
    Junk.zero.colourMap (-1) [] [0, 0, 0, 0, 3, 0, 2, 0, 0]
    [0x02, 0x03, 0x44, 0x34, 0x50, 0x00, 0x3B] (by rfl) (by rfl)).1
  rw [h]
  decide!

/-! ### The global colour table (C16) -/

theorem getSizeFromHeader_valid (s : GIFLoader)
    (hm : s.input.take 6 = [0x47, 0x49, 0x46, 0x38, 0x37, 0x61] ∨
          s.input.take 6 = [0x47, 0x49, 0x46, 0x38, 0x39, 0x61])
    (hl : 10 ≤ s.input.length) :
    s.getSizeFromHeader = (true, makeWord (s.input.getD 6 0) (s.input.getD 7 0),
      makeWord (s.input.getD 8 0) (s.input.getD 9 0), { s with input := s.input.drop 10 }) := by
  unfold GIFLoader.getSizeFromHeader
  simp only []
  have h6 : (s.input.take 6).length = 6 := by
    rw [List.length_take]; omega
  have h4 : ((s.input.drop 6).take 4).length = 4 := by
    rw [List.length_take, List.length_drop]; omega
  rw [if_pos h6, if_pos hm, if_pos h4]
  have g : ∀ k, k < 4 → ((s.input.drop 6).take 4).getD k 0 = s.input.getD (6 + k) 0 := by
    intro k hk
    simp only [List.getD_eq_getElem?_getD, List.getElem?_take, List.getElem?_drop, if_pos hk]
  rw [g 0 (by omega), g 1 (by omega), g 2 (by omega), g 3 (by omega), List.drop_drop]

theorem readColourMapLoop_entries (n : Nat) :
    ∀ (i0 : Int) (inp : List Byte) (rgb : Int → Nat) (cm : Int → PaletteEntry),
      3 * n ≤ inp.length →
      (∀ k : Nat, k < n → (readColourMapLoop n i0 inp rgb cm).2 (i0 + k) =
        ⟨(inp.getD (3 * k) 0).val, (inp.getD (3 * k + 1) 0).val,
          (inp.getD (3 * k + 2) 0).val, 255⟩) ∧
      ∀ j : Int, j < i0 → (readColourMapLoop n i0 inp rgb cm).2 j = cm j := by
  induction n with
  | zero =>
    intro i0 inp rgb cm _
    exact ⟨fun k hk => absurd hk (Nat.not_lt_zero k), fun j _ => rfl⟩
  | succ n ih =>
    intro i0 inp rgb cm hl
    obtain _ | ⟨x, _ | ⟨y, _ | ⟨z, tl⟩⟩⟩ := inp
    · simp at hl
    · simp at hl; omega
    · simp at hl; omega
    have hl' : 3 * n ≤ tl.length := by simp at hl; omega
    rw [readColourMapLoop]
    obtain ⟨a, b⟩ := ih (i0 + 1) tl (storeBytes rgb 0 [x, y, z])
      (store cm i0 ⟨storeBytes rgb 0 [x, y, z] 0, storeBytes rgb 0 [x, y, z] 1,
        storeBytes rgb 0 [x, y, z] 2, 0xff⟩) hl'
    refine ⟨?_, ?_⟩
    · intro k hk
      cases k with
      | zero =>
        have := b i0 (by omega)
        simp only [List.take, List.drop] at this ⊢
        rw [Nat.cast_zero, add_zero, this]
        simp [store, storeBytes]
      | succ k =>
        have := a k (by omega)
        simp only [List.take, List.drop] at this ⊢
        have e : i0 + ((k + 1 : Nat) : Int) = i0 + 1 + (k : Int) := by push_cast; ring
        rw [e, this]
        have e3 : 3 * (k + 1) = 3 * k + 3 := by ring
        have e4 : 3 * k + 3 + 1 = 3 * k + 1 + 3 := by ring
        have e5 : 3 * k + 3 + 2 = 3 * k + 2 + 3 := by ring
        simp only [e3, e4, e5, List.getD_eq_getElem?_getD, List.getElem?_cons_succ]
    · intro j hj
      have := b j (by omega)
      simp only [List.take, List.drop] at this ⊢
      rw [this]
      simp only [store]
      rw [if_neg (by omega)]

theorem readImage_writes_palette (F : Nat) (s : GIFLoader) (palette : Int → PaletteEntry)
    (width height : Int) (interlace : Bool) (hasAlpha : Bool)
    (b : Bool) (ws : List PixelWrite) (s' : GIFLoader)
    (h : s.readImage F palette width height interlace (-1) hasAlpha = some (b, ws, s')) :
    ∀ w ∈ ws, w.value = pixelFor hasAlpha (palette w.index) := by
  unfold GIFLoader.readImage at h
  cases hin : s.input with
  | nil =>
    rw [hin] at h
    simp only [Option.some.injEq, Prod.mk.injEq] at h
    intro w hw
    rw [← h.2.1] at hw
    exact absurd hw (List.not_mem_nil w)
  | cons c rest =>
    rw [hin] at h
    simp only [] at h
    cases hr : GIFLoader.readLZWByte F { s with input := rest } true c.val with
    | none => rw [hr] at h; simp at h
    | some p =>
      obtain ⟨r, s1⟩ := p
      rw [hr] at h
      simp only [] at h
      by_cases hneg : r < 0
      · rw [if_pos hneg] at h
        simp only [Option.some.injEq, Prod.mk.injEq] at h
        intro w hw
        rw [← h.2.1] at hw
        exact absurd hw (List.not_mem_nil w)
      · rw [if_neg hneg, if_neg (by simp)] at h
        cases hl : rasterLoop F (fun t => t.readLZWByte F false c.val) palette width height
            interlace hasAlpha F s1 ⟨0, 0, 0, 0, 0⟩ [] with
        | none => rw [hl] at h; simp at h
        | some q =>
          obtain ⟨ws1, s2⟩ := q
          rw [hl] at h
          simp only [Option.some.injEq, Prod.mk.injEq] at h
          rw [← h.2.1]
          exact rasterLoop_writes F _ palette width height interlace hasAlpha F s1 _ [] ws1 s2 hl
            (fun w hw => absurd hw (List.not_mem_nil w))

theorem construct_valid_header (F : Nat) (junk : Junk) (inp : List Byte)
    (hm : inp.take 6 = [0x47, 0x49, 0x46, 0x38, 0x37, 0x61] ∨
          inp.take 6 = [0x47, 0x49, 0x46, 0x38, 0x39, 0x61])
    (hw : 0 < makeWord (inp.getD 6 0) (inp.getD 7 0))
    (hh : 0 < makeWord (inp.getD 8 0) (inp.getD 9 0)) (hl : 13 ≤ inp.length) :
    GIFLoader.construct F junk inp =
      if (inp.getD 10 0).val &&& 0x80 ≠ 0 then
        blockLoop F junk F
          (({ GIFLoader.init junk inp with input := inp.drop 13 }).readColourMap junk
            (2 <<< ((inp.getD 10 0).val &&& 7)) junk.colourMap).2.2
          (({ GIFLoader.init junk inp with input := inp.drop 13 }).readColourMap junk
            (2 <<< ((inp.getD 10 0).val &&& 7)) junk.colourMap).2.1 (-1) []
      else blockLoop F junk F { GIFLoader.init junk inp with input := inp.drop 13 }
        junk.colourMap (-1) [] := by
  have hv := getSizeFromHeader_valid (GIFLoader.init junk inp) hm (by exact (by omega : 10 ≤ inp.length))
  have hi : (GIFLoader.init junk inp).input = inp := rfl
  rw [hi] at hv
  unfold GIFLoader.construct
  simp only [hv]
  rw [if_neg (by simp), if_neg (by omega)]
  have h3 : ((inp.drop 10).take 3).length = 3 := by
    rw [List.length_take, List.length_drop]; omega
  rw [if_neg (by rw [h3]; simp)]
  have g : ((inp.drop 10).take 3).getD 0 0 = inp.getD 10 0 := by
    simp only [List.getD_eq_getElem?_getD, List.getElem?_take, List.getElem?_drop]
    simp
  simp only [g, List.drop_drop]
  split_ifs <;> rfl

theorem decodeImage_global_palette (F : Nat) (junk : Junk) (s : GIFLoader)
    (colourMap : Int → PaletteEntry) (gce : List Nat) (d : Decoded)
    (h9 : (s.input.take 9).length = 9) (hf : ((s.input.take 9).getD 8 0).val &&& 0x80 = 0)
    (h : s.decodeImage F junk colourMap (-1) gce = some d) :
    ∃ img, d.getImage = some img ∧
      ∀ w ∈ img.writes, w.value =
        .rgb (colourMap w.index).c0 (colourMap w.index).c1 (colourMap w.index).c2 := by
  unfold GIFLoader.decodeImage at h
  simp only [] at h
  rw [if_neg (by rw [h9]; simp), if_neg (by rw [hf]; simp)] at h
  generalize hres : GIFLoader.readImage F _ _ _ _ _ (-1) _ = res at h
  rcases res with _ | ⟨b, ws, s3⟩
  · simp at h
  · simp only [Option.some.injEq] at h
    subst h
    refine ⟨_, rfl, ?_⟩
    intro w hw
    have := readImage_writes_palette F _ _ _ _ _ _ b ws s3 hres w hw
    rw [this]
    rfl

/-! ### Non-interlaced rows (C20) -/

theorem rasterWrites_length (palette : Int → PaletteEntry) (hasAlpha : Bool) (W : Nat) :
    ∀ (vs : List Int) (k : Nat), (rasterWrites palette hasAlpha W k vs).length = vs.length := by
  intro vs
  induction vs with
  | nil => intro k; rfl
  | cons v vs ih => intro k; simp only [rasterWrites, List.length_cons, ih]

theorem rasterWrites_getElem? (palette : Int → PaletteEntry) (hasAlpha : Bool) (W : Nat) :
    ∀ (vs : List Int) (k j : Nat),
      (rasterWrites palette hasAlpha W k vs)[j]? =
        vs[j]?.map (fun v => writeAt palette hasAlpha (((k + j) / W : Nat) : Int) ((k + j) % W) v) := by
  intro vs
  induction vs with
  | nil => intro k j; rfl
  | cons v vs ih =>
    intro k j
    cases j with
    | zero => simp only [rasterWrites, List.getElem?_cons_zero, Option.map_some', Nat.add_zero]
    | succ j =>
      simp only [rasterWrites, List.getElem?_cons_succ, ih]
      rw [show k + 1 + j = k + (j + 1) by omega]

theorem rasterWrites_bounds (palette : Int → PaletteEntry) (hasAlpha : Bool) (W H : Nat)
    (hW : 1 ≤ W) :
    ∀ (vs : List Int) (k : Nat), k + vs.length ≤ W * H →
      ∀ w ∈ rasterWrites palette hasAlpha W k vs, 0 ≤ w.x ∧ w.x < W ∧ 0 ≤ w.y ∧ w.y < H := by
  intro vs
  induction vs with
  | nil => intro k _ w hw; exact absurd hw (List.not_mem_nil w)
  | cons v vs ih =>
    intro k hk w hw
    simp only [rasterWrites, List.mem_cons] at hw
    simp only [List.length_cons] at hk
    rcases hw with rfl | hw
    · simp only [writeAt]
      have h1 : k % W < W := Nat.mod_lt _ (by omega)
      have h2 : k / W < H := by
        apply Nat.div_lt_of_lt_mul
        omega
      exact ⟨by positivity, by exact_mod_cast h1, by positivity, by exact_mod_cast h2⟩
    · exact ih (k + 1) (by omega) w hw

theorem rasterLoop_plain {σ : Type} (F : Nat) (next : σ → Option (Int × σ))
    (palette : Int → PaletteEntry) (W H : Nat) (hasAlpha : Bool) (hW : 1 ≤ W) (t : σ) :
    ∀ (vs : List Int) (x y : Nat) (q : Int) (s : σ) (ws : List PixelWrite) (fuel : Nat),
      x < W → y < H → vs.length + 1 ≤ fuel → y * W + x + vs.length ≤ W * H →
      Supplies next s vs t → (∀ v ∈ vs, 0 ≤ v) →
      (y * W + x + vs.length < W * H → ∃ v t1, next t = some (v, t1) ∧ v < 0) →
      ∃ tf, rasterLoop F next palette W H false hasAlpha fuel s ⟨x, y, q, x, y⟩ ws
        = some (ws ++ rasterWrites palette hasAlpha W (y * W + x) vs, tf) ∧
        (y * W + x + vs.length = W * H → tf = t) ∧
        (∀ v t1, y * W + x + vs.length < W * H → next t = some (v, t1) → tf = t1) := by
  intro vs
  induction vs with
  | nil =>
    intro x y q s ws fuel hx hy hfuel hk hsup hnn hend
    simp only [Supplies] at hsup
    subst hsup
    have hlt : y * W + x + ([] : List Int).length < W * H := by
      simp only [List.length_nil, Nat.add_zero]
      calc y * W + x < y * W + W := by omega
        _ = (y + 1) * W := by ring
        _ ≤ H * W := Nat.mul_le_mul_right W (by omega)
        _ = W * H := Nat.mul_comm H W
    obtain ⟨v, t1, hn, hv⟩ := hend hlt
    obtain ⟨f1, rfl⟩ : ∃ f1, fuel = f1 + 1 := ⟨fuel - 1, by omega⟩
    rw [rasterLoop, hn]
    simp only []
    rw [if_neg (by omega)]
    refine ⟨t1, ?_, ?_, ?_⟩
    · simp only [rasterWrites, List.append_nil]
    · intro h; omega
    · intro v' t' _ h'
      simp only [Option.some.injEq, Prod.mk.injEq] at h'
      exact h'.2
  | cons v vs ih =>
    intro x y q s ws fuel hx hy hfuel hk hsup hnn hend
    obtain ⟨s1, hs1, hsup1⟩ := hsup
    simp only [List.length_cons] at hfuel hk hend ⊢
    obtain ⟨f1, rfl⟩ : ∃ f1, fuel = f1 + 1 := ⟨fuel - 1, by omega⟩
    have hdiv : (y * W + x) / W = y := by
      rw [Nat.mul_comm, Nat.mul_add_div (by omega), Nat.div_eq_of_lt hx, Nat.add_zero]
    have hmod : (y * W + x) % W = x := by
      rw [Nat.mul_comm, Nat.mul_add_mod, Nat.mod_eq_of_lt hx]
    rw [rasterLoop, hs1]
    simp only []
    rw [if_pos (hnn v (List.mem_cons_self _ _))]
    have hw1 : ws ++ [(⟨x, y, v, pixelFor hasAlpha (palette v)⟩ : PixelWrite)]
        ++ rasterWrites palette hasAlpha W (y * W + x + 1) vs
        = ws ++ rasterWrites palette hasAlpha W (y * W + x) (v :: vs) := by
      simp only [rasterWrites, writeAt, hdiv, hmod, List.append_assoc, List.singleton_append]
    by_cases hxW : x + 1 = W
    · rw [if_pos (by exact_mod_cast hxW)]
      simp only [Bool.false_eq_true, if_false]
      have hrow : y * W + x + 1 = (y + 1) * W := by rw [Nat.add_mul]; omega
      by_cases hyH : y + 1 = H
      · rw [if_pos (by rw [← hyH]; push_cast; omega)]
        have hfull : (y + 1) * W = W * H := by rw [hyH, Nat.mul_comm]
        have hvs : vs = [] := by
          apply List.length_eq_zero.mp
          omega
        subst hvs
        simp only [Supplies] at hsup1
        refine ⟨s1, ?_, fun _ => hsup1.symm, ?_⟩
        · rw [← hw1]
          simp only [rasterWrites, List.append_nil]
        · intro v' t' h _
          simp only [List.length_nil] at h
          omega
      · rw [if_neg (by
          have : y + 1 < H := by omega
          have : ((y : Int) + 1) < (H : Int) := by exact_mod_cast this
          omega)]
        have := ih 0 (y + 1) q s1 (ws ++ [⟨x, y, v, pixelFor hasAlpha (palette v)⟩]) f1
          (by omega) (by omega) (by omega) (by omega) hsup1
          (fun v hv => hnn v (List.mem_cons_of_mem _ hv))
          (fun h => hend (by omega))
        obtain ⟨tf, h1, h2, h3⟩ := this
        simp only [Nat.add_zero] at h1 h2 h3
        rw [← hrow, hw1] at h1
        refine ⟨tf, ?_, fun h => h2 (by omega), fun v' t' h hn => h3 v' t' (by omega) hn⟩
        rw [← h1]
        simp only [Nat.cast_add, Nat.cast_one, Nat.cast_zero]
    · rw [if_neg (by
        intro h
        have : x + 1 = W := by exact_mod_cast h
        exact hxW this)]
      rw [if_neg (by
        have : (y : Int) < (H : Int) := by exact_mod_cast hy
        simp only [ge_iff_le, not_le]
        exact this)]
      have := ih (x + 1) y q s1 (ws ++ [⟨x, y, v, pixelFor hasAlpha (palette v)⟩]) f1
        (by omega) hy (by omega) (by omega) hsup1
        (fun v hv => hnn v (List.mem_cons_of_mem _ hv))
        (fun h => hend (by omega))
      obtain ⟨tf, h1, h2, h3⟩ := this
      rw [show y * W + (x + 1) = y * W + x + 1 by omega, hw1] at h1
      refine ⟨tf, ?_, fun h => h2 (by omega), fun v' t' h hn => h3 v' t' (by omega) hn⟩
      rw [← h1]
      simp only [Nat.cast_add, Nat.cast_one]

/-- C20: for a non-interlaced image of width `W >= 1` and height `H >= 1` for which
`readLZWByte` supplies `n` non-negative values before its first negative one (or at least
`W * H` of them), `readImage` returns having written exactly `min n (W * H)` pixels, value
number `k` at column `k mod W` of row `k div W`; every write lies at a column below `W` and a
row below `H`. -/
theorem readImage_not_interlaced (F W H n : Nat) (s s1 t : GIFLoader) (c : Byte)
    (rest : List Byte) (palette : Int → PaletteEntry) (transparent r : Int) (hasAlpha : Bool)
    (idx : List Int) (hW : 1 ≤ W) (hH : 1 ≤ H) (hfuel : min n (W * H) + 1 ≤ F)
    (hin : s.input = c :: rest)
    (hinit : GIFLoader.readLZWByte F { s with input := rest } true c.val = some (r, s1))
    (hpull : pull F c.val (min n (W * H)) s1 = some (idx, t)) (hnn : ∀ v ∈ idx, 0 ≤ v)
    (hend : n < W * H → ∃ v t1, t.readLZWByte F false c.val = some (v, t1) ∧ v < 0) :
    ∃ ws tf, s.readImage F palette W H false transparent hasAlpha = some (true, ws, tf) ∧
      ws.length = min n (W * H) ∧
      (∀ k, k < min n (W * H) → ws[k]? = idx[k]?.map (fun v =>
        (⟨((k % W : Nat) : Int), ((k / W : Nat) : Int), v, pixelFor hasAlpha
          ((if transparent ≠ -1 then store palette transparent ⟨0, 0, 0, 0⟩ else palette) v)⟩
          : PixelWrite))) ∧
      ∀ w ∈ ws, 0 ≤ w.x ∧ w.x < W ∧ 0 ≤ w.y ∧ w.y < H := by
  obtain ⟨hsup, hlen⟩ := pull_supplies F c.val (min n (W * H)) s1 t idx hpull
  have hle : idx.length ≤ W * H := by rw [hlen]; exact Nat.min_le_right _ _
  have hWH : 1 ≤ W * H := Nat.mul_pos hW hH
  obtain ⟨tf, h1, -, -⟩ := rasterLoop_plain F (fun u => u.readLZWByte F false c.val)
    (if transparent ≠ -1 then store palette transparent ⟨0, 0, 0, 0⟩ else palette)
    W H hasAlpha hW t idx 0 0 0 s1 [] F (by omega) (by omega) (by omega) (by omega) hsup hnn
    (fun h => hend (by
      rw [hlen] at h
      simp only [Nat.zero_mul, Nat.add_zero, Nat.zero_add] at h
      exact lt_of_not_le (fun hc => by rw [Nat.min_eq_right hc] at h; omega)))
  simp only [Nat.zero_mul, Nat.add_zero, List.nil_append, Nat.cast_zero] at h1
  have hr := readLZWByte_init_value F _ s1 _ r hinit
  refine ⟨rasterWrites
    (if transparent ≠ -1 then store palette transparent ⟨0, 0, 0, 0⟩ else palette)
    hasAlpha W 0 idx, tf, ?_, ?_, ?_, ?_⟩
  · unfold GIFLoader.readImage
    rw [hin]
    simp only []
    rw [hinit]
    simp only []
    rw [if_neg (by omega), h1]
  · rw [rasterWrites_length, hlen]
  · intro k _
    rw [rasterWrites_getElem?, Nat.zero_add]
    rfl
  · exact rasterWrites_bounds _ hasAlpha W H hW idx 0 (by omega)

theorem readImage_not_interlaced_witness :
    ∃ s1 t,
      (1 ≤ 3 ∧ 1 ≤ 2 ∧ min 5 (3 * 2) + 1 ≤ 10 ∧
        (GIFLoader.init Junk.zero [0x02, 0x03, 0x44, 0x34, 0x50, 0x00, 0x3B]).input
          = 0x02 :: [0x03, 0x44, 0x34, 0x50, 0x00, 0x3B] ∧
        GIFLoader.readLZWByte 10
          { GIFLoader.init Junk.zero [0x02, 0x03, 0x44, 0x34, 0x50, 0x00, 0x3B] with
            input := [0x03, 0x44, 0x34, 0x50, 0x00, 0x3B] } true (0x02 : Byte).val
          = some (0, s1) ∧
        pull 10 (0x02 : Byte).val (min 5 (3 * 2)) s1 = some ([0, 1, 2, 3, 0], t) ∧
        (∀ v ∈ ([0, 1, 2, 3, 0] : List Int), 0 ≤ v) ∧
        (5 < 3 * 2 → ∃ v t1, t.readLZWByte 10 false (0x02 : Byte).val = some (v, t1) ∧ v < 0)) ∧
      ∃ ws tf,
        (GIFLoader.init Junk.zero [0x02, 0x03, 0x44, 0x34, 0x50, 0x00, 0x3B]).readImage 10
            Junk.zero.colourMap (3 : Nat) (2 : Nat) false (-1) false = some (true, ws, tf) ∧
        ws.length = min 5 (3 * 2) ∧
        (∀ k, k < min 5 (3 * 2) → ws[k]? = ([0, 1, 2, 3, 0] : List Int)[k]?.map (fun v =>
          (⟨((k % 3 : Nat) : Int), ((k / 3 : Nat) : Int), v, pixelFor false
            ((if (-1 : Int) ≠ -1 then store Junk.zero.colourMap (-1) ⟨0, 0, 0, 0⟩
              else Junk.zero.colourMap) v)⟩ : PixelWrite))) ∧
        ∀ w ∈ ws, 0 ≤ w.x ∧ w.x < (3 : Nat) ∧ 0 ≤ w.y ∧ w.y < (2 : Nat) := by
  have e : ((GIFLoader.readLZWByte 10
      { GIFLoader.init Junk.zero [0x02, 0x03, 0x44, 0x34, 0x50, 0x00, 0x3B] with
        input := [0x03, 0x44, 0x34, 0x50, 0x00, 0x3B] } true (0x02 : Byte).val).bind
      (fun p => (pull 10 (0x02 : Byte).val (min 5 (3 * 2)) p.2).bind (fun q =>
        (q.2.readLZWByte 10 false (0x02 : Byte).val).map (fun u => (p.1, q.1, u.1)))))
      = some (0, [0, 1, 2, 3, 0], -2) := by decide!
  cases h0 : GIFLoader.readLZWByte 10
      { GIFLoader.init Junk.zero [0x02, 0x03, 0x44, 0x34, 0x50, 0x00, 0x3B] with
        input := [0x03, 0x44, 0x34, 0x50, 0x00, 0x3B] } true (0x02 : Byte).val with
  | none => rw [h0] at e; simp at e
  | some p =>
    obtain ⟨r, s1⟩ := p
    rw [h0] at e
    simp only [Option.some_bind] at e
    cases hp : pull 10 (0x02 : Byte).val (min 5 (3 * 2)) s1 with
    | none => rw [hp] at e; simp at e
    | some q =>
      obtain ⟨vs, t⟩ := q
      rw [hp] at e
      simp only [Option.some_bind] at e
      cases hu : t.readLZWByte 10 false (0x02 : Byte).val with
      | none => rw [hu] at e; simp at e
      | some u =>
        obtain ⟨v, t1⟩ := u
        rw [hu] at e
        simp only [Option.map_some', Option.some.injEq, Prod.mk.injEq] at e
        obtain ⟨rfl, rfl, rfl⟩ := e
        have hnn : ∀ v ∈ ([0, 1, 2, 3, 0] : List Int), 0 ≤ v := by decide
        have hend : 5 < 3 * 2 → ∃ v t1,
            t.readLZWByte 10 false (0x02 : Byte).val = some (v, t1) ∧ v < 0 :=
          fun _ => ⟨-2, t1, hu, by decide⟩
        exact ⟨s1, t, ⟨by decide, by decide, by decide, rfl, rfl, hp, hnn, hend⟩,
          readImage_not_interlaced 10 3 2 5 _ s1 t 0x02 _ Junk.zero.colourMap (-1) 0 false
            [0, 1, 2, 3, 0] (by decide) (by decide) (by decide) rfl h0 hp hnn hend⟩

/-! ### Code width and table growth (C18) -/

theorem SameSizes.of_lzw {s t : GIFLoader} (h : SameLzw s t) : SameSizes s t := by
  obtain ⟨h1, h2, -, -, -, h6, h7, h8, -, h10, h11, -⟩ := h
  exact ⟨h1, h2, h6, h7, h8, h10, h11⟩

theorem SameSizes.sizes_refl (s : GIFLoader) : SameSizes s s := ⟨rfl, rfl, rfl, rfl, rfl, rfl, rfl⟩

theorem SameSizes.sizes_trans {s t u : GIFLoader} (h1 : SameSizes s t) (h2 : SameSizes t u) :
    SameSizes s u := by
  obtain ⟨a1, a2, a3, a4, a5, a6, a7⟩ := h1
  obtain ⟨b1, b2, b3, b4, b5, b6, b7⟩ := h2
  exact ⟨b1.trans a1, b2.trans a2, b3.trans a3, b4.trans a4, b5.trans a5, b6.trans a6,
    b7.trans a7⟩

theorem SizeInv.of_sizes {m : Int} {s t : GIFLoader} (h : SameSizes s t) (hi : SizeInv m s) :
    SizeInv m t := by
  obtain ⟨a1, a2, a3, a4, a5, a6, a7⟩ := h
  unfold SizeInv at hi ⊢
  rw [a3, a4, a5, a6, a7]
  exact hi

theorem SizeStep.of_inv {m : Int} {s t : GIFLoader} (h : SameSizes s t) (hi : SizeInv m s) :
    SizeStep m s t := by
  refine ⟨hi.of_sizes h, ?_, ?_⟩
  · intro i _
    rw [h.1, h.2.1]
    exact ⟨rfl, rfl⟩
  · intro hlt
    rw [h.2.2.1] at hlt
    exact absurd hlt (lt_irrefl _)

theorem SizeStep.left {m : Int} {s s1 t : GIFLoader} (h : SameSizes s s1)
    (hs : SizeStep m s1 t) : SizeStep m s t := by
  obtain ⟨a1, a2, a3, a4, a5, a6, a7⟩ := h
  obtain ⟨b1, b2, b3⟩ := hs
  refine ⟨b1, ?_, ?_⟩
  · intro i hi
    rw [← a1, ← a2]
    exact b2 i hi
  · unfold GrowStep at b3 ⊢
    rw [← a3, ← a6, ← a7]
    exact b3

theorem SizeStep.right {m : Int} {s t t1 : GIFLoader} (hs : SizeStep m s t)
    (h : SameSizes t t1) : SizeStep m s t1 := by
  obtain ⟨a1, a2, a3, a4, a5, a6, a7⟩ := h
  obtain ⟨b1, b2, b3⟩ := hs
  refine ⟨b1.of_sizes ⟨a1, a2, a3, a4, a5, a6, a7⟩, ?_, ?_⟩
  · intro i hi
    rw [a1, a2]
    exact b2 i hi
  · unfold GrowStep at b3 ⊢
    rw [a3, a6, a7]
    exact b3

theorem TableStep.table_trans {s t u : GIFLoader} (h1 : TableStep s t) (h2 : TableStep t u) :
    TableStep s u := by
  intro i hi
  exact ⟨(h2 i hi).1.trans (h1 i hi).1, (h2 i hi).2.trans (h1 i hi).2⟩

theorem two_pow_size (m : Int) (h1 : 1 ≤ m) (h2 : m ≤ 11) :
    (2 : Int) ≤ 2 ^ m.toNat ∧ (2 : Int) ^ m.toNat ≤ 2048 ∧
    (2 : Int) ^ (m + 1).toNat = 2 * 2 ^ m.toNat := by
  obtain ⟨k, rfl⟩ : ∃ k : Nat, m = k := ⟨m.toNat, by omega⟩
  have hk1 : 1 ≤ k := by omega
  have hk2 : k ≤ 11 := by omega
  have e : ((k : Int) + 1).toNat = k + 1 := by omega
  rw [e, Int.toNat_ofNat]
  refine ⟨?_, ?_, by ring⟩
  · calc (2 : Int) = 2 ^ 1 := by norm_num
      _ ≤ 2 ^ k := pow_le_pow_right₀ (by norm_num) hk1
  · calc (2 : Int) ^ k ≤ 2 ^ 11 := pow_le_pow_right₀ (by norm_num) hk2
      _ = 2048 := by norm_num

theorem two_pow_lt_size (c : Int) (h1 : 2 ≤ c) (h2 : c ≤ 12)
    (h : (2 : Int) ^ c.toNat < 4096) : c ≤ 11 := by
  by_contra hc
  have : c = 12 := by omega
  subst this
  have e : (12 : Int).toNat = 12 := rfl
  rw [e] at h
  norm_num at h

theorem fillIdentity_out (n : Nat) (t : (Int → Int) × (Int → Int)) (i : Int) (hi : (n : Int) ≤ i) :
    (fillIdentity n t).1 i = t.1 i ∧ (fillIdentity n t).2 i = t.2 i := by
  induction n with
  | zero => exact ⟨rfl, rfl⟩
  | succ k ih =>
    have := ih (by push_cast at hi; omega)
    simp only [fillIdentity, store]
    rw [if_neg (by push_cast at hi; omega), if_neg (by push_cast at hi; omega)]
    exact this

theorem fillRestClear_out (start : Int) (n : Nat) (t : (Int → Int) × (Int → Int)) (i : Int)
    (hi : start + n ≤ i) :
    (fillRestClear start n t).1 i = t.1 i ∧ (fillRestClear start n t).2 i = t.2 i := by
  induction n with
  | zero => exact ⟨rfl, rfl⟩
  | succ k ih =>
    have := ih (by push_cast at hi; omega)
    simp only [fillRestClear, store]
    rw [if_neg (by push_cast at hi; omega), if_neg (by push_cast at hi; omega)]
    exact this

theorem fillRestInit_out (start : Int) (n : Nat) (t : (Int → Int) × (Int → Int)) (i : Int)
    (hi : start + n ≤ i) (h0 : i ≠ 0) :
    (fillRestInit start n t).1 i = t.1 i ∧ (fillRestInit start n t).2 i = t.2 i := by
  induction n with
  | zero => exact ⟨rfl, rfl⟩
  | succ k ih =>
    have := ih (by push_cast at hi; omega)
    simp only [fillRestInit, store]
    rw [if_neg (by push_cast at hi; omega), if_neg h0]
    exact this

theorem fillClear_out (n1 : Nat) (hn : n1 ≤ 4096) (t : (Int → Int) × (Int → Int)) (i : Int)
    (hi : 4096 ≤ i) :
    (fillRestClear n1 (maxGifCode - n1).toNat (fillIdentity n1 t)).1 i = t.1 i ∧
    (fillRestClear n1 (maxGifCode - n1).toNat (fillIdentity n1 t)).2 i = t.2 i := by
  have e : (((maxGifCode - (n1 : Int)).toNat : Nat) : Int) = 4096 - n1 := by
    unfold maxGifCode; omega
  have a := fillRestClear_out n1 (maxGifCode - n1).toNat (fillIdentity n1 t) i
    (by rw [e]; omega)
  have b := fillIdentity_out n1 t i (by omega)
  exact ⟨a.1.trans b.1, a.2.trans b.2⟩

theorem fillInit_out (n1 : Nat) (hn : n1 ≤ 4096) (t : (Int → Int) × (Int → Int)) (i : Int)
    (hi : 4096 ≤ i) :
    (fillRestInit n1 (maxGifCode - n1).toNat (fillIdentity n1 t)).1 i = t.1 i ∧
    (fillRestInit n1 (maxGifCode - n1).toNat (fillIdentity n1 t)).2 i = t.2 i := by
  have e : (((maxGifCode - (n1 : Int)).toNat : Nat) : Int) = 4096 - n1 := by
    unfold maxGifCode; omega
  have a := fillRestInit_out n1 (maxGifCode - n1).toNat (fillIdentity n1 t) i
    (by rw [e]; omega) (by omega)
  have b := fillIdentity_out n1 t i (by omega)
  exact ⟨a.1.trans b.1, a.2.trans b.2⟩

theorem resetTable_size (m : Int) (s : GIFLoader) (h1 : 1 ≤ m) (h2 : m ≤ 11)
    (hs : s.setCodeSize = m) (hc : s.clearCode = 2 ^ m.toNat) :
    SizeInv m s.resetTable ∧ TableStep s s.resetTable ∧ s.resetTable.codeSize = m + 1 := by
  obtain ⟨p1, p2, p3⟩ := two_pow_size m h1 h2
  refine ⟨?_, ?_, ?_⟩
  · unfold SizeInv GIFLoader.resetTable maxGifCode
    simp only [hs, hc]
    refine ⟨trivial, trivial, le_refl _, by omega, p3.symm, le_refl _, by omega, by omega⟩
  · intro i hi
    unfold maxGifCode at hi
    unfold GIFLoader.resetTable
    simp only []
    exact fillClear_out s.clearCode.toNat (by rw [hc]; omega) (s.table0, s.table1) i hi
  · unfold GIFLoader.resetTable
    simp only [hs]

theorem installCode_size (m : Int) (s : GIFLoader) (c : Int) (h1 : 1 ≤ m)
    (hi : SizeInv m s) : SizeStep m s (s.installCode c) := by
  obtain ⟨a1, a2, a3, a4, a5, a6, a7, a8⟩ := hi
  unfold maxGifCode at a7
  have hpos : (0 : Int) < 2 ^ m.toNat := by positivity
  unfold GIFLoader.installCode
  simp only []
  by_cases hlt : s.maxCode < maxGifCode
  · rw [if_pos hlt]
    unfold maxGifCode at hlt
    have htab : ∀ i, maxGifCode ≤ i →
        store s.table0 s.maxCode s.oldcode i = s.table0 i ∧
        store s.table1 s.maxCode s.firstcode i = s.table1 i := by
      intro i hi
      unfold maxGifCode at hi
      simp only [store]
      rw [if_neg (by omega), if_neg (by omega)]
      exact ⟨rfl, rfl⟩
    by_cases hg : s.maxCode + 1 ≥ s.maxCodeSize ∧ s.maxCodeSize < maxGifCode
    · rw [if_pos hg]
      unfold maxGifCode at hg
      have hc11 : s.codeSize ≤ 11 := two_pow_lt_size s.codeSize (by omega) a4 (by rw [← a5]; exact hg.2)
      have e : (s.codeSize + 1).toNat = s.codeSize.toNat + 1 := by omega
      refine ⟨⟨a1, a2, ?_, ?_, ?_, ?_, ?_, ?_⟩, htab, ?_⟩
      · show m + 1 ≤ s.codeSize + 1
        omega
      · show s.codeSize + 1 ≤ 12
        omega
      · show s.maxCodeSize * 2 = 2 ^ (s.codeSize + 1).toNat
        rw [e, pow_succ, a5]
      · show s.clearCode + 2 ≤ s.maxCode + 1
        omega
      · show s.maxCode + 1 ≤ maxGifCode
        unfold maxGifCode; omega
      · show s.maxCode + 1 ≤ s.maxCodeSize * 2
        omega
      · intro _
        refine ⟨rfl, rfl, hg.1, ?_, ?_⟩
        · unfold maxGifCode; exact hg.2
        · show s.maxCodeSize * 2 = 2 * s.maxCodeSize
          ring
    · rw [if_neg hg]
      unfold maxGifCode at hg
      refine ⟨⟨a1, a2, a3, a4, a5, ?_, ?_, ?_⟩, htab, ?_⟩
      · show s.clearCode + 2 ≤ s.maxCode + 1
        omega
      · show s.maxCode + 1 ≤ maxGifCode
        unfold maxGifCode; omega
      · show s.maxCode + 1 ≤ s.maxCodeSize
        by_cases h : s.maxCode + 1 ≥ s.maxCodeSize
        · have h4096 : ¬ s.maxCodeSize < 4096 := fun h' => hg ⟨h, h'⟩
          omega
        · omega
      · intro hlt'
        exact absurd hlt' (lt_irrefl _)
  · rw [if_neg hlt]
    exact SizeStep.of_inv ⟨rfl, rfl, rfl, rfl, rfl, rfl, rfl⟩ ⟨a1, a2, a3, a4, a5, a6, a7, a8⟩

theorem expandCode_sizes (F : Nat) (s t : GIFLoader) (code : Int) (b : Bool)
    (h : s.expandCode F code = some (b, t)) :
    SameSizes s t ∧ (b = false → t.stack ≠ []) := by
  unfold GIFLoader.expandCode at h
  simp only [] at h
  generalize walkChain _ _ _ _ _ _ = o at h
  rcases o with _ | w
  · simp at h
  · cases w with
    | base c stk =>
      simp only [Option.some.injEq, Prod.mk.injEq] at h
      rw [← h.2]
      exact ⟨⟨rfl, rfl, rfl, rfl, rfl, rfl, rfl⟩, fun _ => by simp⟩
    | selfRef stk =>
      simp only [Option.some.injEq, Prod.mk.injEq] at h
      rw [← h.2, ← h.1]
      exact ⟨⟨rfl, rfl, rfl, rfl, rfl, rfl, rfl⟩, fun hb => by simp at hb⟩

theorem getCode_sizes (s : GIFLoader) (w : Int) : SameSizes s (s.getCode w false).2 := by
  rcases getCode_cases s w with ⟨h, -, -⟩ | ⟨-, -, h⟩
  · rw [h]; exact SameSizes.sizes_refl s
  · exact SameSizes.of_lzw h

theorem installCode_stack (s : GIFLoader) (c : Int) : (s.installCode c).stack = s.stack := by
  unfold GIFLoader.installCode
  simp only []
  split_ifs <;> rfl

theorem lzwLoop_size (F : Nat) (m : Int) (h1 : 1 ≤ m) (h2 : m ≤ 11) (fuel : Nat) :
    ∀ (s t : GIFLoader) (v : Int), SizeInv m s → lzwLoop F fuel s = some (v, t) →
      SizeStep m s t := by
  induction fuel with
  | zero => intro s t v _ h; simp [lzwLoop] at h
  | succ k ih =>
    intro s t v hi h
    rw [lzwLoop] at h
    simp only [] at h
    have hg := getCode_sizes s s.codeSize
    generalize s.getCode s.codeSize false = r at h hg
    obtain ⟨code, s1⟩ := r
    simp only [] at h hg
    have hi1 : SizeInv m s1 := hi.of_sizes hg
    by_cases hneg : code ≥ 0
    · rw [if_pos hneg] at h
      by_cases hclear : code = s1.clearCode
      · rw [if_pos hclear] at h
        simp only [Option.some.injEq] at h
        obtain ⟨r1, r2, r3⟩ := resetTable_size m s1 h1 h2 hi1.1 hi1.2.1
        have hg2 := getCode_sizes s1.resetTable s1.resetTable.codeSize
        have ht : t = (s1.resetTable.getCode s1.resetTable.codeSize false).2.setFirst
            (s1.resetTable.getCode s1.resetTable.codeSize false).1 :=
          (congrArg Prod.snd h).symm
        have hsz : SameSizes s1.resetTable t := by
          rw [ht]
          exact hg2.sizes_trans ⟨rfl, rfl, rfl, rfl, rfl, rfl, rfl⟩
        refine SizeStep.left hg ⟨r1.of_sizes hsz, ?_, ?_⟩
        · intro i hi'
          rw [hsz.1, hsz.2.1]
          exact r2 i hi'
        · intro hlt
          rw [hsz.2.2.1, r3] at hlt
          have := hi1.2.2.1
          omega
      · rw [if_neg hclear] at h
        cases he : endCodeBlock F s1 code with
        | none => rw [he] at h; simp at h
        | some p =>
          obtain ⟨b, s2⟩ := p
          rw [he] at h
          have hs2 := SameSizes.of_lzw (endCodeBlock_same F s1 s2 code b he)
          cases b with
          | true =>
            simp only [Option.some.injEq, Prod.mk.injEq] at h
            rw [← h.2]
            exact SizeStep.of_inv (hg.sizes_trans hs2) hi
          | false =>
            simp only [] at h
            cases hx : s2.expandCode F code with
            | none => rw [hx] at h; simp at h
            | some p =>
              obtain ⟨b, s3⟩ := p
              rw [hx] at h
              obtain ⟨hs3, hstk⟩ := expandCode_sizes F s2 s3 code b hx
              cases b with
              | true =>
                simp only [Option.some.injEq, Prod.mk.injEq] at h
                rw [← h.2]
                exact SizeStep.of_inv (hg.sizes_trans (hs2.sizes_trans hs3)) hi
              | false =>
                simp only [] at h
                have hi3 : SizeInv m s3 := hi.of_sizes (hg.sizes_trans (hs2.sizes_trans hs3))
                have hstep := installCode_size m s3 code h1 hi3
                have hne : (s3.installCode code).stack ≠ [] := by
                  rw [installCode_stack]; exact hstk rfl
                cases hst : (s3.installCode code).stack with
                | nil => exact absurd hst hne
                | cons v1 rest =>
                  rw [hst] at h
                  simp only [Option.some.injEq, Prod.mk.injEq] at h
                  rw [← h.2]
                  exact SizeStep.left (hg.sizes_trans (hs2.sizes_trans hs3))
                    (hstep.right ⟨rfl, rfl, rfl, rfl, rfl, rfl, rfl⟩)
    · rw [if_neg hneg] at h
      simp only [Option.some.injEq, Prod.mk.injEq] at h
      rw [← h.2]
      exact SizeStep.of_inv hg hi

theorem freshLoop_sizes (fuel : Nat) :
    ∀ (s t : GIFLoader) (v : Int), freshLoop fuel s = some (v, t) → SameSizes s t := by
  induction fuel with
  | zero => intro s t v h; simp [freshLoop] at h
  | succ k ih =>
    intro s t v h
    rw [freshLoop] at h
    have hg := getCode_sizes s s.codeSize
    split_ifs at h
    · have hmid : SameSizes (s.getCode s.codeSize false).2
          ((s.getCode s.codeSize false).2.setFirst (s.getCode s.codeSize false).1) :=
        ⟨rfl, rfl, rfl, rfl, rfl, rfl, rfl⟩
      exact hg.sizes_trans (hmid.sizes_trans (ih _ _ _ h))
    · simp only [Option.some.injEq, Prod.mk.injEq] at h
      rw [← h.2]
      exact hg.sizes_trans ⟨rfl, rfl, rfl, rfl, rfl, rfl, rfl⟩

theorem readLZWByte_size (F : Nat) (m c : Int) (h1 : 1 ≤ m) (h2 : m ≤ 11) (s t : GIFLoader)
    (v : Int) (hi : SizeInv m s) (h : s.readLZWByte F false c = some (v, t)) :
    SizeStep m s t := by
  unfold GIFLoader.readLZWByte at h
  rw [if_neg (by simp)] at h
  by_cases hf : s.fresh = true
  · rw [if_pos hf] at h
    have := freshLoop_sizes F _ t v h
    exact SizeStep.of_inv (SameSizes.sizes_trans ⟨rfl, rfl, rfl, rfl, rfl, rfl, rfl⟩ this) hi
  · rw [if_neg hf] at h
    cases hst : s.stack with
    | nil =>
      rw [hst] at h
      exact lzwLoop_size F m h1 h2 F s t v hi h
    | cons v1 rest =>
      rw [hst] at h
      simp only [Option.some.injEq, Prod.mk.injEq] at h
      rw [← h.2]
      exact SizeStep.of_inv ⟨rfl, rfl, rfl, rfl, rfl, rfl, rfl⟩ hi

theorem readLZWByte_init_size (F : Nat) (m : Int) (h1 : 1 ≤ m) (h2 : m ≤ 11) (s t : GIFLoader)
    (r : Int) (h : s.readLZWByte F true m = some (r, t)) :
    SizeInv m t ∧ TableStep s t := by
  obtain ⟨p1, p2, p3⟩ := two_pow_size m h1 h2
  unfold GIFLoader.readLZWByte at h
  rw [if_pos rfl] at h
  simp only [Option.some.injEq, Prod.mk.injEq] at h
  rw [← h.2]
  refine ⟨?_, ?_⟩
  · unfold SizeInv maxGifCode GIFLoader.getCode
    simp only [if_true]
    refine ⟨trivial, trivial, le_refl _, by omega, p3.symm, le_refl _, by omega, by omega⟩
  · intro i hi
    unfold maxGifCode at hi
    unfold GIFLoader.getCode
    simp only [if_true]
    exact fillInit_out ((2 : Int) ^ m.toNat).toNat (by omega) (s.table0, s.table1) i hi

theorem pull_size (F : Nat) (m c : Int) (h1 : 1 ≤ m) (h2 : m ≤ 11) (n : Nat) :
    ∀ (s t : GIFLoader) (vs : List Int), SizeInv m s → pull F c n s = some (vs, t) →
      SizeInv m t ∧ TableStep s t := by
  induction n with
  | zero =>
    intro s t vs hi h
    simp only [pull, Option.some.injEq, Prod.mk.injEq] at h
    rw [← h.2]
    exact ⟨hi, fun i _ => ⟨rfl, rfl⟩⟩
  | succ k ih =>
    intro s t vs hi h
    rw [pull] at h
    cases hr : s.readLZWByte F false c with
    | none => rw [hr] at h; simp at h
    | some p =>
      obtain ⟨x, s1⟩ := p
      rw [hr] at h
      simp only [] at h
      cases hp : pull F c k s1 with
      | none => rw [hp] at h; simp at h
      | some q =>
        obtain ⟨xs, s2⟩ := q
        rw [hp] at h
        simp only [Option.map_some', Option.some.injEq, Prod.mk.injEq] at h
        obtain ⟨b1, b2, -⟩ := readLZWByte_size F m c h1 h2 s s1 x hi hr
        obtain ⟨c1, c2⟩ := ih s1 s2 xs b1 hp
        rw [← h.2]
        exact ⟨c1, b2.table_trans c2⟩

/-- C18: for a minimum code size `m` in 1..11, every state reached from the initialisation by any
number of `readLZWByte` calls has `m + 1 <= codeSize <= 12`, `maxCodeSize = 2 ^ codeSize`,
`clearCode + 2 <= maxCode <= 4096` and `maxCode <= maxCodeSize`; no table cell at an index of
4096 or more has been written since before the initialisation; and a further call makes
`codeSize` larger only by one, in a step that adds one to `maxCode` so that it reaches the
`maxCodeSize` of before, which was below 4096. -/
theorem readLZWByte_size_invariant (F : Nat) (m : Int) (s s0 t : GIFLoader) (r : Int) (n : Nat)
    (vs : List Int) (h1 : 1 ≤ m) (h2 : m ≤ 11)
    (hinit : s.readLZWByte F true m = some (r, s0))
    (hpull : pull F m n s0 = some (vs, t)) :
    (t.clearCode = 2 ^ m.toNat ∧ m + 1 ≤ t.codeSize ∧ t.codeSize ≤ 12 ∧
      t.maxCodeSize = 2 ^ t.codeSize.toNat ∧ t.clearCode + 2 ≤ t.maxCode ∧ t.maxCode ≤ 4096 ∧
      t.maxCode ≤ t.maxCodeSize) ∧
    (∀ i : Int, 4096 ≤ i → t.table0 i = s.table0 i ∧ t.table1 i = s.table1 i) ∧
    ∀ (v : Int) (t1 : GIFLoader), t.readLZWByte F false m = some (v, t1) →
      (∀ i : Int, 4096 ≤ i → t1.table0 i = t.table0 i ∧ t1.table1 i = t.table1 i) ∧
      (t.codeSize < t1.codeSize →
        t1.codeSize = t.codeSize + 1 ∧ t1.maxCode = t.maxCode + 1 ∧
        t.maxCodeSize ≤ t1.maxCode ∧ t.maxCodeSize < 4096 ∧
        t1.maxCodeSize = 2 * t.maxCodeSize) := by
  obtain ⟨a1, a2⟩ := readLZWByte_init_size F m h1 h2 s s0 r hinit
  obtain ⟨b1, b2⟩ := pull_size F m m h1 h2 n s0 t vs a1 hpull
  refine ⟨⟨b1.2.1, b1.2.2.1, b1.2.2.2.1, b1.2.2.2.2.1, b1.2.2.2.2.2.1, b1.2.2.2.2.2.2.1,
    b1.2.2.2.2.2.2.2⟩, a2.table_trans b2, ?_⟩
  intro v t1 hstep
  obtain ⟨-, c2, c3⟩ := readLZWByte_size F m m h1 h2 t t1 v b1 hstep
  exact ⟨c2, c3⟩

theorem readLZWByte_size_invariant_witness :
    ∃ s0 t,
      ((1 : Int) ≤ 2 ∧ (2 : Int) ≤ 11 ∧
        (GIFLoader.init Junk.zero [0x03, 0x44, 0x34, 0x50, 0x00, 0x3B]).readLZWByte 10 true 2
          = some (0, s0) ∧
        pull 10 2 5 s0 = some ([0, 1, 2, 3, 0], t)) ∧
      ((t.clearCode = 2 ^ (2 : Int).toNat ∧ (2 : Int) + 1 ≤ t.codeSize ∧ t.codeSize ≤ 12 ∧
          t.maxCodeSize = 2 ^ t.codeSize.toNat ∧ t.clearCode + 2 ≤ t.maxCode ∧
          t.maxCode ≤ 4096 ∧ t.maxCode ≤ t.maxCodeSize) ∧
        (∀ i : Int, 4096 ≤ i →
          t.table0 i = (GIFLoader.init Junk.zero [0x03, 0x44, 0x34, 0x50, 0x00, 0x3B]).table0 i ∧
          t.table1 i = (GIFLoader.init Junk.zero [0x03, 0x44, 0x34, 0x50, 0x00, 0x3B]).table1 i) ∧
        ∀ (v : Int) (t1 : GIFLoader), t.readLZWByte 10 false 2 = some (v, t1) →
          (∀ i : Int, 4096 ≤ i → t1.table0 i = t.table0 i ∧ t1.table1 i = t.table1 i) ∧
          (t.codeSize < t1.codeSize →
            t1.codeSize = t.codeSize + 1 ∧ t1.maxCode = t.maxCode + 1 ∧
            t.maxCodeSize ≤ t1.maxCode ∧ t.maxCodeSize < 4096 ∧
            t1.maxCodeSize = 2 * t.maxCodeSize)) := by
  have e : (((GIFLoader.init Junk.zero [0x03, 0x44, 0x34, 0x50, 0x00, 0x3B]).readLZWByte 10
      true 2).bind (fun p => (pull 10 2 5 p.2).map (fun q => (p.1, q.1))))
      = some (0, [0, 1, 2, 3, 0]) := by decide!
  cases h0 : (GIFLoader.init Junk.zero [0x03, 0x44, 0x34, 0x50, 0x00, 0x3B]).readLZWByte 10
      true 2 with
  | none => rw [h0] at e; simp at e
  | some p =>
    obtain ⟨r, s0⟩ := p
    rw [h0] at e
    simp only [Option.some_bind] at e
    cases hp : pull 10 2 5 s0 with
    | none => rw [hp] at e; simp at e
    | some q =>
      obtain ⟨vs, t⟩ := q
      rw [hp] at e
      simp only [Option.map_some', Option.some.injEq, Prod.mk.injEq] at e
      obtain ⟨rfl, rfl⟩ := e
      exact ⟨s0, t, ⟨by decide, by decide, rfl, hp⟩,
        readLZWByte_size_invariant 10 2 _ s0 t 0 5 [0, 1, 2, 3, 0] (by decide) (by decide)
          h0 hp⟩

/-! ### Stray bytes and unknown extension blocks (C11) -/

theorem getCode_false (s : GIFLoader) (w : Int) :
    s.getCode w false =
      if s.currentBit + w ≥ s.lastBit then
        if s.finished = true then (-1, s) else s.getCodeRefill.getCodeExtract w
      else s.getCodeExtract w := rfl

theorem getCodeRefill_frozen (s : GIFLoader) (b : Bool) (h : s.input = []) :
    (s.withFlag b).getCodeRefill = s.getCodeRefill.withFlag b ∧ s.getCodeRefill.input = [] := by
  unfold GIFLoader.getCodeRefill GIFLoader.readDataBlock
  have h' : (s.withFlag b).input = [] := h
  constructor
  · simp only [GIFLoader.withFlag, h]
  · simp only [h]

theorem getCode_frozen (s : GIFLoader) (b : Bool) (w : Int) (h : s.input = []) :
    (s.withFlag b).getCode w false = ((s.getCode w false).1, (s.getCode w false).2.withFlag b) ∧
    (s.getCode w false).2.input = [] := by
  rw [getCode_false, getCode_false]
  show (if s.currentBit + w ≥ s.lastBit then
      if s.finished = true then (-1, s.withFlag b)
      else (s.withFlag b).getCodeRefill.getCodeExtract w
    else (s.withFlag b).getCodeExtract w) = _ ∧ _
  obtain ⟨hr, hri⟩ := getCodeRefill_frozen s b h
  rw [hr]
  split_ifs
  · exact ⟨rfl, h⟩
  · exact ⟨rfl, hri⟩
  · exact ⟨rfl, h⟩

theorem getCode_refill_flag (s : GIFLoader) (b : Bool) (w : Int) (hf : s.finished = false)
    (hc : s.currentBit + w ≥ s.lastBit) (hin : s.input ≠ []) :
    (s.withFlag b).getCode w false = s.getCode w false := by
  rw [getCode_false, getCode_false]
  show (if s.currentBit + w ≥ s.lastBit then
      if s.finished = true then (-1, s.withFlag b)
      else (s.withFlag b).getCodeRefill.getCodeExtract w
    else (s.withFlag b).getCodeExtract w) = _
  rw [if_pos hc, if_pos hc, hf, if_neg (by simp), if_neg (by simp)]
  have hr : (s.withFlag b).getCodeRefill = s.getCodeRefill := by
    unfold GIFLoader.getCodeRefill GIFLoader.readDataBlock
    cases hi : s.input with
    | nil => exact absurd hi hin
    | cons n rest =>
      simp only [GIFLoader.withFlag, hi]
  rw [hr]

theorem freshLoop_frozen (b : Bool) (fuel : Nat) :
    ∀ s : GIFLoader, s.input = [] →
      freshLoop fuel (s.withFlag b) = liftFlag b (freshLoop fuel s) ∧
      ∀ v t, freshLoop fuel s = some (v, t) → t.input = [] := by
  induction fuel with
  | zero => intro s _; exact ⟨rfl, fun v t h => by simp [freshLoop] at h⟩
  | succ k ih =>
    intro s h
    obtain ⟨g1, g2⟩ := getCode_frozen s b s.codeSize h
    rw [freshLoop, freshLoop]
    show (if ((s.withFlag b).getCode s.codeSize false).1
          = ((s.withFlag b).getCode s.codeSize false).2.clearCode
        then freshLoop k (((s.withFlag b).getCode s.codeSize false).2.setFirst
          ((s.withFlag b).getCode s.codeSize false).1)
        else some (((s.withFlag b).getCode s.codeSize false).1,
          ((s.withFlag b).getCode s.codeSize false).2.setFirst
            ((s.withFlag b).getCode s.codeSize false).1)) = _ ∧ _
    rw [g1]
    show (if (s.getCode s.codeSize false).1 = (s.getCode s.codeSize false).2.clearCode
        then freshLoop k (((s.getCode s.codeSize false).2.setFirst
          (s.getCode s.codeSize false).1).withFlag b)
        else some ((s.getCode s.codeSize false).1,
          ((s.getCode s.codeSize false).2.setFirst (s.getCode s.codeSize false).1).withFlag b))
        = _ ∧ _
    have hin : ((s.getCode s.codeSize false).2.setFirst (s.getCode s.codeSize false).1).input
        = [] := g2
    obtain ⟨i1, i2⟩ := ih _ hin
    by_cases hc : (s.getCode s.codeSize false).1 = (s.getCode s.codeSize false).2.clearCode
    · simp only [if_pos hc]
      exact ⟨i1, i2⟩
    · simp only [if_neg hc]
      refine ⟨rfl, ?_⟩
      intro v t ht
      simp only [Option.some.injEq, Prod.mk.injEq] at ht
      rw [← ht.2]
      exact hin

theorem skipDataBlocks_frozen (F : Nat) (s : GIFLoader) (h : s.input = []) :
    skipDataBlocks (F + 1) s = some (-1, s) := by
  rw [skipDataBlocks]
  unfold GIFLoader.readDataBlock
  simp only [h]
  rfl

theorem endCodeBlock_frozen (F : Nat) (s : GIFLoader) (b : Bool) (code : Int) (hF : 1 ≤ F)
    (h : s.input = []) :
    endCodeBlock F (s.withFlag b) code = liftFlag b (endCodeBlock F s code) ∧
    ∀ v t, endCodeBlock F s code = some (v, t) → t.input = [] := by
  obtain ⟨F1, rfl⟩ : ∃ F1, F = F1 + 1 := ⟨F - 1, by omega⟩
  unfold endCodeBlock
  rw [skipDataBlocks_frozen F1 s h, skipDataBlocks_frozen F1 (s.withFlag b) h]
  show (if code = s.end_code then
      if b = true then some (true, s.withFlag b)
      else if (-1 : Int) ≠ 0 then some (true, s.withFlag b) else some (false, s.withFlag b)
    else some (false, s.withFlag b)) = _ ∧ _
  by_cases hc : code = s.end_code
  · simp only [if_pos hc]
    have e : (if b = true then some (true, s.withFlag b)
        else if (-1 : Int) ≠ 0 then some (true, s.withFlag b) else some (false, s.withFlag b))
        = some (true, s.withFlag b) := by
      cases b <;> simp
    rw [e]
    constructor
    · cases hd : s.dataBlockIsZero <;> simp [liftFlag]
    · intro v t ht
      cases hd : s.dataBlockIsZero
      · rw [hd] at ht
        simp at ht
        rw [← ht.2]; exact h
      · rw [hd] at ht
        simp at ht
        rw [← ht.2]; exact h
  · simp only [if_neg hc]
    refine ⟨rfl, ?_⟩
    intro v t ht
    simp only [Option.some.injEq, Prod.mk.injEq] at ht
    rw [← ht.2]; exact h

theorem expandCode_flag (F : Nat) (s : GIFLoader) (b : Bool) (code : Int) :
    (s.withFlag b).expandCode F code = liftFlag b (s.expandCode F code) ∧
    ∀ v t, s.expandCode F code = some (v, t) → t.input = s.input := by
  unfold GIFLoader.expandCode
  simp only [GIFLoader.withFlag]
  generalize walkChain _ _ _ _ _ _ = o
  rcases o with _ | w
  · exact ⟨by rfl, fun v t h => by simp at h⟩
  · cases w with
    | base c stk =>
      refine ⟨by rfl, ?_⟩
      intro v t h
      simp only [Option.some.injEq, Prod.mk.injEq] at h
      rw [← h.2]
    | selfRef stk =>
      refine ⟨by rfl, ?_⟩
      intro v t h
      simp only [Option.some.injEq, Prod.mk.injEq] at h
      rw [← h.2]

theorem installCode_flag (s : GIFLoader) (b : Bool) (c : Int) :
    (s.withFlag b).installCode c = (s.installCode c).withFlag b ∧
    (s.installCode c).input = s.input := by
  unfold GIFLoader.installCode
  simp only [GIFLoader.withFlag]
  split_ifs <;> exact ⟨rfl, rfl⟩

theorem clearTable_frozen (s : GIFLoader) (b : Bool) (h : s.input = []) :
    (s.withFlag b).clearTable = (s.clearTable.1, s.clearTable.2.withFlag b) ∧
    s.clearTable.2.input = [] := by
  have hr : (s.withFlag b).resetTable = s.resetTable.withFlag b := rfl
  have hi : s.resetTable.input = [] := h
  obtain ⟨g1, g2⟩ := getCode_frozen s.resetTable b s.resetTable.codeSize hi
  unfold GIFLoader.clearTable
  rw [hr]
  show (((s.resetTable.withFlag b).getCode s.resetTable.codeSize false).1,
      ((s.resetTable.withFlag b).getCode s.resetTable.codeSize false).2.setFirst
        ((s.resetTable.withFlag b).getCode s.resetTable.codeSize false).1) = _ ∧ _
  rw [g1]
  exact ⟨rfl, g2⟩

theorem withFlag_codeSize (s : GIFLoader) (b : Bool) : (s.withFlag b).codeSize = s.codeSize := rfl

theorem withFlag_clearCode (s : GIFLoader) (b : Bool) : (s.withFlag b).clearCode = s.clearCode :=
  rfl

theorem withFlag_stack (s : GIFLoader) (b : Bool) : (s.withFlag b).stack = s.stack := rfl

theorem withFlag_fresh (s : GIFLoader) (b : Bool) : (s.withFlag b).fresh = s.fresh := rfl

theorem withFlag_input (s : GIFLoader) (b : Bool) : (s.withFlag b).input = s.input := rfl

theorem lzwLoop_frozen (F : Nat) (b : Bool) (hF : 1 ≤ F) (fuel : Nat) :
    ∀ s : GIFLoader, s.input = [] →
      lzwLoop F fuel (s.withFlag b) = liftFlag b (lzwLoop F fuel s) ∧
      ∀ v t, lzwLoop F fuel s = some (v, t) → t.input = [] := by
  induction fuel with
  | zero => intro s _; exact ⟨rfl, fun v t h => by simp [lzwLoop] at h⟩
  | succ k ih =>
    intro s h
    obtain ⟨g1, g2⟩ := getCode_frozen s b s.codeSize h
    rw [lzwLoop, lzwLoop]
    simp only [withFlag_codeSize]
    rw [g1]
    generalize s.getCode s.codeSize false = r at g2
    obtain ⟨code, s1⟩ := r
    simp only [withFlag_clearCode] at g2 ⊢
    by_cases hneg : code ≥ 0
    · simp only [if_pos hneg]
      by_cases hclear : code = s1.clearCode
      · simp only [if_pos hclear]
        obtain ⟨c1, c2⟩ := clearTable_frozen s1 b g2
        rw [c1]
        refine ⟨rfl, ?_⟩
        intro v t ht
        simp only [Option.some.injEq] at ht
        rw [ht] at c2
        exact c2
      · simp only [if_neg hclear]
        obtain ⟨e1, e2⟩ := endCodeBlock_frozen F s1 b code hF g2
        rw [e1]
        cases he : endCodeBlock F s1 code with
        | none => exact ⟨rfl, fun v t ht => by simp at ht⟩
        | some p =>
          obtain ⟨fl, s2⟩ := p
          have hs2 : s2.input = [] := e2 fl s2 he
          cases fl with
          | true =>
            refine ⟨rfl, ?_⟩
            intro v t ht
            simp only [Option.some.injEq, Prod.mk.injEq] at ht
            rw [← ht.2]; exact hs2
          | false =>
            simp only [liftFlag, Option.map_some']
            obtain ⟨x1, x2⟩ := expandCode_flag F s2 b code
            rw [x1]
            cases hx : s2.expandCode F code with
            | none => exact ⟨rfl, fun v t ht => by simp at ht⟩
            | some p =>
              obtain ⟨fl, s3⟩ := p
              have hs3 : s3.input = [] := (x2 fl s3 hx).trans hs2
              cases fl with
              | true =>
                refine ⟨rfl, ?_⟩
                intro v t ht
                simp only [Option.some.injEq, Prod.mk.injEq] at ht
                rw [← ht.2]; exact hs3
              | false =>
                simp only [liftFlag, Option.map_some']
                obtain ⟨n1, n2⟩ := installCode_flag s3 b code
                rw [n1]
                simp only [withFlag_stack]
                have hs4 : (s3.installCode code).input = [] := n2.trans hs3
                cases hst : (s3.installCode code).stack with
                | nil =>
                  simp only []
                  exact ih _ hs4
                | cons v1 rest =>
                  refine ⟨rfl, ?_⟩
                  intro v t ht
                  simp only [Option.some.injEq, Prod.mk.injEq] at ht
                  rw [← ht.2]; exact hs4
    · simp only [if_neg hneg]
      refine ⟨rfl, ?_⟩
      intro v t ht
      simp only [Option.some.injEq, Prod.mk.injEq] at ht
      rw [← ht.2]; exact g2

theorem FlagRel.flag_refl (s : GIFLoader) : FlagRel s s := ⟨s.dataBlockIsZero, rfl, Or.inl rfl⟩

theorem FlagResult.result_refl (o : Option (Int × GIFLoader)) : FlagResult o o := by
  rcases o with _ | ⟨v, u⟩
  · exact Or.inl ⟨rfl, rfl⟩
  · exact Or.inr ⟨v, u, u, rfl, rfl, FlagRel.flag_refl u⟩

theorem FlagResult.of_frozen (b : Bool) (o : Option (Int × GIFLoader))
    (h : ∀ v t, o = some (v, t) → t.input = []) : FlagResult o (liftFlag b o) := by
  rcases o with _ | ⟨v, u⟩
  · exact Or.inl ⟨rfl, rfl⟩
  · exact Or.inr ⟨v, u, u.withFlag b, rfl, rfl, b, rfl, Or.inr (Or.inl (h v u rfl))⟩

theorem readLZWByte_frozen (F : Nat) (c : Int) (b : Bool) (hF : 1 ≤ F) (s : GIFLoader)
    (h : s.input = []) :
    (s.withFlag b).readLZWByte F false c = liftFlag b (s.readLZWByte F false c) ∧
    ∀ v t, s.readLZWByte F false c = some (v, t) → t.input = [] := by
  unfold GIFLoader.readLZWByte
  simp only [Bool.false_eq_true, if_false, withFlag_fresh, withFlag_stack]
  by_cases hf : s.fresh = true
  · simp only [if_pos hf]
    exact freshLoop_frozen b F { s with fresh := false } h
  · simp only [if_neg hf]
    cases hst : s.stack with
    | nil =>
      simp only []
      exact lzwLoop_frozen F b hF F s h
    | cons v1 rest =>
      refine ⟨rfl, ?_⟩
      intro v t ht
      simp only [Option.some.injEq, Prod.mk.injEq] at ht
      rw [← ht.2]; exact h

theorem readLZWByte_pending (F : Nat) (c : Int) (b : Bool) (s : GIFLoader)
    (h1 : s.fresh = true) (h2 : s.finished = false)
    (h3 : s.currentBit + s.codeSize ≥ s.lastBit) (hin : s.input ≠ []) :
    (s.withFlag b).readLZWByte F false c = s.readLZWByte F false c := by
  unfold GIFLoader.readLZWByte
  simp only [Bool.false_eq_true, if_false, withFlag_fresh, if_pos h1]
  cases F with
  | zero => rfl
  | succ k =>
    rw [freshLoop, freshLoop]
    have e := getCode_refill_flag { s with fresh := false } b s.codeSize h2 h3 hin
    have e' : ({ s.withFlag b with fresh := false } : GIFLoader).getCode s.codeSize false
        = ({ s with fresh := false } : GIFLoader).getCode s.codeSize false := e
    show (if (({ s.withFlag b with fresh := false } : GIFLoader).getCode s.codeSize false).1
          = (({ s.withFlag b with fresh := false } : GIFLoader).getCode s.codeSize false).2.clearCode
        then freshLoop k ((({ s.withFlag b with fresh := false } : GIFLoader).getCode
            s.codeSize false).2.setFirst
          (({ s.withFlag b with fresh := false } : GIFLoader).getCode s.codeSize false).1)
        else some ((({ s.withFlag b with fresh := false } : GIFLoader).getCode
            s.codeSize false).1,
          (({ s.withFlag b with fresh := false } : GIFLoader).getCode s.codeSize false).2.setFirst
            (({ s.withFlag b with fresh := false } : GIFLoader).getCode s.codeSize false).1)) = _
    rw [e']

theorem readLZWByte_flag (F : Nat) (c : Int) (hF : 1 ≤ F) (s t : GIFLoader)
    (h : FlagRel s t) :
    FlagResult (s.readLZWByte F false c) (t.readLZWByte F false c) := by
  obtain ⟨b, rfl, h | h | ⟨h1, h2, h3⟩⟩ := h
  · rw [h]; exact FlagResult.result_refl _
  · obtain ⟨a1, a2⟩ := readLZWByte_frozen F c b hF s h
    rw [a1]
    exact FlagResult.of_frozen b _ a2
  · by_cases hin : s.input = []
    · obtain ⟨a1, a2⟩ := readLZWByte_frozen F c b hF s hin
      rw [a1]
      exact FlagResult.of_frozen b _ a2
    · rw [readLZWByte_pending F c b s h1 h2 h3 hin]
      exact FlagResult.result_refl _

theorem rasterLoop_flag {σ : Type} (R : σ → σ → Prop) (F : Nat) (next : σ → Option (Int × σ))
    (hnext : ∀ s t, R s t → (next s = none ∧ next t = none) ∨
      ∃ v u u', next s = some (v, u) ∧ next t = some (v, u') ∧ R u u')
    (palette : Int → PaletteEntry) (width height : Int) (interlace hasAlpha : Bool)
    (fuel : Nat) :
    ∀ (s t : σ) (r : Raster) (ws : List PixelWrite), R s t →
      (rasterLoop F next palette width height interlace hasAlpha fuel s r ws).map Prod.fst
        = (rasterLoop F next palette width height interlace hasAlpha fuel t r ws).map
            Prod.fst := by
  induction fuel with
  | zero => intro s t r ws _; rfl
  | succ k ih =>
    intro s t r ws hR
    rw [rasterLoop, rasterLoop]
    rcases hnext s t hR with ⟨e1, e2⟩ | ⟨v, u, u', e1, e2, hR'⟩
    · rw [e1, e2]
    · rw [e1, e2]
      simp only []
      by_cases hv : v ≥ 0
      · simp only [if_pos hv]
        by_cases hx : r.xpos + 1 = width
        · simp only [if_pos hx]
          cases interlace with
          | true =>
            simp only [if_true]
            cases interlaceSkip height F (interlaceStep r.ypos r.pass) r.pass with
            | none => rfl
            | some o =>
              cases o with
              | none => rfl
              | some p =>
                obtain ⟨y, q⟩ := p
                simp only []
                by_cases hy : y ≥ height
                · simp only [if_pos hy, Option.map_some']
                · simp only [if_neg hy]
                  exact ih u u' _ _ hR'
          | false =>
            simp only [Bool.false_eq_true, if_false]
            by_cases hy : r.ypos + 1 ≥ height
            · simp only [if_pos hy, Option.map_some']
            · simp only [if_neg hy]
              exact ih u u' _ _ hR'
        · simp only [if_neg hx]
          by_cases hy : r.ypos ≥ height
          · simp only [if_pos hy, Option.map_some']
          · simp only [if_neg hy]
            exact ih u u' _ _ hR'
      · simp only [if_neg hv, Option.map_some']

theorem readLZWByte_init_flag (F : Nat) (s : GIFLoader) (b : Bool) (c : Int) :
    ∃ u, s.readLZWByte F true c = some (0, u) ∧
      (s.withFlag b).readLZWByte F true c = some (0, u.withFlag b) ∧
      u.fresh = true ∧ u.finished = false ∧ u.currentBit = 0 ∧ u.lastBit = 0 ∧
      u.codeSize = c + 1 := by
  unfold GIFLoader.readLZWByte GIFLoader.getCode
  simp only [if_true]
  exact ⟨_, rfl, rfl, rfl, rfl, rfl, rfl, rfl⟩

theorem readImage_flag (F : Nat) (hF : 1 ≤ F) (s : GIFLoader) (b : Bool)
    (palette : Int → PaletteEntry) (width height : Int) (interlace : Bool) (transparent : Int)
    (hasAlpha : Bool) :
    ((s.withFlag b).readImage F palette width height interlace transparent hasAlpha).map
        (fun r => r.2.1)
      = (s.readImage F palette width height interlace transparent hasAlpha).map
        (fun r => r.2.1) := by
  unfold GIFLoader.readImage
  simp only [withFlag_input]
  cases hin : s.input with
  | nil => rfl
  | cons c rest =>
    simp only []
    obtain ⟨u, e1, e2, p1, p2, p3, p4, p5⟩ :=
      readLZWByte_init_flag F { s with input := rest } b c.val
    have e2' : GIFLoader.readLZWByte F { s.withFlag b with input := rest } true c.val
        = some (0, u.withFlag b) := e2
    rw [e1, e2']
    simp only [lt_self_iff_false, if_false]
    have hrel : FlagRel u (u.withFlag b) :=
      ⟨b, rfl, Or.inr (Or.inr ⟨p1, p2, by
        rw [p3, p4, p5]
        have : (0 : Int) ≤ (c.val : Int) := Int.natCast_nonneg _
        omega⟩)⟩
    have key := rasterLoop_flag FlagRel F (fun t => t.readLZWByte F false c.val)
      (fun s t h => readLZWByte_flag F c.val hF s t h)
      (if transparent ≠ -1 then store palette transparent ⟨0, 0, 0, 0⟩ else palette)
      width height interlace hasAlpha F u (u.withFlag b) ⟨0, 0, 0, 0, 0⟩ [] hrel
    generalize rasterLoop F (fun t => t.readLZWByte F false c.val) _ width height interlace
      hasAlpha F u ⟨0, 0, 0, 0, 0⟩ [] = A at key
    generalize rasterLoop F (fun t => t.readLZWByte F false c.val) _ width height interlace
      hasAlpha F (u.withFlag b) ⟨0, 0, 0, 0, 0⟩ [] = B at key
    rcases A with _ | ⟨wa, ua⟩ <;> rcases B with _ | ⟨wb, ub⟩
    · rfl
    · simp at key
    · simp at key
    · simp only [Option.map_some', Option.some.injEq] at key
      simp only [Option.map_some', key]

theorem withFlag_setInput (s : GIFLoader) (b : Bool) (l : List Byte) :
    ({ s.withFlag b with input := l } : GIFLoader)
      = ({ s with input := l } : GIFLoader).withFlag b := rfl

theorem readColourMap_flag (s : GIFLoader) (b : Bool) (junk : Junk) (n : Nat)
    (cm : Int → PaletteEntry) :
    (s.withFlag b).readColourMap junk n cm =
      ((s.readColourMap junk n cm).1, (s.readColourMap junk n cm).2.1,
        (s.readColourMap junk n cm).2.2.withFlag b) := rfl

theorem decodeImage_tail (A B : Option (Bool × List PixelWrite × GIFLoader))
    (key : B.map (fun r => r.2.1) = A.map (fun r => r.2.1))
    (f : List PixelWrite → GIFLoader → Decoded)
    (hf : ∀ w u u1, (f w u).getImage = (f w u1).getImage) :
    (B.map (fun r => f r.2.1 r.2.2)).map Decoded.getImage
      = (A.map (fun r => f r.2.1 r.2.2)).map Decoded.getImage := by
  rcases A with _ | ⟨ba, wa, ua⟩ <;> rcases B with _ | ⟨bb, wb, ub⟩
  · rfl
  · simp at key
  · simp at key
  · simp only [Option.map_some', Option.some.injEq] at key
    simp only [Option.map_some', Option.some.injEq]
    rw [key]
    exact hf _ _ _

theorem decodeImage_eq (F : Nat) (s : GIFLoader) (junk : Junk) (colourMap : Int → PaletteEntry)
    (transparent : Int) (gce : List Nat) :
    s.decodeImage F junk colourMap transparent gce =
      if (s.input.take 9).length ≠ 9 then
        some ⟨{ s with input := s.input.drop 9 }, transparent, gce⟩
      else if ((s.input.take 9).getD 8 0).val &&& 0x80 ≠ 0 then
        (GIFLoader.readImage F
          (({ s with input := s.input.drop 9 } : GIFLoader).readColourMap junk
            (2 <<< (((s.input.take 9).getD 8 0).val &&& 7)) colourMap).2.2
          (({ s with input := s.input.drop 9 } : GIFLoader).readColourMap junk
            (2 <<< (((s.input.take 9).getD 8 0).val &&& 7)) colourMap).2.1
          (makeWord ((s.input.take 9).getD 4 0) ((s.input.take 9).getD 5 0))
          (makeWord ((s.input.take 9).getD 6 0) ((s.input.take 9).getD 7 0))
          (decide (((s.input.take 9).getD 8 0).val &&& 0x40 ≠ 0)) transparent
          (decide (transparent ≥ 0))).map
          (fun r => (⟨{ r.2.2 with image := some ⟨decide (transparent ≥ 0),
              makeWord ((s.input.take 9).getD 4 0) ((s.input.take 9).getD 5 0),
              makeWord ((s.input.take 9).getD 6 0) ((s.input.take 9).getD 7 0), r.2.1⟩ },
            transparent, gce⟩ : Decoded))
      else
        (GIFLoader.readImage F ({ s with input := s.input.drop 9 } : GIFLoader) colourMap
          (makeWord ((s.input.take 9).getD 4 0) ((s.input.take 9).getD 5 0))
          (makeWord ((s.input.take 9).getD 6 0) ((s.input.take 9).getD 7 0))
          (decide (((s.input.take 9).getD 8 0).val &&& 0x40 ≠ 0)) transparent
          (decide (transparent ≥ 0))).map
          (fun r => (⟨{ r.2.2 with image := some ⟨decide (transparent ≥ 0),
              makeWord ((s.input.take 9).getD 4 0) ((s.input.take 9).getD 5 0),
              makeWord ((s.input.take 9).getD 6 0) ((s.input.take 9).getD 7 0), r.2.1⟩ },
            transparent, gce⟩ : Decoded)) := by
  unfold GIFLoader.decodeImage
  simp only []
  by_cases h9 : (s.input.take 9).length ≠ 9
  · rw [if_pos h9, if_pos h9]
  · rw [if_neg h9, if_neg h9]
    by_cases hfl : ((s.input.take 9).getD 8 0).val &&& 0x80 ≠ 0
    · rw [if_pos hfl, if_pos hfl]
      exact readImage_match_eq_map _ (fun writes s3 =>
        ⟨{ s3 with image := some ⟨decide (transparent ≥ 0),
              makeWord ((s.input.take 9).getD 4 0) ((s.input.take 9).getD 5 0),
              makeWord ((s.input.take 9).getD 6 0) ((s.input.take 9).getD 7 0), writes⟩ },
          transparent, gce⟩)
    · rw [if_neg hfl, if_neg hfl]
      exact readImage_match_eq_map _ (fun writes s3 =>
        ⟨{ s3 with image := some ⟨decide (transparent ≥ 0),
              makeWord ((s.input.take 9).getD 4 0) ((s.input.take 9).getD 5 0),
              makeWord ((s.input.take 9).getD 6 0) ((s.input.take 9).getD 7 0), writes⟩ },
          transparent, gce⟩)

theorem decodeImage_flag (F : Nat) (hF : 1 ≤ F) (s : GIFLoader) (b : Bool) (junk : Junk)
    (colourMap : Int → PaletteEntry) (transparent : Int) (gce : List Nat) :
    ((s.withFlag b).decodeImage F junk colourMap transparent gce).map Decoded.getImage
      = (s.decodeImage F junk colourMap transparent gce).map Decoded.getImage := by
  rw [decodeImage_eq, decodeImage_eq]
  simp only [withFlag_input, withFlag_setInput, readColourMap_flag]
  by_cases h9 : (s.input.take 9).length ≠ 9
  · simp only [if_pos h9]
    rfl
  · simp only [if_neg h9]
    by_cases hfl : ((s.input.take 9).getD 8 0).val &&& 0x80 ≠ 0
    · simp only [if_pos hfl]
      exact decodeImage_tail _ _ (readImage_flag F hF _ b _ _ _ _ _ _)
        (fun writes s3 => (⟨{ s3 with image := some ⟨decide (transparent ≥ 0),
              makeWord ((s.input.take 9).getD 4 0) ((s.input.take 9).getD 5 0),
              makeWord ((s.input.take 9).getD 6 0) ((s.input.take 9).getD 7 0), writes⟩ },
          transparent, gce⟩ : Decoded)) (fun _ _ _ => rfl)
    · simp only [if_neg hfl]
      exact decodeImage_tail _ _ (readImage_flag F hF _ b _ _ _ _ _ _)
        (fun writes s3 => (⟨{ s3 with image := some ⟨decide (transparent ≥ 0),
              makeWord ((s.input.take 9).getD 4 0) ((s.input.take 9).getD 5 0),
              makeWord ((s.input.take 9).getD 6 0) ((s.input.take 9).getD 7 0), writes⟩ },
          transparent, gce⟩ : Decoded)) (fun _ _ _ => rfl)

theorem readDataBlock_flag (s : GIFLoader) (b : Bool) :
    ∃ b1, (s.withFlag b).readDataBlock =
      (s.readDataBlock.1, s.readDataBlock.2.1, s.readDataBlock.2.2.withFlag b1) := by
  unfold GIFLoader.readDataBlock
  simp only [withFlag_input]
  cases hin : s.input with
  | nil => exact ⟨b, rfl⟩
  | cons n rest =>
    simp only []
    by_cases h0 : n.val = 0
    · simp only [if_pos h0]
      exact ⟨true, by simp [GIFLoader.withFlag, h0]⟩
    · simp only [if_neg h0]
      by_cases hl : (rest.take n.val).length = n.val
      · simp only [if_pos hl]
        exact ⟨false, by simp [GIFLoader.withFlag, h0]⟩
      · simp only [if_neg hl]
        exact ⟨false, by simp [GIFLoader.withFlag, h0]⟩

theorem skipDataBlocks_flag (fuel : Nat) :
    ∀ (s : GIFLoader) (b : Bool),
      ∃ b1, skipDataBlocks fuel (s.withFlag b) = liftFlag b1 (skipDataBlocks fuel s) := by
  induction fuel with
  | zero => intro s b; exact ⟨b, rfl⟩
  | succ k ih =>
    intro s b
    obtain ⟨b1, e⟩ := readDataBlock_flag s b
    rw [skipDataBlocks, skipDataBlocks, e]
    simp only []
    by_cases hpos : s.readDataBlock.1 > 0
    · simp only [if_pos hpos]
      exact ih _ b1
    · simp only [if_neg hpos]
      exact ⟨b1, rfl⟩

theorem processExtension_flag (F : Nat) (s : GIFLoader) (b : Bool) (junk : Junk) (type : Nat)
    (transparent : Int) (gce : List Nat) :
    ∃ b1, (s.withFlag b).processExtension F junk type transparent gce =
      (s.processExtension F junk type transparent gce).map
        (fun q => (q.1, q.2.1, q.2.2.1, q.2.2.2.withFlag b1)) := by
  unfold GIFLoader.processExtension
  by_cases ht : type = 0xf9
  · simp only [if_pos ht]
    obtain ⟨b1, e⟩ := readDataBlock_flag s b
    rw [e]
    simp only []
    by_cases hneg : s.readDataBlock.1 < 0
    · simp only [if_pos hneg]
      exact ⟨b1, rfl⟩
    · simp only [if_neg hneg]
      obtain ⟨b2, e2⟩ := skipDataBlocks_flag F s.readDataBlock.2.2 b1
      rw [e2]
      refine ⟨b2, ?_⟩
      cases skipDataBlocks F s.readDataBlock.2.2 <;> rfl
  · simp only [if_neg ht]
    obtain ⟨b2, e2⟩ := skipDataBlocks_flag F s b
    rw [e2]
    refine ⟨b2, ?_⟩
    cases skipDataBlocks F s <;> rfl

theorem blockLoop_nil (F : Nat) (junk : Junk) (fuel : Nat) (s : GIFLoader)
    (cm : Int → PaletteEntry) (tr : Int) (gce : List Nat) (hin : s.input = []) :
    blockLoop F junk (fuel + 1) s cm tr gce = some ⟨s, tr, gce⟩ := by
  rw [blockLoop, hin]

theorem blockLoop_trailer (F : Nat) (junk : Junk) (fuel : Nat) (s : GIFLoader)
    (cm : Int → PaletteEntry) (tr : Int) (gce : List Nat) (b0 : Byte) (rest : List Byte)
    (hin : s.input = b0 :: rest) (h : b0.val = 0x3B) :
    blockLoop F junk (fuel + 1) s cm tr gce = some ⟨{ s with input := rest }, tr, gce⟩ := by
  rw [blockLoop, hin]
  simp only [if_pos h]

theorem blockLoop_ext_nil (F : Nat) (junk : Junk) (fuel : Nat) (s : GIFLoader)
    (cm : Int → PaletteEntry) (tr : Int) (gce : List Nat) (b0 : Byte)
    (hin : s.input = [b0]) (h : b0.val = 0x21) :
    blockLoop F junk (fuel + 1) s cm tr gce = some ⟨{ s with input := [] }, tr, gce⟩ := by
  rw [blockLoop, hin]
  simp only [if_neg (show ¬ b0.val = 0x3B by omega), if_pos h]

theorem blockLoop_extension (F : Nat) (junk : Junk) (fuel : Nat) (s : GIFLoader)
    (cm : Int → PaletteEntry) (tr : Int) (gce : List Nat) (b0 ty : Byte) (rest1 : List Byte)
    (hin : s.input = b0 :: ty :: rest1) (h : b0.val = 0x21) :
    blockLoop F junk (fuel + 1) s cm tr gce =
      (GIFLoader.processExtension F { s with input := rest1 } junk ty.val tr gce).bind
        (fun q => if q.1 < 0 then some ⟨q.2.2.2, q.2.1, q.2.2.1⟩
          else blockLoop F junk fuel q.2.2.2 cm q.2.1 q.2.2.1) := by
  rw [blockLoop, hin]
  simp only [if_neg (show ¬ b0.val = 0x3B by omega), if_pos h]
  cases GIFLoader.processExtension F { s with input := rest1 } junk ty.val tr gce with
  | none => rfl
  | some q => rfl

theorem blockLoop_stray (F : Nat) (junk : Junk) (fuel : Nat) (s : GIFLoader)
    (cm : Int → PaletteEntry) (tr : Int) (gce : List Nat) (b0 : Byte) (rest : List Byte)
    (hin : s.input = b0 :: rest) (h1 : b0.val ≠ 0x3B) (h2 : b0.val ≠ 0x21)
    (h3 : b0.val ≠ 0x2C) :
    blockLoop F junk (fuel + 1) s cm tr gce
      = blockLoop F junk fuel { s with input := rest } cm tr gce := by
  rw [blockLoop, hin]
  simp only [if_neg h1, if_neg h2, if_pos h3]

theorem blockLoop_image (F : Nat) (junk : Junk) (fuel : Nat) (s : GIFLoader)
    (cm : Int → PaletteEntry) (tr : Int) (gce : List Nat) (b0 : Byte) (rest : List Byte)
    (hin : s.input = b0 :: rest) (h : b0.val = 0x2C) :
    blockLoop F junk (fuel + 1) s cm tr gce
      = GIFLoader.decodeImage F { s with input := rest } junk cm tr gce := by
  rw [blockLoop, hin]
  simp only [if_neg (show ¬ b0.val = 0x3B by omega), if_neg (show ¬ b0.val = 0x21 by omega),
    if_neg (show ¬ b0.val ≠ 0x2C by omega)]

theorem blockLoop_flag (F : Nat) (hF : 1 ≤ F) (junk : Junk) (fuel : Nat) :
    ∀ (s : GIFLoader) (b : Bool) (colourMap : Int → PaletteEntry) (transparent : Int)
      (gce : List Nat),
      (blockLoop F junk fuel (s.withFlag b) colourMap transparent gce).map Decoded.getImage
        = (blockLoop F junk fuel s colourMap transparent gce).map Decoded.getImage := by
  induction fuel with
  | zero => intro s b cm tr gce; rfl
  | succ k ih =>
    intro s b cm tr gce
    cases hin : s.input with
    | nil =>
      rw [blockLoop_nil F junk k (s.withFlag b) cm tr gce hin, blockLoop_nil F junk k s cm tr gce hin]
      rfl
    | cons b0 rest =>
      by_cases h1 : b0.val = 0x3B
      · rw [blockLoop_trailer F junk k (s.withFlag b) cm tr gce b0 rest hin h1,
          blockLoop_trailer F junk k s cm tr gce b0 rest hin h1]
        rfl
      by_cases h2 : b0.val = 0x21
      · cases rest with
        | nil =>
          rw [blockLoop_ext_nil F junk k (s.withFlag b) cm tr gce b0 hin h2,
            blockLoop_ext_nil F junk k s cm tr gce b0 hin h2]
          rfl
        | cons ty rest1 =>
          rw [blockLoop_extension F junk k (s.withFlag b) cm tr gce b0 ty rest1 hin h2,
            blockLoop_extension F junk k s cm tr gce b0 ty rest1 hin h2]
          simp only [withFlag_setInput]
          obtain ⟨b1, e⟩ := processExtension_flag F { s with input := rest1 } b junk ty.val tr gce
          rw [e]
          cases GIFLoader.processExtension F { s with input := rest1 } junk ty.val tr gce with
          | none => rfl
          | some q =>
            obtain ⟨r, tr1, gce1, s2⟩ := q
            simp only [Option.map_some', Option.some_bind]
            by_cases hr : r < 0
            · simp only [if_pos hr]
              rfl
            · simp only [if_neg hr]
              exact ih s2 b1 cm tr1 gce1
      by_cases h3 : b0.val = 0x2C
      · rw [blockLoop_image F junk k (s.withFlag b) cm tr gce b0 rest hin h3,
          blockLoop_image F junk k s cm tr gce b0 rest hin h3]
        simp only [withFlag_setInput]
        exact decodeImage_flag F hF _ b junk cm tr gce
      · rw [blockLoop_stray F junk k (s.withFlag b) cm tr gce b0 rest hin h1 h2 h3,
          blockLoop_stray F junk k s cm tr gce b0 rest hin h1 h2 h3]
        simp only [withFlag_setInput]
        exact ih _ b cm tr gce

theorem skipDataBlocks_subBlocks (blocks : List (List Byte)) :
    ∀ (s : GIFLoader) (rest : List Byte) (fuel : Nat),
      (∀ bl ∈ blocks, 1 ≤ bl.length ∧ bl.length ≤ 255) → blocks.length + 1 ≤ fuel →
      s.input = subBlocks blocks ++ rest →
      skipDataBlocks fuel s = some (0, { s with input := rest, dataBlockIsZero := true }) := by
  induction blocks with
  | nil =>
    intro s rest fuel _ hfuel hin
    obtain ⟨f1, rfl⟩ : ∃ f1, fuel = f1 + 1 := ⟨fuel - 1, by omega⟩
    rw [skipDataBlocks]
    unfold GIFLoader.readDataBlock
    rw [hin]
    simp [subBlocks]
  | cons bl bs ih =>
    intro s rest fuel hbl hfuel hin
    simp only [List.length_cons] at hfuel
    obtain ⟨f1, rfl⟩ : ∃ f1, fuel = f1 + 1 := ⟨fuel - 1, by omega⟩
    obtain ⟨hl1, hl2⟩ := hbl bl (List.mem_cons_self _ _)
    have hval : ((Fin.ofNat bl.length : Byte)).val = bl.length := by
      show bl.length % 256 = bl.length
      exact Nat.mod_eq_of_lt (by omega)
    have htake : (bl ++ (subBlocks bs ++ rest)).take bl.length = bl := List.take_left' rfl
    have hdrop : (bl ++ (subBlocks bs ++ rest)).drop bl.length = subBlocks bs ++ rest :=
      List.drop_left' rfl
    rw [skipDataBlocks]
    unfold GIFLoader.readDataBlock
    rw [hin]
    simp only [subBlocks, List.cons_append, List.append_assoc, hval, htake, hdrop]
    have h0 : ¬ bl.length = 0 := by omega
    have hpos : ((bl.length : Nat) : Int) > 0 := by exact_mod_cast hl1
    simp only [if_neg h0, if_true, if_pos hpos]
    exact ih _ rest f1 (fun b hb => hbl b (List.mem_cons_of_mem _ hb)) (by omega) rfl

theorem processExtension_unknown (F : Nat) (s : GIFLoader) (junk : Junk) (type : Nat)
    (transparent : Int) (gce : List Nat) (h : type ≠ 0xf9) :
    s.processExtension F junk type transparent gce
      = (skipDataBlocks F s).map (fun q => (q.1, transparent, gce, q.2)) := by
  unfold GIFLoader.processExtension
  rw [if_neg h]

/-- C11: at a block-introducer position (the head of the block loop), a stray byte other than
0x21, 0x2C and 0x3B in front of the remaining stream is dropped and the loop goes on exactly as
without it; and a complete extension block in front of it (0x21, a type byte other than 0xF9,
sub-blocks of 1 to 255 bytes, the zero-length terminator) leaves `getImage` as it is without
the block: the same presence of an image, the same size, alpha capability and pixel writes.
The fuel `F` of the inner loops covers the sub-blocks of the inserted block. -/
theorem blockLoop_skips_unknown_blocks (F fuel : Nat) (junk : Junk) (s : GIFLoader)
    (cm : Int → PaletteEntry) (tr : Int) (gce : List Nat) (b ty : Byte)
    (blocks : List (List Byte))
    (hb1 : b.val ≠ 0x21) (hb2 : b.val ≠ 0x2C) (hb3 : b.val ≠ 0x3B) (hty : ty.val ≠ 0xF9)
    (hbl : ∀ bl ∈ blocks, 1 ≤ bl.length ∧ bl.length ≤ 255) (hF : blocks.length + 1 ≤ F) :
    blockLoop F junk (fuel + 1) { s with input := b :: s.input } cm tr gce
      = blockLoop F junk fuel s cm tr gce ∧
    (blockLoop F junk (fuel + 1)
        { s with input := 0x21 :: ty :: (subBlocks blocks ++ s.input) } cm tr gce).map
        Decoded.getImage
      = (blockLoop F junk fuel s cm tr gce).map Decoded.getImage := by
  constructor
  · exact blockLoop_stray F junk fuel { s with input := b :: s.input } cm tr gce b s.input rfl
      hb3 hb1 hb2
  · rw [blockLoop_extension F junk fuel
      { s with input := 0x21 :: ty :: (subBlocks blocks ++ s.input) } cm tr gce 0x21 ty
      (subBlocks blocks ++ s.input) rfl rfl]
    rw [processExtension_unknown F _ junk ty.val tr gce hty]
    rw [skipDataBlocks_subBlocks blocks _ s.input F hbl hF rfl]
    simp only [Option.map_some', Option.some_bind, lt_self_iff_false, if_false]
    exact blockLoop_flag F (by omega) junk fuel s true cm tr gce

theorem blockLoop_skips_unknown_blocks_witness :
    (((0x00 : Byte).val ≠ 0x21 ∧ (0x00 : Byte).val ≠ 0x2C ∧ (0x00 : Byte).val ≠ 0x3B ∧
        (0xFE : Byte).val ≠ 0xF9) ∧
      (∀ bl ∈ ([[0x47, 0x49, 0x46], [0x21]] : List (List Byte)),
        1 ≤ bl.length ∧ bl.length ≤ 255) ∧
      ([[0x47, 0x49, 0x46], [0x21]] : List (List Byte)).length + 1 ≤ 10) ∧
    (blockLoop 10 Junk.zero (5 + 1)
        { GIFLoader.init Junk.zero (descriptor 1 1 0 ++ [0x02, 0x02, 0x44, 0x01, 0x00, 0x3B]) with
          input := 0x00 ::
            (GIFLoader.init Junk.zero
              (descriptor 1 1 0 ++ [0x02, 0x02, 0x44, 0x01, 0x00, 0x3B])).input }
        Junk.zero.colourMap (-1) []
      = blockLoop 10 Junk.zero 5
          (GIFLoader.init Junk.zero (descriptor 1 1 0 ++ [0x02, 0x02, 0x44, 0x01, 0x00, 0x3B]))
          Junk.zero.colourMap (-1) [] ∧
    (blockLoop 10 Junk.zero (5 + 1)
        { GIFLoader.init Junk.zero (descriptor 1 1 0 ++ [0x02, 0x02, 0x44, 0x01, 0x00, 0x3B]) with
          input := 0x21 :: 0xFE :: (subBlocks [[0x47, 0x49, 0x46], [0x21]] ++
            (GIFLoader.init Junk.zero
              (descriptor 1 1 0 ++ [0x02, 0x02, 0x44, 0x01, 0x00, 0x3B])).input) }
        Junk.zero.colourMap (-1) []).map Decoded.getImage
      = (blockLoop 10 Junk.zero 5
          (GIFLoader.init Junk.zero (descriptor 1 1 0 ++ [0x02, 0x02, 0x44, 0x01, 0x00, 0x3B]))
          Junk.zero.colourMap (-1) []).map Decoded.getImage) :=
  ⟨⟨⟨by decide, by decide, by decide, by decide⟩, by decide, by decide⟩,
    blockLoop_skips_unknown_blocks 10 5 Junk.zero
      (GIFLoader.init Junk.zero (descriptor 1 1 0 ++ [0x02, 0x02, 0x44, 0x01, 0x00, 0x3B]))
      Junk.zero.colourMap (-1) [] 0x00 0xFE [[0x47, 0x49, 0x46], [0x21]]
      (by decide) (by decide) (by decide) (by decide) (by decide) (by decide)⟩

/-! ### Code strings (C17) -/

theorem Expands.ne_nil {cc : Int} {t0 t1 : Int → Int} {c : Int} {l : List Int}
    (h : Expands cc t0 t1 c l) : ∃ b tl, l = b :: tl ∧ 0 ≤ b ∧ b < cc := by
  induction h with
  | lit c h0 h1 => exact ⟨c, [], rfl, h0, h1⟩
  | ent c l _ _ _ ih =>
    obtain ⟨b, tl, rfl, hb⟩ := ih
    exact ⟨b, tl ++ [t1 c], rfl, hb⟩

theorem Expands.length_le {cc : Int} {t0 t1 : Int → Int} {c : Int} {l : List Int}
    (h : Expands cc t0 t1 c l) : l.length ≤ (c - cc).toNat + 1 := by
  induction h with
  | lit c h0 h1 => simp
  | ent c l h2 hlt _ ih =>
    simp only [List.length_append, List.length_singleton]
    omega

theorem Expands.codeString {cc : Int} {t0 t1 : Int → Int} {c : Int} {l : List Int}
    (h : Expands cc t0 t1 c l) : ∀ n, l.length ≤ n → codeString cc t0 t1 n c = l := by
  induction h with
  | lit c h0 h1 =>
    intro n hn
    obtain ⟨k, rfl⟩ : ∃ k, n = k + 1 := ⟨n - 1, by simp at hn; omega⟩
    rw [GIF.codeString, if_pos h1]
  | ent c l h2 hlt _ ih =>
    intro n hn
    simp only [List.length_append, List.length_singleton] at hn
    obtain ⟨k, rfl⟩ : ∃ k, n = k + 1 := ⟨n - 1, by omega⟩
    rw [GIF.codeString, if_neg (by omega), ih k (by omega)]

theorem Expands.walk {cc : Int} {t0 t1 : Int → Int} {c : Int} {l : List Int}
    (h : Expands cc t0 t1 c l) :
    ∀ (F : Nat) (stk : List Int), l.length ≤ F →
      ∃ b tl, l = b :: tl ∧ 0 ≤ b ∧ b < cc ∧
        walkChain cc t0 t1 F c stk = some (.base b (tl ++ stk)) := by
  induction h with
  | lit c h0 h1 =>
    intro F stk hF
    obtain ⟨k, rfl⟩ : ∃ k, F = k + 1 := ⟨F - 1, by simp at hF; omega⟩
    refine ⟨c, [], rfl, h0, h1, ?_⟩
    rw [walkChain, if_neg (by omega)]
    rfl
  | ent c l h2 hlt _ ih =>
    intro F stk hF
    simp only [List.length_append, List.length_singleton] at hF
    obtain ⟨k, rfl⟩ : ∃ k, F = k + 1 := ⟨F - 1, by omega⟩
    obtain ⟨b, tl, rfl, hb0, hb1, hw⟩ := ih k (t1 c :: stk) (by omega)
    refine ⟨b, tl ++ [t1 c], rfl, hb0, hb1, ?_⟩
    rw [walkChain, if_pos (by omega), if_neg (by omega), hw]
    simp only [List.append_assoc, List.singleton_append]

theorem Expands.mono {cc : Int} {t0 t1 t0' t1' : Int → Int} {c : Int} {l : List Int}
    (h : Expands cc t0 t1 c l) (mc : Int) (hc : c < mc)
    (ht : ∀ i, i < mc → t0' i = t0 i ∧ t1' i = t1 i) : Expands cc t0' t1' c l := by
  induction h with
  | lit c h0 h1 => exact Expands.lit c h0 h1
  | ent c l h2 hlt _ ih =>
    have := ih (by omega)
    rw [← (ht c hc).2]
    refine Expands.ent c l h2 ?_ ?_
    · rw [(ht c hc).1]; exact hlt
    · rw [(ht c hc).1]; exact this

theorem Expands.exists (cc mc : Int) (t0 t1 : Int → Int) (hcc : 0 ≤ cc)
    (hent : ∀ c, cc + 2 ≤ c → c < mc →
      ((0 ≤ t0 c ∧ t0 c < cc) ∨ (cc + 2 ≤ t0 c ∧ t0 c < mc)) ∧ t0 c < c) :
    ∀ (n : Nat) (c : Int), c < n → ((0 ≤ c ∧ c < cc) ∨ (cc + 2 ≤ c ∧ c < mc)) →
      ∃ l, Expands cc t0 t1 c l := by
  intro n
  induction n with
  | zero =>
    intro c hc hv
    rcases hv with ⟨h0, h1⟩ | ⟨h2, h3⟩
    · exact ⟨[c], Expands.lit c h0 h1⟩
    · simp at hc
      omega
  | succ k ih =>
    intro c hc hv
    rcases hv with ⟨h0, h1⟩ | ⟨h2, h3⟩
    · exact ⟨[c], Expands.lit c h0 h1⟩
    · obtain ⟨hv', hlt⟩ := hent c h2 h3
      obtain ⟨l, hl⟩ := ih (t0 c) (by push_cast at hc; omega) hv'
      exact ⟨l ++ [t1 c], Expands.ent c l h2 hlt hl⟩

theorem CodeInv.of_same_lzw {m : Int} {s t : GIFLoader} (h : SameLzw s t) (hi : CodeInv m s) :
    CodeInv m t := by
  obtain ⟨e1, e2, e3, e4, e5, e6, e7, e8, e9, e10, e11, e12⟩ := h
  unfold CodeInv TableInv ValidCode SizeInv at hi ⊢
  rw [e1, e2, e3, e4, e5, e6, e7, e8, e9, e10, e11, e12]
  exact hi

theorem pull_pops (F : Nat) (c : Int) :
    ∀ (l rest : List Int) (s : GIFLoader), s.fresh = false → s.stack = l ++ rest →
      pull F c l.length s = some (l, { s with stack := rest }) := by
  intro l
  induction l with
  | nil =>
    intro rest s _ hst
    simp only [List.nil_append] at hst
    rw [← hst]
    rfl
  | cons v l ih =>
    intro rest s hf hst
    have hcall : s.readLZWByte F false c = some (v, { s with stack := l ++ rest }) := by
      unfold GIFLoader.readLZWByte
      rw [if_neg (by simp), if_neg (by rw [hf]; simp), hst]
      rfl
    rw [List.length_cons, pull, hcall]
    simp only []
    rw [ih rest { s with stack := l ++ rest } hf rfl]
    rfl

theorem lzwLoop_code (F k : Nat) (s u : GIFLoader) (b : Int) (tl : List Int)
    (h0 : 0 ≤ (s.getCode s.codeSize false).1)
    (h1 : (s.getCode s.codeSize false).1 ≠ (s.getCode s.codeSize false).2.clearCode)
    (h2 : (s.getCode s.codeSize false).1 ≠ (s.getCode s.codeSize false).2.end_code)
    (hx : (s.getCode s.codeSize false).2.expandCode F (s.getCode s.codeSize false).1
      = some (false, u))
    (hst : u.stack = b :: tl) :
    lzwLoop F (k + 1) s
      = some (b, { u.installCode (s.getCode s.codeSize false).1 with stack := tl }) := by
  rw [lzwLoop]
  simp only [ge_iff_le, if_pos h0, if_neg h1]
  have he : endCodeBlock F (s.getCode s.codeSize false).2 (s.getCode s.codeSize false).1
      = some (false, (s.getCode s.codeSize false).2) := by
    unfold endCodeBlock
    rw [if_neg h2]
  rw [he]
  simp only []
  rw [hx]
  simp only []
  have hs : (u.installCode (s.getCode s.codeSize false).1).stack = b :: tl := by
    rw [installCode_stack, hst]
  rw [hs]

theorem installCode_lt (u : GIFLoader) (c : Int) (h : u.maxCode < 4096) :
    (u.installCode c).table0 = store u.table0 u.maxCode u.oldcode ∧
    (u.installCode c).table1 = store u.table1 u.maxCode u.firstcode ∧
    (u.installCode c).maxCode = u.maxCode + 1 ∧ (u.installCode c).oldcode = c ∧
    (u.installCode c).clearCode = u.clearCode ∧ (u.installCode c).end_code = u.end_code ∧
    (u.installCode c).fresh = u.fresh ∧ (u.installCode c).firstcode = u.firstcode := by
  by_cases hg : u.maxCode + 1 ≥ u.maxCodeSize ∧ u.maxCodeSize < 4096
  · simp only [GIFLoader.installCode, maxGifCode, if_pos h, if_pos hg, and_self]
  · simp only [GIFLoader.installCode, maxGifCode, if_pos h, if_neg hg, and_self]

theorem installCode_ge (u : GIFLoader) (c : Int) (h : ¬ u.maxCode < 4096) :
    (u.installCode c).table0 = u.table0 ∧ (u.installCode c).table1 = u.table1 ∧
    (u.installCode c).maxCode = u.maxCode ∧ (u.installCode c).oldcode = c ∧
    (u.installCode c).clearCode = u.clearCode ∧ (u.installCode c).end_code = u.end_code ∧
    (u.installCode c).fresh = u.fresh ∧ (u.installCode c).firstcode = u.firstcode := by
  simp only [GIFLoader.installCode, maxGifCode, if_neg h, and_self]

theorem installCode_tableInv (m : Int) (s1 u : GIFLoader) (c b : Int) (lo : List Int)
    (hi : TableInv m s1) (hu : SameSizes s1 u)
    (hu2 : u.fresh = s1.fresh ∧ u.end_code = s1.end_code ∧ u.oldcode = s1.oldcode ∧
      u.firstcode = b)
    (hxo : Expands s1.clearCode s1.table0 s1.table1 s1.oldcode lo) (hc4096 : c < 4096)
    (hc : (ValidCode s1 c ∧ ∃ tl, Expands s1.clearCode s1.table0 s1.table1 c (b :: tl)) ∨
      (c = s1.maxCode ∧ ∃ tl, lo = b :: tl)) :
    TableInv m (u.installCode c) ∧ (u.installCode c).oldcode = c ∧
    (u.installCode c).clearCode = s1.clearCode ∧
    (s1.maxCode < 4096 → (u.installCode c).maxCode = s1.maxCode + 1 ∧
      Expands s1.clearCode (u.installCode c).table0 (u.installCode c).table1 s1.maxCode
        (lo ++ [b])) ∧
    (∀ c1 l, c1 < s1.maxCode → Expands s1.clearCode s1.table0 s1.table1 c1 l →
      Expands s1.clearCode (u.installCode c).table0 (u.installCode c).table1 c1 l) := by
  obtain ⟨h1, h2, hsz, hfr, hend, hlit, hent, hold, l0, hfo⟩ := hi
  obtain ⟨u1, u2, u3, u4, u5, u6, u7⟩ := hu
  obtain ⟨v1, v2, v3, v4⟩ := hu2
  have hszt : SizeInv m (u.installCode c) :=
    (installCode_size m u c h1 (hsz.of_sizes ⟨u1, u2, u3, u4, u5, u6, u7⟩)).1
  have hcc : s1.clearCode + 2 ≤ s1.maxCode := hsz.2.2.2.2.2.1
  have hcc0 : (0 : Int) < s1.clearCode := by
    rw [hsz.2.1]; positivity
  have holdlt : s1.oldcode < s1.maxCode := by
    rcases hold with ⟨_, h⟩ | ⟨_, h⟩ <;> omega
  by_cases hlt : u.maxCode < 4096
  · obtain ⟨ft0, ft1, fmc, fold, fcc, fend, ffr, ffc⟩ := installCode_lt u c hlt
    rw [u1, u6, v3] at ft0
    rw [u2, u6, v4] at ft1
    rw [u6] at fmc hlt
    rw [u5] at fcc
    rw [v2] at fend
    rw [v1] at ffr
    rw [v4] at ffc
    have hagree : ∀ i, i < s1.maxCode →
        (u.installCode c).table0 i = s1.table0 i ∧ (u.installCode c).table1 i = s1.table1 i := by
      intro i hi
      rw [ft0, ft1]
      simp only [store]
      rw [if_neg (by omega), if_neg (by omega)]
      exact ⟨rfl, rfl⟩
    have hmono : ∀ c1 l, c1 < s1.maxCode → Expands s1.clearCode s1.table0 s1.table1 c1 l →
        Expands s1.clearCode (u.installCode c).table0 (u.installCode c).table1 c1 l :=
      fun c1 l hc1 hx => hx.mono s1.maxCode hc1 hagree
    have hnew0 : (u.installCode c).table0 s1.maxCode = s1.oldcode := by
      rw [ft0]; simp [store]
    have hnew1 : (u.installCode c).table1 s1.maxCode = b := by
      rw [ft1]; simp [store]
    have hnew : Expands s1.clearCode (u.installCode c).table0 (u.installCode c).table1
        s1.maxCode (lo ++ [b]) := by
      have := @Expands.ent s1.clearCode (u.installCode c).table0 (u.installCode c).table1
        s1.maxCode lo hcc (by rw [hnew0]; exact holdlt)
        (by rw [hnew0]; exact hmono _ _ holdlt hxo)
      rw [hnew1] at this
      exact this
    refine ⟨⟨h1, h2, hszt, by rw [ffr]; exact hfr, by rw [fend, fcc]; exact hend, ?_, ?_, ?_, ?_⟩,
      fold, fcc, fun _ => ⟨fmc, hnew⟩, hmono⟩
    · intro c0 h0 hc0
      rw [fcc] at hc0
      rw [(hagree c0 (by omega)).2]
      exact hlit c0 h0 hc0
    · intro c0 hc0 hc0'
      rw [fcc] at hc0
      rw [fmc] at hc0'
      unfold ValidCode
      rw [fcc, fmc]
      by_cases he : c0 = s1.maxCode
      · rw [he, hnew0]
        refine ⟨?_, holdlt⟩
        rcases hold with h | ⟨h, h'⟩
        · exact Or.inl h
        · exact Or.inr ⟨h, by omega⟩
      · have hc0lt : c0 < s1.maxCode := by omega
        rw [(hagree c0 hc0lt).1]
        obtain ⟨hv, hl⟩ := hent c0 hc0 hc0lt
        refine ⟨?_, hl⟩
        rcases hv with h | ⟨h, h'⟩
        · exact Or.inl h
        · exact Or.inr ⟨h, by omega⟩
    · unfold ValidCode
      rw [fold, fcc, fmc]
      rcases hc with ⟨hv, _⟩ | ⟨he, _⟩
      · rcases hv with h | ⟨h, h'⟩
        · exact Or.inl h
        · exact Or.inr ⟨h, by omega⟩
      · exact Or.inr ⟨by omega, by omega⟩
    · rw [fold, fcc, ffc]
      rcases hc with ⟨hv, tl, hx⟩ | ⟨he, tl, hlo⟩
      · have hclt : c < s1.maxCode := by
          rcases hv with ⟨_, h⟩ | ⟨_, h⟩ <;> omega
        exact ⟨tl, hmono _ _ hclt hx⟩
      · refine ⟨tl ++ [b], ?_⟩
        rw [he]
        have := hnew
        rw [hlo] at this
        exact this
  · obtain ⟨ft0, ft1, fmc, fold, fcc, fend, ffr, ffc⟩ := installCode_ge u c hlt
    rw [u1] at ft0
    rw [u2] at ft1
    rw [u6] at fmc hlt
    rw [u5] at fcc
    rw [v2] at fend
    rw [v1] at ffr
    rw [v4] at ffc
    have hmono : ∀ c1 l, c1 < s1.maxCode → Expands s1.clearCode s1.table0 s1.table1 c1 l →
        Expands s1.clearCode (u.installCode c).table0 (u.installCode c).table1 c1 l := by
      intro c1 l _ hx
      rw [ft0, ft1]
      exact hx
    have hmc : s1.maxCode ≤ 4096 := hsz.2.2.2.2.2.2.1
    have hA : ValidCode s1 c ∧ ∃ tl, Expands s1.clearCode s1.table0 s1.table1 c (b :: tl) := by
      rcases hc with h | ⟨he, _⟩
      · exact h
      · omega
    refine ⟨⟨h1, h2, hszt, by rw [ffr]; exact hfr, by rw [fend, fcc]; exact hend, ?_, ?_, ?_, ?_⟩,
      fold, fcc, fun h => absurd h hlt, hmono⟩
    · rw [fcc, ft1]; exact hlit
    · unfold ValidCode
      rw [fcc, fmc, ft0]
      exact hent
    · unfold ValidCode
      rw [fold, fcc, fmc]
      exact hA.1
    · rw [fold, fcc, ffc, ft0, ft1]
      exact hA.2

theorem Expands.length_le_4096 {cc : Int} {t0 t1 : Int → Int} {c : Int} {l : List Int}
    (h : Expands cc t0 t1 c l) (hc : c < 4096) (hcc : 0 < cc) : l.length ≤ 4096 := by
  have := h.length_le
  omega

theorem stringOf_eq (s : GIFLoader) (c : Int) (l : List Int)
    (h : Expands s.clearCode s.table0 s.table1 c l) (hc : c < 4096) (hcc : 0 < s.clearCode) :
    s.stringOf c = l :=
  h.codeString 4096 (h.length_le_4096 hc hcc)

theorem TableInv.expands {m : Int} {s : GIFLoader} (hi : TableInv m s) (c : Int)
    (hv : ValidCode s c) : ∃ l, Expands s.clearCode s.table0 s.table1 c l := by
  obtain ⟨h1, h2, hsz, hfr, hend, hlit, hent, hold, l0, hfo⟩ := hi
  have hcc0 : (0 : Int) < s.clearCode := by
    rw [hsz.2.1]; positivity
  exact Expands.exists s.clearCode s.maxCode s.table0 s.table1 (le_of_lt hcc0) hent
    (c.toNat + 1) c (by omega) hv

theorem expandCode_string (F : Nat) (m : Int) (s1 : GIFLoader) (c : Int) (hF : 4096 ≤ F)
    (hi : TableInv m s1) (hst : s1.stack = []) (hc0 : 0 ≤ c) (hc1 : c ≠ s1.clearCode)
    (hc2 : c ≠ s1.end_code) (hc3 : c ≤ s1.maxCode) (hc4 : c < 4096) :
    ∃ (u : GIFLoader) (b : Int) (tl lo : List Int),
      s1.expandCode F c = some (false, u) ∧ u.stack = b :: tl ∧ SameSizes s1 u ∧
      (u.fresh = s1.fresh ∧ u.end_code = s1.end_code ∧ u.oldcode = s1.oldcode ∧
        u.firstcode = b) ∧
      Expands s1.clearCode s1.table0 s1.table1 s1.oldcode lo ∧
      ((c < s1.maxCode ∧ ValidCode s1 c ∧
          Expands s1.clearCode s1.table0 s1.table1 c (b :: tl)) ∨
        (c = s1.maxCode ∧ b :: tl = lo ++ lo.take 1 ∧ ∃ tl1, lo = b :: tl1)) := by
  have hi' := hi
  obtain ⟨h1, h2, hsz, hfr, hend, hlit, hent, hold, l0, hfo⟩ := hi
  have hcc0 : (0 : Int) < s1.clearCode := by
    rw [hsz.2.1]; positivity
  have hmc : s1.maxCode ≤ 4096 := hsz.2.2.2.2.2.2.1
  have hcc : s1.clearCode + 2 ≤ s1.maxCode := hsz.2.2.2.2.2.1
  have holdlt : s1.oldcode < s1.maxCode := by
    rcases hold with ⟨_, h⟩ | ⟨_, h⟩ <;> omega
  unfold GIFLoader.expandCode
  by_cases hge : c ≥ s1.maxCode
  · have hce : c = s1.maxCode := le_antisymm hc3 hge
    simp only [if_pos hge, hst]
    obtain ⟨b, tl1, hl, hb0, hb1, hw⟩ := hfo.walk F [s1.firstcode]
      (le_trans (hfo.length_le_4096 (by omega) hcc0) hF)
    simp only [List.cons.injEq] at hl
    obtain ⟨hb, htl⟩ := hl
    rw [hw]
    simp only [hlit b hb0 hb1]
    refine ⟨_, b, tl1 ++ [s1.firstcode], s1.firstcode :: l0, rfl, rfl,
      ⟨rfl, rfl, rfl, rfl, rfl, rfl, rfl⟩, ⟨rfl, rfl, rfl, rfl⟩, hfo, Or.inr ⟨hce, ?_, ?_⟩⟩
    · rw [hb, htl]
      rfl
    · exact ⟨l0, by rw [hb]⟩
  · have hclt : c < s1.maxCode := by omega
    have hv : ValidCode s1 c := by
      rw [hend] at hc2
      by_cases h : c < s1.clearCode
      · exact Or.inl ⟨hc0, h⟩
      · exact Or.inr ⟨by omega, hclt⟩
    obtain ⟨l, hl⟩ := hi'.expands c hv
    simp only [if_neg hge, hst]
    obtain ⟨b, tl, rfl, hb0, hb1, hw⟩ := hl.walk F []
      (le_trans (hl.length_le_4096 hc4 hcc0) hF)
    rw [hw]
    simp only [hlit b hb0 hb1, List.append_nil]
    exact ⟨_, b, tl, s1.firstcode :: l0, rfl, rfl, ⟨rfl, rfl, rfl, rfl, rfl, rfl, rfl⟩,
      ⟨rfl, rfl, rfl, rfl⟩, hfo, Or.inl ⟨hclt, hv, hl⟩⟩

/-- C17, amended: in a state that satisfies the table invariant with an empty stack, when
`readLZWByte` pulls a code `c <= maxCode` that is neither the clear code nor the end code, this
call and the stack-draining calls after it return, in forward order, `S(c)` if `c < maxCode`
and `S(oldcode) ++ [first element of S(oldcode)]` if `c = maxCode`; the invariant holds again
afterwards with `oldcode = c`; when `maxCode < 4096` the entry installed at the old `maxCode`
has the string `S(oldcode) ++ [first element of the emitted string]`; and the strings of the
codes that were valid before are unchanged. -/
theorem readLZWByte_emits_code_string (F : Nat) (m : Int) (s : GIFLoader) (hF : 4096 ≤ F)
    (hinv : CodeInv m s)
    (hc0 : 0 ≤ (s.getCode s.codeSize false).1)
    (hc1 : (s.getCode s.codeSize false).1 ≠ s.clearCode)
    (hc2 : (s.getCode s.codeSize false).1 ≠ s.end_code)
    (hc3 : (s.getCode s.codeSize false).1 ≤ s.maxCode) :
    ∃ (emitted : List Int) (t : GIFLoader),
      emitted = (if (s.getCode s.codeSize false).1 < s.maxCode
        then s.stringOf (s.getCode s.codeSize false).1
        else s.stringOf s.oldcode ++ (s.stringOf s.oldcode).take 1) ∧
      emitted ≠ [] ∧
      pull F m emitted.length s = some (emitted, t) ∧
      CodeInv m t ∧ t.oldcode = (s.getCode s.codeSize false).1 ∧
      (s.maxCode < 4096 → t.maxCode = s.maxCode + 1 ∧
        t.stringOf s.maxCode = s.stringOf s.oldcode ++ emitted.take 1) ∧
      (∀ c1, ValidCode s c1 → t.stringOf c1 = s.stringOf c1) := by
  obtain ⟨hti, hstk⟩ := hinv
  have hti0 := hti
  obtain ⟨h1, h2, hsz, hfr, hend, hlit, hent, hold, l0, hfo⟩ := hti
  have hcc0 : (0 : Int) < s.clearCode := by
    rw [hsz.2.1]; positivity
  have hmc : s.maxCode ≤ 4096 := hsz.2.2.2.2.2.2.1
  have hcc : s.clearCode + 2 ≤ s.maxCode := hsz.2.2.2.2.2.1
  have holdlt : s.oldcode < s.maxCode := by
    rcases hold with ⟨_, h⟩ | ⟨_, h⟩ <;> omega
  rcases getCode_cases s s.codeSize with ⟨e, -, -⟩ | ⟨-, hlt, hsame⟩
  · rw [e] at hc0
    simp at hc0
  have hc4 : (s.getCode s.codeSize false).1 < 4096 := by
    have hp : (2 : Int) ^ s.codeSize.toNat ≤ 2 ^ 12 :=
      pow_le_pow_right₀ (by norm_num) (by have := hsz.2.2.2.1; omega)
    have : (2 : Int) ^ 12 = 4096 := by norm_num
    omega
  have hi1 : TableInv m (s.getCode s.codeSize false).2 :=
    (CodeInv.of_same_lzw hsame ⟨hti0, hstk⟩).1
  have hst1 : (s.getCode s.codeSize false).2.stack = [] :=
    (CodeInv.of_same_lzw hsame ⟨hti0, hstk⟩).2
  obtain ⟨e1, e2, e3, e4, e5, e6, e7, e8, e9, e10, e11, e12⟩ := hsame
  obtain ⟨u, b, tl, lo, hx, hust, husz, hu2, hxo, hcase⟩ :=
    expandCode_string F m (s.getCode s.codeSize false).2 (s.getCode s.codeSize false).1 hF hi1
      hst1 hc0 (by rw [e8]; exact hc1) (by rw [e9]; exact hc2) (by rw [e10]; exact hc3) hc4
  obtain ⟨ti, told, tcc, tnew, tmono⟩ :=
    installCode_tableInv m (s.getCode s.codeSize false).2 u (s.getCode s.codeSize false).1 b lo
      hi1 husz hu2 hxo hc4 (by
        rcases hcase with ⟨_, hv, hx⟩ | ⟨he, _, htl⟩
        · exact Or.inl ⟨hv, tl, hx⟩
        · exact Or.inr ⟨he, htl⟩)
  simp only [e1, e2, e5, e8, e10] at hxo hcase tmono tnew tcc
  have hvalid : ∀ c1, ValidCode (s.getCode s.codeSize false).2 c1 ↔ ValidCode s c1 := by
    intro c1
    unfold ValidCode
    rw [e8, e10]
  obtain ⟨k, rfl⟩ : ∃ k, F = k + 1 := ⟨F - 1, by omega⟩
  have hloop := lzwLoop_code (k + 1) k s u b tl hc0 (by rw [e8]; exact hc1)
    (by rw [e9]; exact hc2) hx hust
  have hcall : s.readLZWByte (k + 1) false m
      = some (b, { u.installCode (s.getCode s.codeSize false).1 with stack := tl }) := by
    unfold GIFLoader.readLZWByte
    rw [if_neg (by simp), if_neg (by rw [hfr]; simp), hstk]
    exact hloop
  have hpops := pull_pops (k + 1) m tl []
    { u.installCode (s.getCode s.codeSize false).1 with stack := tl } ti.2.2.2.1
    (by simp)
  have hstr_old : s.stringOf s.oldcode = lo := stringOf_eq s s.oldcode lo hxo (by omega) hcc0
  refine ⟨b :: tl, { u.installCode (s.getCode s.codeSize false).1 with stack := [] },
    ?_, by simp, ?_, ⟨ti, rfl⟩, told, ?_, ?_⟩
  · rcases hcase with ⟨hclt, hv, hxc⟩ | ⟨he, htl, _⟩
    · rw [if_pos hclt]
      exact (stringOf_eq s _ _ hxc hc4 hcc0).symm
    · rw [if_neg (by omega), hstr_old]
      exact htl
  · rw [List.length_cons, pull, hcall]
    simp only []
    rw [hpops]
    rfl
  · intro hlt4
    obtain ⟨hm1, hnew⟩ := tnew hlt4
    refine ⟨hm1, ?_⟩
    have : ({ u.installCode (s.getCode s.codeSize false).1 with stack := [] } : GIFLoader).stringOf
        s.maxCode = lo ++ [b] :=
      stringOf_eq _ s.maxCode (lo ++ [b]) (by
        show Expands (u.installCode (s.getCode s.codeSize false).1).clearCode
          (u.installCode (s.getCode s.codeSize false).1).table0
          (u.installCode (s.getCode s.codeSize false).1).table1 s.maxCode (lo ++ [b])
        rw [tcc]
        exact hnew) hlt4 (by
        show 0 < (u.installCode (s.getCode s.codeSize false).1).clearCode
        rw [tcc]
        exact hcc0)
    rw [this, hstr_old]
    rfl
  · intro c1 hv1
    obtain ⟨l, hl⟩ := hti0.expands c1 hv1
    have hc1lt : c1 < s.maxCode := by
      rcases hv1 with ⟨_, h⟩ | ⟨_, h⟩ <;> omega
    rw [stringOf_eq s c1 l hl (by omega) hcc0]
    exact stringOf_eq _ c1 l (by
        show Expands (u.installCode (s.getCode s.codeSize false).1).clearCode
          (u.installCode (s.getCode s.codeSize false).1).table0
          (u.installCode (s.getCode s.codeSize false).1).table1 c1 l
        rw [tcc]
        exact tmono c1 l hc1lt hl) (by omega) (by
        show 0 < (u.installCode (s.getCode s.codeSize false).1).clearCode
        rw [tcc]
        exact hcc0)

theorem fillIdentity_lit (n : Nat) (t : (Int → Int) × (Int → Int)) (i : Int) (h0 : 0 ≤ i)
    (h1 : i < n) : (fillIdentity n t).2 i = i := by
  induction n with
  | zero => simp at h1; omega
  | succ k ih =>
    simp only [fillIdentity, store]
    by_cases he : i = (k : Int)
    · rw [if_pos he, he]
    · rw [if_neg he]
      exact ih (by push_cast at h1; omega)

theorem fillRestInit_keep (start : Int) (n : Nat) (t : (Int → Int) × (Int → Int)) (i : Int)
    (h : t.2 i = i) : (fillRestInit start n t).2 i = i := by
  induction n with
  | zero => exact h
  | succ k ih =>
    simp only [fillRestInit, store]
    by_cases he : i = 0
    · rw [if_pos he, he]
    · rw [if_neg he]
      exact ih

theorem freshLoop_fields (fuel : Nat) :
    ∀ (s t : GIFLoader) (v : Int), freshLoop fuel s = some (v, t) →
      t.table0 = s.table0 ∧ t.table1 = s.table1 ∧ t.stack = s.stack ∧ t.fresh = s.fresh ∧
      t.end_code = s.end_code ∧ t.clearCode = s.clearCode ∧ t.maxCode = s.maxCode ∧
      t.oldcode = v ∧ t.firstcode = v := by
  induction fuel with
  | zero => intro s t v h; simp [freshLoop] at h
  | succ k ih =>
    intro s t v h
    rw [freshLoop] at h
    have hg : SameLzw s (s.getCode s.codeSize false).2 := by
      rcases getCode_cases s s.codeSize with ⟨e, -, -⟩ | ⟨-, -, hs⟩
      · rw [e]; exact SameLzw.refl s
      · exact hs
    obtain ⟨e1, e2, e3, e4, e5, e6, e7, e8, e9, e10, e11, e12⟩ := hg
    split_ifs at h
    · obtain ⟨a1, a2, a3, a4, a5, a6, a7, a8, a9⟩ := ih _ _ _ h
      exact ⟨a1.trans e1, a2.trans e2, a3.trans e3, a4.trans e12, a5.trans e9, a6.trans e8,
        a7.trans e10, a8, a9⟩
    · simp only [Option.some.injEq, Prod.mk.injEq] at h
      obtain ⟨hv, ht⟩ := h
      rw [← ht, ← hv]
      exact ⟨e1, e2, e3, e12, e9, e8, e10, rfl, rfl⟩

theorem readLZWByte_first_code_inv (F : Nat) (m : Int) (s s0 s1 : GIFLoader) (r v : Int)
    (h1 : 1 ≤ m) (h2 : m ≤ 11) (hinit : s.readLZWByte F true m = some (r, s0))
    (hfirst : s0.readLZWByte F false m = some (v, s1)) (hv0 : 0 ≤ v)
    (hv1 : v < 2 ^ m.toNat) : CodeInv m s1 := by
  obtain ⟨hsz0, -⟩ := readLZWByte_init_size F m h1 h2 s s0 r hinit
  obtain ⟨hsz1, -, -⟩ := readLZWByte_size F m m h1 h2 s0 s1 v hsz0 hfirst
  obtain ⟨p1, p2, p3⟩ := two_pow_size m h1 h2
  have hfields : s0.fresh = true ∧ s0.stack = [] ∧ s0.end_code = 2 ^ m.toNat + 1 ∧
      s0.clearCode = 2 ^ m.toNat ∧ s0.maxCode = 2 ^ m.toNat + 2 ∧
      ∀ i, 0 ≤ i → i < 2 ^ m.toNat → s0.table1 i = i := by
    unfold GIFLoader.readLZWByte at hinit
    rw [if_pos rfl] at hinit
    simp only [Option.some.injEq, Prod.mk.injEq] at hinit
    rw [← hinit.2]
    refine ⟨rfl, rfl, rfl, rfl, rfl, ?_⟩
    intro i hi0 hi1
    apply fillRestInit_keep
    apply fillIdentity_lit _ _ _ hi0
    rw [Int.toNat_of_nonneg (by omega)]
    exact hi1
  obtain ⟨f1, f2, f3, f4, f5, f6⟩ := hfields
  unfold GIFLoader.readLZWByte at hfirst
  rw [if_neg (by simp), if_pos f1] at hfirst
  obtain ⟨a1, a2, a3, a4, a5, a6, a7, a8, a9⟩ := freshLoop_fields F _ s1 v hfirst
  have b2 : s1.table1 = s0.table1 := a2
  have b3 : s1.stack = s0.stack := a3
  have b4 : s1.fresh = false := a4
  have b5 : s1.end_code = s0.end_code := a5
  have b6 : s1.clearCode = s0.clearCode := a6
  have b7 : s1.maxCode = s0.maxCode := a7
  refine ⟨⟨h1, h2, hsz1, b4, by rw [b5, b6, f3, f4], ?_, ?_, ?_, ?_⟩, by rw [b3, f2]⟩
  · intro c hc0 hc1
    rw [b6, f4] at hc1
    rw [b2]
    exact f6 c hc0 hc1
  · intro c hc0 hc1
    rw [b6, f4] at hc0
    rw [b7, f5] at hc1
    omega
  · unfold ValidCode
    rw [a8, b6, f4]
    exact Or.inl ⟨hv0, hv1⟩
  · rw [a8, a9, b6, f4]
    exact ⟨[], Expands.lit v hv0 hv1⟩

theorem fillRestClear_low (start : Int) (n : Nat) (t : (Int → Int) × (Int → Int)) (i : Int)
    (h : i < start) : (fillRestClear start n t).2 i = t.2 i := by
  induction n with
  | zero => rfl
  | succ k ih =>
    simp only [fillRestClear, store]
    rw [if_neg (by omega)]
    exact ih

theorem clearTable_fields (s : GIFLoader) :
    s.clearTable.2.stack = [] ∧ s.clearTable.2.fresh = s.fresh ∧
    s.clearTable.2.end_code = s.end_code ∧ s.clearTable.2.clearCode = s.clearCode ∧
    s.clearTable.2.maxCode = s.clearCode + 2 ∧
    s.clearTable.2.table1 = s.resetTable.table1 ∧
    s.clearTable.2.oldcode = s.clearTable.1 ∧ s.clearTable.2.firstcode = s.clearTable.1 := by
  have hg : SameLzw s.resetTable (s.resetTable.getCode s.resetTable.codeSize false).2 := by
    rcases getCode_cases s.resetTable s.resetTable.codeSize with ⟨e, -, -⟩ | ⟨-, -, hs⟩
    · rw [e]; exact SameLzw.refl _
    · exact hs
  obtain ⟨e1, e2, e3, e4, e5, e6, e7, e8, e9, e10, e11, e12⟩ := hg
  exact ⟨e3, e12, e9, e8, e10, e2, rfl, rfl⟩

theorem readLZWByte_clear_code_inv (F : Nat) (m : Int) (s t : GIFLoader) (v : Int)
    (hinv : CodeInv m s) (hclear : (s.getCode s.codeSize false).1 = s.clearCode)
    (hcall : s.readLZWByte F false m = some (v, t)) (hv0 : 0 ≤ v) (hv1 : v < s.clearCode) :
    CodeInv m t := by
  obtain ⟨hti, hstk⟩ := hinv
  obtain ⟨h1, h2, hsz, hfr, hend, hlit, hent, hold, l0, hfo⟩ := hti
  obtain ⟨hszt, -, -⟩ := readLZWByte_size F m m h1 h2 s t v hsz hcall
  obtain ⟨p1, p2, p3⟩ := two_pow_size m h1 h2
  have hcc : s.clearCode = 2 ^ m.toNat := hsz.2.1
  have hsame : SameLzw s (s.getCode s.codeSize false).2 := by
    rcases getCode_cases s s.codeSize with ⟨e, -, -⟩ | ⟨-, -, hs⟩
    · rw [e]; exact SameLzw.refl s
    · exact hs
  obtain ⟨e1, e2, e3, e4, e5, e6, e7, e8, e9, e10, e11, e12⟩ := hsame
  unfold GIFLoader.readLZWByte at hcall
  rw [if_neg (by simp), if_neg (by rw [hfr]; simp), hstk] at hcall
  obtain ⟨k, rfl⟩ : ∃ k, F = k + 1 := by
    cases F with
    | zero => simp [lzwLoop] at hcall
    | succ k => exact ⟨k, rfl⟩
  rw [lzwLoop] at hcall
  simp only [] at hcall
  rw [if_pos (by rw [hclear, hcc]; omega), if_pos (by rw [hclear, e8])] at hcall
  simp only [Option.some.injEq] at hcall
  obtain ⟨c1, c2, c3, c4, c5, c6, c7, c8⟩ := clearTable_fields (s.getCode s.codeSize false).2
  rw [hcall] at c1 c2 c3 c4 c5 c6 c7 c8
  simp only [] at c1 c2 c3 c4 c5 c6 c7 c8
  rw [e12] at c2
  rw [e9] at c3
  rw [e8] at c4 c5
  refine ⟨⟨h1, h2, hszt, by rw [c2]; exact hfr, by rw [c3, c4]; exact hend, ?_, ?_, ?_, ?_⟩, c1⟩
  · intro c hc0 hc1
    rw [c4] at hc1
    rw [c6]
    unfold GIFLoader.resetTable
    simp only []
    rw [fillRestClear_low _ _ _ _ (by rw [e8, Int.toNat_of_nonneg (by omega)]; exact hc1)]
    exact fillIdentity_lit _ _ _ hc0 (by rw [e8, Int.toNat_of_nonneg (by omega)]; exact hc1)
  · intro c hc0 hc1
    rw [c4] at hc0
    rw [c5] at hc1
    omega
  · unfold ValidCode
    rw [c7, c4]
    exact Or.inl ⟨hv0, hv1⟩
  · rw [c7, c8, c4]
    exact ⟨[], Expands.lit v hv0 hv1⟩

theorem readLZWByte_emits_code_string_witness :
    ∃ s : GIFLoader,
      (4096 ≤ 4096 ∧ CodeInv 2 s ∧ 0 ≤ (s.getCode s.codeSize false).1 ∧
        (s.getCode s.codeSize false).1 ≠ s.clearCode ∧
        (s.getCode s.codeSize false).1 ≠ s.end_code ∧
        (s.getCode s.codeSize false).1 ≤ s.maxCode) ∧
      (s.getCode s.codeSize false).1 = 6 ∧ s.maxCode = 6 ∧ s.stringOf s.oldcode = [0] ∧
      ∃ (emitted : List Int) (t : GIFLoader),
        emitted = (if (s.getCode s.codeSize false).1 < s.maxCode
          then s.stringOf (s.getCode s.codeSize false).1
          else s.stringOf s.oldcode ++ (s.stringOf s.oldcode).take 1) ∧
        emitted ≠ [] ∧
        pull 4096 2 emitted.length s = some (emitted, t) ∧
        CodeInv 2 t ∧ t.oldcode = (s.getCode s.codeSize false).1 ∧
        (s.maxCode < 4096 → t.maxCode = s.maxCode + 1 ∧
          t.stringOf s.maxCode = s.stringOf s.oldcode ++ emitted.take 1) ∧
        (∀ c1, ValidCode s c1 → t.stringOf c1 = s.stringOf c1) := by
  have e : (((GIFLoader.init Junk.zero [0x02, 0x84, 0x01, 0x00]).readLZWByte 4096 true 2).bind
      (fun p => (p.2.readLZWByte 4096 false 2).map (fun q =>
        (q.1, (q.2.getCode q.2.codeSize false).1, q.2.clearCode, q.2.end_code, q.2.maxCode))))
      = some (0, 6, 4, 5, 6) := by decide!
  have e2 : (((GIFLoader.init Junk.zero [0x02, 0x84, 0x01, 0x00]).readLZWByte 4096 true 2).bind
      (fun p => (p.2.readLZWByte 4096 false 2).map (fun q => q.2.stringOf q.2.oldcode)))
      = some [0] := by decide!
  cases h0 : (GIFLoader.init Junk.zero [0x02, 0x84, 0x01, 0x00]).readLZWByte 4096 true 2 with
  | none => rw [h0] at e; simp at e
  | some p =>
    obtain ⟨r, s0⟩ := p
    rw [h0] at e e2
    simp only [Option.some_bind] at e e2
    cases hp : s0.readLZWByte 4096 false 2 with
    | none => rw [hp] at e; simp at e
    | some q =>
      obtain ⟨v, s⟩ := q
      rw [hp] at e e2
      simp only [Option.map_some', Option.some.injEq, Prod.mk.injEq] at e e2
      obtain ⟨hv, hc, hcc, hec, hmc⟩ := e
      have hinv : CodeInv 2 s :=
        readLZWByte_first_code_inv 4096 2 _ s0 s r v (by decide) (by decide) h0 hp
          (by rw [hv]) (by rw [hv]; decide)
      have a0 : 0 ≤ (s.getCode s.codeSize false).1 := by rw [hc]; decide
      have a1 : (s.getCode s.codeSize false).1 ≠ s.clearCode := by rw [hc, hcc]; decide
      have a2 : (s.getCode s.codeSize false).1 ≠ s.end_code := by rw [hc, hec]; decide
      have a3 : (s.getCode s.codeSize false).1 ≤ s.maxCode := by rw [hc, hmc]
      exact ⟨s, ⟨le_refl _, hinv, a0, a1, a2, a3⟩, hc, hmc, e2,
        readLZWByte_emits_code_string 4096 2 s (le_refl _) hinv a0 a1 a2 a3⟩

/-- C17, counterexample: minimum code size 2 and the first code after the initialisation equal
to 6, which is `maxCode` at that point.  The claim gives `S(oldcode) ++ [first element of
S(oldcode)]`, here `[0, 0]`, for the values returned; the call returns the raw code 6. -/
theorem readLZWByte_first_code_is_returned_raw :
    ((GIFLoader.init Junk.zero [0x01, 0x06, 0x00]).readLZWByte 10 true 2).bind
      (fun p => (pull 10 2 1 p.2).map (fun q =>
        ((p.2.getCode p.2.codeSize false).1, p.2.maxCode, q.1,
          p.2.stringOf p.2.oldcode ++ (p.2.stringOf p.2.oldcode).take 1)))
      = some (6, 6, [6], [0, 0]) := by
  decide!

/-! ### Pixels through the global colour table (C16) -/

theorem rasterWrites_index (palette : Int → PaletteEntry) (hasAlpha : Bool) (W : Nat) :
    ∀ (vs : List Int) (k : Nat),
      (rasterWrites palette hasAlpha W k vs).map (fun w => w.index) = vs := by
  intro vs
  induction vs with
  | nil => intro k; rfl
  | cons v vs ih =>
    intro k
    simp only [rasterWrites, List.map_cons, ih, writeAt]

theorem zipWith_writeAt_index (palette : Int → PaletteEntry) (hasAlpha : Bool) (y : Int) :
    ∀ (l : List Nat) (idx : List Int),
      (List.zipWith (writeAt palette hasAlpha y) l idx).map (fun w => w.index)
        = idx.take l.length := by
  intro l
  induction l with
  | nil => intro idx; simp
  | cons a l ih =>
    intro idx
    cases idx with
    | nil => rfl
    | cons v idx =>
      simp only [List.zipWith_cons_cons, List.map_cons, ih, writeAt, List.length_cons,
        List.take_succ_cons]

theorem rowWrites_index (palette : Int → PaletteEntry) (hasAlpha : Bool) (W : Nat) :
    ∀ (rows : List Int) (idx : List Int), idx.length = W * rows.length →
      (rowWrites palette hasAlpha W rows idx).map (fun w => w.index) = idx := by
  intro rows
  induction rows with
  | nil =>
    intro idx hlen
    simp only [List.length_nil, Nat.mul_zero] at hlen
    rw [List.length_eq_zero.mp hlen]
    rfl
  | cons y rows ih =>
    intro idx hlen
    simp only [List.length_cons, Nat.mul_succ] at hlen
    rw [rowWrites, List.map_append, zipWith_writeAt_index, List.length_range',
      ih (idx.drop W) (by rw [List.length_drop]; omega), List.take_append_drop]

theorem readImage_supplied (F W H n : Nat) (s s1 u : GIFLoader) (c : Byte) (data : List Byte)
    (palette : Int → PaletteEntry) (r : Int) (il : Bool) (idx : List Int)
    (hW : 1 ≤ W) (hH : 1 ≤ H) (hfuel : min n (W * H) + 1 ≤ F)
    (hil : il = true → W * H ≤ n ∧ 4 ≤ F)
    (hin : s.input = c :: data)
    (hinit : GIFLoader.readLZWByte F { s with input := data } true c.val = some (r, s1))
    (hpull : pull F c.val (min n (W * H)) s1 = some (idx, u)) (hnn : ∀ v ∈ idx, 0 ≤ v)
    (hend : n < W * H → ∃ v u1, u.readLZWByte F false c.val = some (v, u1) ∧ v < 0) :
    ∃ ws tf, s.readImage F palette W H il (-1) false = some (true, ws, tf) ∧
      ws.map (fun w => w.index) = idx ∧
      ∀ w ∈ ws, w.value = pixelFor false (palette w.index) := by
  obtain ⟨hsup, hlen⟩ := pull_supplies F c.val (min n (W * H)) s1 u idx hpull
  have hr := readLZWByte_init_value F _ s1 _ r hinit
  have hWH : 1 ≤ W * H := Nat.mul_pos hW hH
  have hstart : ∀ ws tf,
      rasterLoop F (fun t => t.readLZWByte F false c.val) palette W H il false F s1
        ⟨0, 0, 0, 0, 0⟩ [] = some (ws, tf) →
      s.readImage F palette W H il (-1) false = some (true, ws, tf) := by
    intro ws tf h
    unfold GIFLoader.readImage
    rw [hin]
    simp only []
    rw [hinit]
    simp only []
    rw [if_neg (by omega), if_neg (by simp), h]
  cases il with
  | false =>
    obtain ⟨tf, h1, -, -⟩ := rasterLoop_plain F (fun t => t.readLZWByte F false c.val) palette
      W H false hW u idx 0 0 0 s1 [] F (by omega) (by omega) (by omega)
      (by rw [hlen]; have := Nat.min_le_right n (W * H); omega) hsup hnn
      (fun h => hend (by
        rw [hlen] at h
        simp only [Nat.zero_mul, Nat.add_zero, Nat.zero_add] at h
        exact lt_of_not_le (fun hc => by rw [Nat.min_eq_right hc] at h; omega)))
    simp only [Nat.zero_mul, Nat.add_zero, List.nil_append, Nat.cast_zero] at h1
    have hres := hstart _ _ h1
    exact ⟨_, tf, hres, rasterWrites_index palette false W idx 0,
      readImage_writes_palette F s palette W H false false true _ tf hres⟩
  | true =>
    obtain ⟨hn, hF4⟩ := hil rfl
    have hmin : min n (W * H) = W * H := Nat.min_eq_right hn
    rw [hmin] at hlen hfuel
    obtain ⟨h1, -, -⟩ := rasterLoop_interlaced F F W H (fun t => t.readLZWByte F false c.val)
      palette false idx s1 u hW hH hF4 (by omega) hlen hnn hsup
    have hres := hstart _ _ h1
    exact ⟨_, u, hres,
      rowWrites_index palette false W (interlaceRows H) idx
        (by rw [interlaceRows_length]; exact hlen),
      readImage_writes_palette F s palette W H true false true _ u hres⟩

theorem blockLoop_descriptor_pixels (F fuel W H n : Nat) (junk : Junk) (t s1 u : GIFLoader)
    (cm : Int → PaletteEntry) (gce : List Nat) (desc data : List Byte) (c : Byte) (r : Int)
    (idx : List Int)
    (hin : t.input = 0x2C :: (desc ++ c :: data)) (hd : desc.length = 9)
    (hlocal : (desc.getD 8 0).val &&& 0x80 = 0)
    (hWe : W = (desc.getD 4 0).val + 256 * (desc.getD 5 0).val)
    (hHe : H = (desc.getD 6 0).val + 256 * (desc.getD 7 0).val)
    (hW : 1 ≤ W) (hH : 1 ≤ H) (hfuel : min n (W * H) + 1 ≤ F)
    (hil : (desc.getD 8 0).val &&& 0x40 ≠ 0 → W * H ≤ n ∧ 4 ≤ F)
    (hinit : GIFLoader.readLZWByte F { t with input := data } true c.val = some (r, s1))
    (hpull : pull F c.val (min n (W * H)) s1 = some (idx, u)) (hnn : ∀ v ∈ idx, 0 ≤ v)
    (hend : n < W * H → ∃ v u1, u.readLZWByte F false c.val = some (v, u1) ∧ v < 0) :
    ∃ d ws, blockLoop F junk (fuel + 1) t cm (-1) gce = some d ∧
      d.getImage = some ⟨false, W, H, ws⟩ ∧ ws.map (fun w => w.index) = idx ∧
      ∀ w ∈ ws, w.value = .rgb (cm w.index).c0 (cm w.index).c1 (cm w.index).c2 := by
  have ht : (desc ++ c :: data).take 9 = desc := by
    rw [← hd]; exact List.take_left' rfl
  have hdr : (desc ++ c :: data).drop 9 = c :: data := by
    rw [← hd]; exact List.drop_left' rfl
  have hw : makeWord (desc.getD 4 0) (desc.getD 5 0) = (W : Int) := by
    rw [makeWord_eq, hWe]; push_cast; rfl
  have hh : makeWord (desc.getD 6 0) (desc.getD 7 0) = (H : Int) := by
    rw [makeWord_eq, hHe]; push_cast; rfl
  obtain ⟨ws, tf, hres, hidx, hval⟩ := readImage_supplied F W H n
    { t with input := c :: data } s1 u c data cm r
    (decide ((desc.getD 8 0).val &&& 0x40 ≠ 0)) idx hW hH hfuel
    (fun h => hil (of_decide_eq_true h)) rfl hinit hpull hnn hend
  have hdec := decodeImage_eq F { t with input := desc ++ c :: data } junk cm (-1) gce
  simp only [ht, hdr, hd] at hdec
  rw [if_neg (by simp), if_neg (by rw [hlocal]; simp), hw, hh] at hdec
  have hfalse : decide ((-1 : Int) ≥ 0) = false := by decide
  rw [hfalse] at hdec
  have hres' : GIFLoader.readImage F { t with input := c :: data } cm W H
      (decide ((desc.getD 8 0).val &&& 0x40 ≠ 0)) (-1) false = some (true, ws, tf) := hres
  rw [hres'] at hdec
  rw [blockLoop_at_descriptor F fuel junk t cm (-1) gce _ hin, hdec]
  refine ⟨_, ws, rfl, rfl, hidx, ?_⟩
  intro w hwm
  rw [hval w hwm]
  rfl

/-- C16: after a valid 13-byte header (magic, positive screen size) whose flags byte `f` has
bit 7 set, with the whole table in the stream, the constructor enters the block loop having
consumed exactly `3 * (2 << (f & 7))` bytes past the header, with colour-table entry `i` equal
to (R, G, B, 255) from stream bytes 13+3i, 13+3i+1, 13+3i+2; with bit 7 clear it enters the
loop right after the header.  The loop hands this table on unchanged.  At an image descriptor
without a local table, no transparent index being set, every pixel written has the RGB of the
entry of its index; and when the decompressor supplies the indices `idx` for a `W` by `H`
image (all of them for an interlaced image), the constructor returns with an image whose
writes carry exactly the indices `idx`, in order, each with the RGB of its entry. -/
theorem construct_global_colour_table (F : Nat) (junk : Junk) (inp : List Byte)
    (hm : inp.take 6 = [0x47, 0x49, 0x46, 0x38, 0x37, 0x61] ∨
          inp.take 6 = [0x47, 0x49, 0x46, 0x38, 0x39, 0x61])
    (hw : 0 < makeWord (inp.getD 6 0) (inp.getD 7 0))
    (hh : 0 < makeWord (inp.getD 8 0) (inp.getD 9 0))
    (hl : 13 + (if (inp.getD 10 0).val &&& 0x80 ≠ 0
            then 3 * (2 <<< ((inp.getD 10 0).val &&& 7)) else 0) ≤ inp.length) :
    ∃ cm : Int → PaletteEntry,
      GIFLoader.construct F junk inp = blockLoop F junk F
        { GIFLoader.init junk inp with
          input := inp.drop (13 + (if (inp.getD 10 0).val &&& 0x80 ≠ 0
            then 3 * (2 <<< ((inp.getD 10 0).val &&& 7)) else 0)) } cm (-1) [] ∧
      ((inp.getD 10 0).val &&& 0x80 ≠ 0 →
        ∀ i : Nat, i < 2 <<< ((inp.getD 10 0).val &&& 7) →
          cm i = ⟨(inp.getD (13 + 3 * i) 0).val, (inp.getD (13 + 3 * i + 1) 0).val,
            (inp.getD (13 + 3 * i + 2) 0).val, 255⟩) ∧
      (∀ (fuel : Nat) (t : GIFLoader) (gce : List Nat) (desc rest : List Byte),
        t.input = 0x2C :: (desc ++ rest) → desc.length = 9 →
        (desc.getD 8 0).val &&& 0x80 = 0 →
        ∀ d, blockLoop F junk (fuel + 1) t cm (-1) gce = some d →
          ∃ img, d.getImage = some img ∧
            ∀ w ∈ img.writes, w.value =
              .rgb (cm w.index).c0 (cm w.index).c1 (cm w.index).c2) ∧
      ∀ (fuel W H n : Nat) (t s1 u : GIFLoader) (gce : List Nat) (desc data : List Byte)
        (c : Byte) (r : Int) (idx : List Int),
        t.input = 0x2C :: (desc ++ c :: data) → desc.length = 9 →
        (desc.getD 8 0).val &&& 0x80 = 0 →
        W = (desc.getD 4 0).val + 256 * (desc.getD 5 0).val →
        H = (desc.getD 6 0).val + 256 * (desc.getD 7 0).val →
        1 ≤ W → 1 ≤ H → min n (W * H) + 1 ≤ F →
        ((desc.getD 8 0).val &&& 0x40 ≠ 0 → W * H ≤ n ∧ 4 ≤ F) →
        GIFLoader.readLZWByte F { t with input := data } true c.val = some (r, s1) →
        pull F c.val (min n (W * H)) s1 = some (idx, u) → (∀ v ∈ idx, 0 ≤ v) →
        (n < W * H → ∃ v u1, u.readLZWByte F false c.val = some (v, u1) ∧ v < 0) →
        ∃ d ws, blockLoop F junk (fuel + 1) t cm (-1) gce = some d ∧
          d.getImage = some ⟨false, W, H, ws⟩ ∧ ws.map (fun w => w.index) = idx ∧
          ∀ w ∈ ws, w.value = .rgb (cm w.index).c0 (cm w.index).c1 (cm w.index).c2 := by
  have hpix : ∀ (cm : Int → PaletteEntry) (fuel : Nat) (t : GIFLoader) (gce : List Nat)
      (desc rest : List Byte),
      t.input = 0x2C :: (desc ++ rest) → desc.length = 9 →
      (desc.getD 8 0).val &&& 0x80 = 0 →
      ∀ d, blockLoop F junk (fuel + 1) t cm (-1) gce = some d →
        ∃ img, d.getImage = some img ∧
          ∀ w ∈ img.writes, w.value =
            .rgb (cm w.index).c0 (cm w.index).c1 (cm w.index).c2 := by
    intro cm fuel t gce desc rest hin hd hf d hd1
    rw [blockLoop_at_descriptor F fuel junk t cm (-1) gce _ hin] at hd1
    have ht : ({ t with input := desc ++ rest } : GIFLoader).input.take 9 = desc := by
      show (desc ++ rest).take 9 = desc
      rw [← hd]; exact List.take_left' rfl
    exact decodeImage_global_palette F junk _ cm gce d (by rw [ht, hd]) (by rw [ht, hf]) hd1
  have hpos : ∀ (cm : Int → PaletteEntry) (fuel W H n : Nat) (t s1 u : GIFLoader)
      (gce : List Nat) (desc data : List Byte) (c : Byte) (r : Int) (idx : List Int),
      t.input = 0x2C :: (desc ++ c :: data) → desc.length = 9 →
      (desc.getD 8 0).val &&& 0x80 = 0 →
      W = (desc.getD 4 0).val + 256 * (desc.getD 5 0).val →
      H = (desc.getD 6 0).val + 256 * (desc.getD 7 0).val →
      1 ≤ W → 1 ≤ H → min n (W * H) + 1 ≤ F →
      ((desc.getD 8 0).val &&& 0x40 ≠ 0 → W * H ≤ n ∧ 4 ≤ F) →
      GIFLoader.readLZWByte F { t with input := data } true c.val = some (r, s1) →
      pull F c.val (min n (W * H)) s1 = some (idx, u) → (∀ v ∈ idx, 0 ≤ v) →
      (n < W * H → ∃ v u1, u.readLZWByte F false c.val = some (v, u1) ∧ v < 0) →
      ∃ d ws, blockLoop F junk (fuel + 1) t cm (-1) gce = some d ∧
        d.getImage = some ⟨false, W, H, ws⟩ ∧ ws.map (fun w => w.index) = idx ∧
        ∀ w ∈ ws, w.value = .rgb (cm w.index).c0 (cm w.index).c1 (cm w.index).c2 := by
    intro cm fuel W H n t s1 u gce desc data c r idx a1 a2 a3 a4 a5 a6 a7 a8 a9 a10 a11 a12 a13
    exact blockLoop_descriptor_pixels F fuel W H n junk t s1 u cm gce desc data c r idx
      a1 a2 a3 a4 a5 a6 a7 a8 a9 a10 a11 a12 a13
  have hc := construct_valid_header F junk inp hm hw hh (by omega)
  by_cases hf : (inp.getD 10 0).val &&& 0x80 ≠ 0
  · rw [if_pos hf] at hc hl ⊢
    have hst : (({ GIFLoader.init junk inp with input := inp.drop 13 } : GIFLoader).readColourMap
        junk (2 <<< ((inp.getD 10 0).val &&& 7)) junk.colourMap).2.2
        = { GIFLoader.init junk inp with
            input := inp.drop (13 + 3 * (2 <<< ((inp.getD 10 0).val &&& 7))) } := by
      simp only [GIFLoader.readColourMap, readColourMapLoop_input, List.drop_drop]
    rw [hst] at hc
    refine ⟨_, hc, ?_, hpix _, hpos _⟩
    intro _ i hi
    have he := (readColourMapLoop_entries (2 <<< ((inp.getD 10 0).val &&& 7)) 0 (inp.drop 13)
      (fun i => (junk.rgb i).val) junk.colourMap
      (by rw [List.length_drop]; omega)).1 i hi
    simp only [zero_add] at he
    simp only [GIFLoader.readColourMap]
    rw [he]
    simp only [List.getD_eq_getElem?_getD, List.getElem?_drop, Nat.add_assoc]
  · rw [if_neg hf] at hc ⊢
    exact ⟨_, hc, fun h => absurd h hf, hpix _, hpos _⟩

theorem construct_global_colour_table_witness :
    (((header2 1 1 ++ descriptor 2 1 0 ++ [0x02, 0x02, 0x0C, 0x0A, 0x00, 0x3B]).take 6
          = [0x47, 0x49, 0x46, 0x38, 0x37, 0x61] ∨
        (header2 1 1 ++ descriptor 2 1 0 ++ [0x02, 0x02, 0x0C, 0x0A, 0x00, 0x3B]).take 6
          = [0x47, 0x49, 0x46, 0x38, 0x39, 0x61]) ∧
      0 < makeWord
        ((header2 1 1 ++ descriptor 2 1 0 ++ [0x02, 0x02, 0x0C, 0x0A, 0x00, 0x3B]).getD 6 0)
        ((header2 1 1 ++ descriptor 2 1 0 ++ [0x02, 0x02, 0x0C, 0x0A, 0x00, 0x3B]).getD 7 0) ∧
      0 < makeWord
        ((header2 1 1 ++ descriptor 2 1 0 ++ [0x02, 0x02, 0x0C, 0x0A, 0x00, 0x3B]).getD 8 0)
        ((header2 1 1 ++ descriptor 2 1 0 ++ [0x02, 0x02, 0x0C, 0x0A, 0x00, 0x3B]).getD 9 0) ∧
      13 + 3 * 2 ≤
        (header2 1 1 ++ descriptor 2 1 0 ++ [0x02, 0x02, 0x0C, 0x0A, 0x00, 0x3B]).length) ∧
    (∃ d ws,
      GIFLoader.construct 10 Junk.zero
        (header2 1 1 ++ descriptor 2 1 0 ++ [0x02, 0x02, 0x0C, 0x0A, 0x00, 0x3B]) = some d ∧
      d.getImage = some ⟨false, (2 : Nat), (1 : Nat), ws⟩ ∧
      ws.map (fun w => w.index) = [1, 0] ∧
      ∀ w ∈ ws, (w.index = 0 → w.value = .rgb 255 255 255) ∧
        (w.index = 1 → w.value = .rgb 0 0 0)) ∧
    (GIFLoader.construct 10 Junk.zero
        (header2 1 1 ++ descriptor 2 1 0 ++ [0x02, 0x02, 0x0C, 0x0A, 0x00, 0x3B])).map
        Decoded.getImage
      = some (some ⟨false, 2, 1, [⟨0, 0, 1, .rgb 0 0 0⟩, ⟨1, 0, 0, .rgb 255 255 255⟩]⟩) := by
  refine ⟨⟨Or.inr (by rfl), by decide, by decide, by decide⟩, ?_, by decide!⟩
  obtain ⟨cm, h1, h2, -, h5⟩ := construct_global_colour_table 10 Junk.zero
    (header2 1 1 ++ descriptor 2 1 0 ++ [0x02, 0x02, 0x0C, 0x0A, 0x00, 0x3B])
    (Or.inr (by rfl)) (by decide) (by decide) (by decide)
  have e : ((GIFLoader.readLZWByte 10
      { GIFLoader.init Junk.zero
          (header2 1 1 ++ descriptor 2 1 0 ++ [0x02, 0x02, 0x0C, 0x0A, 0x00, 0x3B]) with
        input := [0x02, 0x0C, 0x0A, 0x00, 0x3B] } true (0x02 : Byte).val).bind
      (fun p => (pull 10 (0x02 : Byte).val (min 2 (2 * 1)) p.2).map (fun q => (p.1, q.1))))
      = some (0, [1, 0]) := by decide!
  cases h0 : GIFLoader.readLZWByte 10
      { GIFLoader.init Junk.zero
          (header2 1 1 ++ descriptor 2 1 0 ++ [0x02, 0x02, 0x0C, 0x0A, 0x00, 0x3B]) with
        input := [0x02, 0x0C, 0x0A, 0x00, 0x3B] } true (0x02 : Byte).val with
  | none => rw [h0] at e; simp at e
  | some p =>
    obtain ⟨r, s1⟩ := p
    rw [h0] at e
    simp only [Option.some_bind] at e
    cases hp : pull 10 (0x02 : Byte).val (min 2 (2 * 1)) s1 with
    | none => rw [hp] at e; simp at e
    | some q =>
      obtain ⟨vs, u⟩ := q
      rw [hp] at e
      simp only [Option.map_some', Option.some.injEq, Prod.mk.injEq] at e
      obtain ⟨hr, hv⟩ := e
      subst hv
      obtain ⟨d, ws, hd, hi, hx, hc⟩ := h5 9 2 1 2
        { GIFLoader.init Junk.zero
            (header2 1 1 ++ descriptor 2 1 0 ++ [0x02, 0x02, 0x0C, 0x0A, 0x00, 0x3B]) with
          input := (header2 1 1 ++ descriptor 2 1 0 ++
            [0x02, 0x02, 0x0C, 0x0A, 0x00, 0x3B]).drop 19 }
        s1 u [] [0, 0, 0, 0, 2, 0, 1, 0, 0] [0x02, 0x0C, 0x0A, 0x00, 0x3B] 0x02 r [1, 0]
        (by rfl) (by rfl) (by decide) (by decide) (by decide) (by decide) (by decide)
        (by decide) (fun h => absurd h (by decide)) h0 hp (by decide)
        (fun h => absurd h (by decide))
      refine ⟨d, ws, h1.trans hd, hi, hx, ?_⟩
      intro w hw
      have hcw := hc w hw
      have e0 := h2 (by decide) 0 (by decide)
      have e1 := h2 (by decide) 1 (by decide)
      constructor
      · intro hz
        rw [hcw, hz]
        have e0' : cm 0 = ⟨255, 255, 255, 255⟩ := by rw [show (0 : Int) = ((0 : Nat) : Int) from rfl, e0]; decide
        rw [e0']
      · intro hz
        rw [hcw, hz]
        have e1' : cm 1 = ⟨0, 0, 0, 255⟩ := by rw [show (1 : Int) = ((1 : Nat) : Int) from rfl, e1]; decide
        rw [e1']

end GIF
